import Mathlib

/-!
# SIKE P503 r1: key encapsulation layer and Montgomery field engine

A shallow embedding of `pq-crypto/sike_r1/sike_r1_kem.c` and
`pq-crypto/sike_r1/fpx_r1.c`.

Conventions of the embedding.
* A byte buffer is a `List Nat`; a C pointer `buf + off` is `buf.drop off`.
* A function writing through an output pointer returns the new buffer.
* Constants of the header `P503_internal_r1.h` (not part of the sources at hand)
  and the external collaborators (hash, isogeny walk) are fields of a context
  record, so every statement holds for any value of them.
* Return codes are `Int`: `0` is success, `-1` is `S2N_FAILURE`.
-/

namespace SikeR1

/-! ## Byte-buffer primitives -/

/-- The value `S2N_SUCCESS`. -/
def S2N_SUCCESS : Int := 0

/-- The value `S2N_FAILURE`, returned by the `POSIX_ENSURE` / `POSIX_GUARD` family. -/
def S2N_FAILURE : Int := -1

/-- The C call `memcpy(dst + off, src, n)`: bytes `[off, off+n)` of `dst` are replaced by the
first `n` bytes of `src`. -/
def memcpy (dst : List Nat) (off : Nat) (src : List Nat) (n : Nat) : List Nat :=
  dst.take off ++ src.take n ++ dst.drop (off + n)

/-- An uninitialised local array of `n` bytes: its contents are whatever `garbage` says. -/
def uninit (n : Nat) (garbage : Nat → Nat) : List Nat :=
  (List.range n).map garbage

/-- The loop `for (i = 0; i < n; i++) dst[i + doff] = a[i + aoff] ^ b[i];`. -/
def xor_loop (n : Nat) (dst : List Nat) (doff : Nat) (a : List Nat) (aoff : Nat)
    (b : List Nat) : List Nat :=
  (List.range n).foldl (fun d i => d.set (i + doff) (a.getD (i + aoff) 0 ^^^ b.getD i 0)) dst

/-- The statement `buf[i] &= mask;`. -/
def and_assign (buf : List Nat) (i : Nat) (mask : Nat) : List Nat :=
  buf.set i (buf.getD i 0 &&& mask)

/-- The helper `s2n_constant_time_equals(a, b, len)` of `utils/s2n_safety`: true exactly when the
first `len` bytes agree. -/
def s2n_constant_time_equals (a b : List Nat) (len : Nat) : Bool :=
  decide (a.take len = b.take len)

/-- The helper `s2n_constant_time_copy_or_dont(dest, src, len, dont)` of `utils/s2n_safety`:
copies `len` bytes from `src` to `dest` unless `dont` is set. -/
def s2n_constant_time_copy_or_dont (dest src : List Nat) (len : Nat) (dont : Bool) : List Nat :=
  if dont then dest else memcpy dest 0 src len

/-- Bytewise exclusive or of two buffers. -/
def xor_bytes (a b : List Nat) : List Nat :=
  List.zipWith (fun x y => x ^^^ y) a b

/-! ## Context of the KEM layer -/

/-- Constants of `P503_internal_r1.h` and the external collaborators used by the KEM layer. -/
structure KemCtx where
  /-- Length of the random message / seed. -/
  MSG_BYTES : Nat
  /-- Length of a role-A secret scalar. -/
  SECRETKEY_A_BYTES : Nat
  /-- Length of a role-B secret scalar. -/
  SECRETKEY_B_BYTES : Nat
  /-- Length of a public key. -/
  SIKE_P503_R1_PUBLIC_KEY_BYTES : Nat
  /-- Length of the shared secret. -/
  SIKE_P503_R1_SHARED_SECRET_BYTES : Nat
  /-- Length of an encoded j-invariant. -/
  FP2_ENCODED_BYTES : Nat
  /-- Mask applied to the top byte of a role-A scalar. -/
  MASK_ALICE : Nat
  /-- The hash `cshake256_simple(out, outlen, cstm, in, inlen)`, as
  `cshake256_simple outlen cstm in[0..inlen)`. -/
  cshake256_simple : Nat → Nat → List Nat → List Nat
  /-- Isogeny collaborator, role A key generation: secret scalar to public key. -/
  EphemeralKeyGeneration_A : List Nat → List Nat
  /-- Isogeny collaborator, role B key generation: secret scalar to public key. -/
  EphemeralKeyGeneration_B : List Nat → List Nat
  /-- Isogeny collaborator, role A agreement: the j-invariant it writes. -/
  EphemeralSecretAgreement_A : List Nat → List Nat → List Nat
  /-- Isogeny collaborator, role B agreement: its return code and the j-invariant it writes. -/
  EphemeralSecretAgreement_B : List Nat → List Nat → Int × List Nat

namespace KemCtx

/-- The ciphertext length, `SIKE_P503_R1_PUBLIC_KEY_BYTES + MSG_BYTES`. -/
def SIKE_P503_R1_CIPHERTEXT_BYTES (K : KemCtx) : Nat :=
  K.SIKE_P503_R1_PUBLIC_KEY_BYTES + K.MSG_BYTES

/-- The secret key length, `MSG_BYTES + SECRETKEY_B_BYTES + SIKE_P503_R1_PUBLIC_KEY_BYTES`. -/
def SIKE_P503_R1_SECRET_KEY_BYTES (K : KemCtx) : Nat :=
  K.MSG_BYTES + K.SECRETKEY_B_BYTES + K.SIKE_P503_R1_PUBLIC_KEY_BYTES

/-- Collaborators write exactly the number of bytes their interface announces. -/
structure WellFormed (K : KemCtx) : Prop where
  cshake_length : ∀ outlen cstm inp, (K.cshake256_simple outlen cstm inp).length = outlen
  keygenA_length : ∀ s, (K.EphemeralKeyGeneration_A s).length = K.SIKE_P503_R1_PUBLIC_KEY_BYTES
  keygenB_length : ∀ s, (K.EphemeralKeyGeneration_B s).length = K.SIKE_P503_R1_PUBLIC_KEY_BYTES
  agreeA_length : ∀ s pk, (K.EphemeralSecretAgreement_A s pk).length = K.FP2_ENCODED_BYTES
  agreeB_length : ∀ s pk, (K.EphemeralSecretAgreement_B s pk).2.length = K.FP2_ENCODED_BYTES

/-- Correctness of the isogeny collaborator: for every role-B scalar and role-A scalar, both
roles reach the same j-invariant, and role B reports success on the genuine role-A public
key. -/
def IsogenyCorrect (K : KemCtx) : Prop :=
  ∀ skB skA : List Nat, skB.length = K.SECRETKEY_B_BYTES → skA.length = K.SECRETKEY_A_BYTES →
    K.EphemeralSecretAgreement_B skB (K.EphemeralKeyGeneration_A skA) =
      (0, K.EphemeralSecretAgreement_A skA (K.EphemeralKeyGeneration_B skB))

end KemCtx

/-! ## The three KEM entry points (`sike_r1_kem.c`) -/

/-- Domain separator `G`. -/
def G : Nat := 0

/-- Domain separator `H`. -/
def H : Nat := 1

/-- Domain separator `P`. -/
def P : Nat := 2

/-- Key generation, `SIKE_P503_r1_crypto_kem_keypair(pk, sk)`.

* `pq_enabled` is the value of `s2n_pq_is_enabled()`;
* `seed_draw` is the outcome of `s2n_get_random_bytes(sk, MSG_BYTES)`: `none` is an error
  (nothing written), `some bytes` the bytes it wrote;
* `scalar_draw` is the outcome of `random_mod_order_B(_sk)`: return code and bytes written;
* `pk`, `sk` are the caller's buffers on entry.

Returns the return code and the buffers `pk`, `sk` on exit. -/
def SIKE_P503_r1_crypto_kem_keypair (K : KemCtx) (pq_enabled : Bool)
    (seed_draw : Option (List Nat)) (scalar_draw : Int × List Nat)
    (pk sk : List Nat) : Int × List Nat × List Nat :=
  -- POSIX_ENSURE(s2n_pq_is_enabled(), S2N_ERR_PQ_DISABLED);
  if !pq_enabled then (S2N_FAILURE, pk, sk) else
  -- POSIX_GUARD_RESULT(s2n_get_random_bytes(sk, MSG_BYTES));
  match seed_draw with
  | none => (S2N_FAILURE, pk, sk)
  | some seed =>
    let sk := memcpy sk 0 seed K.MSG_BYTES
    -- POSIX_GUARD(random_mod_order_B((unsigned char*)_sk));
    if scalar_draw.1 < S2N_SUCCESS then (S2N_FAILURE, pk, sk) else
    let _sk := scalar_draw.2.take K.SECRETKEY_B_BYTES
    -- EphemeralKeyGeneration_B(_sk, pk);
    let pk := memcpy pk 0 (K.EphemeralKeyGeneration_B _sk) K.SIKE_P503_R1_PUBLIC_KEY_BYTES
    -- memcpy(sk + MSG_BYTES, _sk, SECRETKEY_B_BYTES);
    let sk := memcpy sk K.MSG_BYTES _sk K.SECRETKEY_B_BYTES
    -- memcpy(&sk[MSG_BYTES + SECRETKEY_B_BYTES], pk, SIKE_P503_R1_PUBLIC_KEY_BYTES);
    let sk := memcpy sk (K.MSG_BYTES + K.SECRETKEY_B_BYTES) pk K.SIKE_P503_R1_PUBLIC_KEY_BYTES
    (0, pk, sk)

/-- Encapsulation, `SIKE_P503_r1_crypto_kem_enc(ct, ss, pk)`.

* `msg_draw` is the outcome of `s2n_get_random_bytes(temp, MSG_BYTES)`;
* `garbage` is the content of the uninitialised local `temp`;
* `ct`, `ss` are the caller's output buffers on entry, `pk` the public key.

Returns the return code and the buffers `ct`, `ss` on exit. -/
def SIKE_P503_r1_crypto_kem_enc (K : KemCtx) (pq_enabled : Bool)
    (msg_draw : Option (List Nat)) (garbage : Nat → Nat)
    (ct ss pk : List Nat) : Int × List Nat × List Nat :=
  if !pq_enabled then (S2N_FAILURE, ct, ss) else
  let temp := uninit (K.SIKE_P503_R1_CIPHERTEXT_BYTES + K.MSG_BYTES) garbage
  -- POSIX_GUARD_RESULT(s2n_get_random_bytes(temp, MSG_BYTES));
  match msg_draw with
  | none => (S2N_FAILURE, ct, ss)
  | some m =>
    let temp := memcpy temp 0 m K.MSG_BYTES
    -- memcpy(&temp[MSG_BYTES], pk, SIKE_P503_R1_PUBLIC_KEY_BYTES);
    let temp := memcpy temp K.MSG_BYTES pk K.SIKE_P503_R1_PUBLIC_KEY_BYTES
    -- cshake256_simple(ephemeralsk.b, SECRETKEY_A_BYTES, G, temp, PUBLIC_KEY_BYTES+MSG_BYTES);
    let ephemeralsk := K.cshake256_simple K.SECRETKEY_A_BYTES G
      (temp.take (K.SIKE_P503_R1_PUBLIC_KEY_BYTES + K.MSG_BYTES))
    -- ephemeralsk.b[SECRETKEY_A_BYTES - 1] &= MASK_ALICE;
    let ephemeralsk := and_assign ephemeralsk (K.SECRETKEY_A_BYTES - 1) K.MASK_ALICE
    -- EphemeralKeyGeneration_A(ephemeralsk.d, ct);
    let ct := memcpy ct 0 (K.EphemeralKeyGeneration_A ephemeralsk) K.SIKE_P503_R1_PUBLIC_KEY_BYTES
    -- EphemeralSecretAgreement_A(ephemeralsk.d, pk, jinvariant);
    -- (the collaborator is handed a public key: the first PUBLIC_KEY_BYTES bytes at `pk`)
    let jinvariant := K.EphemeralSecretAgreement_A ephemeralsk
      (pk.take K.SIKE_P503_R1_PUBLIC_KEY_BYTES)
    -- cshake256_simple(h, MSG_BYTES, P, jinvariant, FP2_ENCODED_BYTES);
    let h := K.cshake256_simple K.MSG_BYTES P (jinvariant.take K.FP2_ENCODED_BYTES)
    -- for (i = 0; i < MSG_BYTES; i++) ct[i + PUBLIC_KEY_BYTES] = temp[i] ^ h[i];
    let ct := xor_loop K.MSG_BYTES ct K.SIKE_P503_R1_PUBLIC_KEY_BYTES temp 0 h
    -- memcpy(&temp[MSG_BYTES], ct, SIKE_P503_R1_CIPHERTEXT_BYTES);
    let temp := memcpy temp K.MSG_BYTES ct K.SIKE_P503_R1_CIPHERTEXT_BYTES
    -- cshake256_simple(ss, SHARED_SECRET_BYTES, H, temp, CIPHERTEXT_BYTES+MSG_BYTES);
    let ss := memcpy ss 0
      (K.cshake256_simple K.SIKE_P503_R1_SHARED_SECRET_BYTES H
        (temp.take (K.SIKE_P503_R1_CIPHERTEXT_BYTES + K.MSG_BYTES)))
      K.SIKE_P503_R1_SHARED_SECRET_BYTES
    (0, ct, ss)

/-- Decapsulation, `SIKE_P503_r1_crypto_kem_dec(ss, ct, sk)`.

* `garbage` is the content of the uninitialised local `temp` (the other locals are written in
  full before they are read);
* `ss` is the caller's output buffer on entry, `ct` the ciphertext, `sk` the secret key.

Returns the return code and the buffer `ss` on exit. -/
def SIKE_P503_r1_crypto_kem_dec (K : KemCtx) (pq_enabled : Bool) (garbage : Nat → Nat)
    (ss ct sk : List Nat) : Int × List Nat :=
  if !pq_enabled then (S2N_FAILURE, ss) else
  let temp := uninit (K.SIKE_P503_R1_CIPHERTEXT_BYTES + K.MSG_BYTES) garbage
  -- bool dont_copy = 1;
  let dont_copy := true
  -- memcpy(_sk, sk + MSG_BYTES, SECRETKEY_B_BYTES);
  let _sk := (sk.drop K.MSG_BYTES).take K.SECRETKEY_B_BYTES
  -- if (!(EphemeralSecretAgreement_B(_sk, ct, jinvariant_) == 0)) goto S2N_SIKE_P503_R1_HASHING;
  -- (the collaborator is handed a public key: the first PUBLIC_KEY_BYTES bytes at `ct`)
  let agreement := K.EphemeralSecretAgreement_B _sk (ct.take K.SIKE_P503_R1_PUBLIC_KEY_BYTES)
  let decrypted : List Nat × Bool :=
    if !(agreement.1 == 0) then (temp, dont_copy) else
    let jinvariant_ := agreement.2
    -- cshake256_simple(h_, MSG_BYTES, P, jinvariant_, FP2_ENCODED_BYTES);
    let h_ := K.cshake256_simple K.MSG_BYTES P (jinvariant_.take K.FP2_ENCODED_BYTES)
    -- for (i = 0; i < MSG_BYTES; i++) temp[i] = ct[i + PUBLIC_KEY_BYTES] ^ h_[i];
    let temp := xor_loop K.MSG_BYTES temp 0 ct K.SIKE_P503_R1_PUBLIC_KEY_BYTES h_
    -- memcpy(&temp[MSG_BYTES], &sk[MSG_BYTES + SECRETKEY_B_BYTES], PUBLIC_KEY_BYTES);
    let temp := memcpy temp K.MSG_BYTES (sk.drop (K.MSG_BYTES + K.SECRETKEY_B_BYTES))
      K.SIKE_P503_R1_PUBLIC_KEY_BYTES
    -- cshake256_simple(ephemeralsk_.b, SECRETKEY_A_BYTES, G, temp, PUBLIC_KEY_BYTES+MSG_BYTES);
    let ephemeralsk_ := K.cshake256_simple K.SECRETKEY_A_BYTES G
      (temp.take (K.SIKE_P503_R1_PUBLIC_KEY_BYTES + K.MSG_BYTES))
    -- ephemeralsk_.b[SECRETKEY_A_BYTES - 1] &= MASK_ALICE;
    let ephemeralsk_ := and_assign ephemeralsk_ (K.SECRETKEY_A_BYTES - 1) K.MASK_ALICE
    -- EphemeralKeyGeneration_A(ephemeralsk_.d, c0_);
    let c0_ := K.EphemeralKeyGeneration_A ephemeralsk_
    -- dont_copy = s2n_constant_time_equals(c0_, ct, SIKE_P503_R1_PUBLIC_KEY_BYTES);
    (temp, s2n_constant_time_equals c0_ ct K.SIKE_P503_R1_PUBLIC_KEY_BYTES)
  let temp := decrypted.1
  let dont_copy := decrypted.2
  -- S2N_SIKE_P503_R1_HASHING:
  -- s2n_constant_time_copy_or_dont(temp, sk, MSG_BYTES, dont_copy);
  let temp := s2n_constant_time_copy_or_dont temp sk K.MSG_BYTES dont_copy
  -- memcpy(&temp[MSG_BYTES], ct, SIKE_P503_R1_CIPHERTEXT_BYTES);
  let temp := memcpy temp K.MSG_BYTES ct K.SIKE_P503_R1_CIPHERTEXT_BYTES
  -- cshake256_simple(ss, SHARED_SECRET_BYTES, H, temp, CIPHERTEXT_BYTES+MSG_BYTES);
  let ss := memcpy ss 0
    (K.cshake256_simple K.SIKE_P503_R1_SHARED_SECRET_BYTES H
      (temp.take (K.SIKE_P503_R1_CIPHERTEXT_BYTES + K.MSG_BYTES)))
    K.SIKE_P503_R1_SHARED_SECRET_BYTES
  (0, ss)

/-! ## A concrete context, used to evaluate the entry points on inputs -/

/-- A small stand-in for the hash: byte `i` of the output is the sum of the input bytes, the
domain separator and `i`. -/
def demo_cshake (outlen cstm : Nat) (inp : List Nat) : List Nat :=
  (List.range outlen).map (fun i => inp.sum + cstm + i)

/-- A stand-in isogeny context with the P503 lengths: a public key repeats the sum of the scalar
bytes, agreement multiplies the own scalar sum with the peer's public value, and role B rejects
public keys that are not of that shape. -/
def demoKem : KemCtx where
  MSG_BYTES := 24
  SECRETKEY_A_BYTES := 32
  SECRETKEY_B_BYTES := 32
  SIKE_P503_R1_PUBLIC_KEY_BYTES := 378
  SIKE_P503_R1_SHARED_SECRET_BYTES := 16
  FP2_ENCODED_BYTES := 126
  MASK_ALICE := 3
  cshake256_simple := demo_cshake
  EphemeralKeyGeneration_A := fun s => List.replicate 378 s.sum
  EphemeralKeyGeneration_B := fun s => List.replicate 378 s.sum
  EphemeralSecretAgreement_A := fun s pk => List.replicate 126 (s.sum * pk.headD 0)
  EphemeralSecretAgreement_B := fun s pk =>
    (if pk = List.replicate 378 (pk.headD 0) then 0 else -1,
      List.replicate 126 (s.sum * pk.headD 0))

/-- A caller buffer of `n` zero bytes. -/
def zeros (n : Nat) : List Nat := List.replicate n 0

/-- The seed drawn in the demonstration runs. -/
def demoSeed : List Nat := List.replicate 24 5

/-- The role-B scalar drawn in the demonstration runs. -/
def demoScalar : List Nat := List.replicate 32 1

/-- The message drawn in the demonstration runs. -/
def demoMsg : List Nat := List.replicate 24 9

/-- The secret key `seed ‖ scalar ‖ pk` of the demonstration runs. -/
def demoSk : List Nat := demoSeed ++ demoScalar ++ List.replicate 378 32

/-- The public key that belongs to `demoScalar`. -/
def demoPk : List Nat := List.replicate 378 32

/-- A ciphertext whose first component role B rejects. -/
def demoBadCt : List Nat := 1 :: List.replicate 401 0

/-- The result of encapsulating `demoMsg` to `demoPk`. -/
def demoEnc : Int × List Nat × List Nat :=
  SIKE_P503_r1_crypto_kem_enc demoKem true (some demoMsg) (fun _ => 0) (zeros 402) (zeros 16)
    demoPk

/-! ## Multiprecision digit arrays (`fpx_r1.c`) -/

/-- The natural number held by a little-endian array of `RADIX`-bit digits. -/
def value (RADIX : Nat) : List Nat → Nat
  | [] => 0
  | d :: ds => d + 2 ^ RADIX * value RADIX ds

/-- The `n` low digits of `v`, little-endian, `RADIX` bits each. -/
def toDigits (RADIX : Nat) : Nat → Nat → List Nat
  | 0, _ => []
  | n + 1, v => v % 2 ^ RADIX :: toDigits RADIX n (v / 2 ^ RADIX)

/-- A well-formed digit array: `n` digits, each below `2 ^ RADIX`. -/
def IsDigits (RADIX n : Nat) (a : List Nat) : Prop :=
  a.length = n ∧ ∀ d ∈ a, d < 2 ^ RADIX

instance (RADIX n : Nat) (a : List Nat) : Decidable (IsDigits RADIX n a) := by
  unfold IsDigits
  infer_instance

/-- The prime `p503 = 2^250 * 3^159 - 1` (the table `PRIME`, as a number). -/
def p503 : Nat := 2 ^ 250 * 3 ^ 159 - 1

/-- Constants of `P503_internal_r1.h` and the two multiprecision primitives whose code lives in
another file: the double-width product `mp_mul(a, b, c, nwords)` and the Montgomery reduction
`rdc_mont(ma, mc)`. -/
structure FieldCtx where
  /-- Number of bits of a digit. -/
  RADIX : Nat
  /-- Number of digits of a field element. -/
  NWORDS_FIELD : Nat
  /-- The product `mp_mul(a, b, c, nwords)`, as `c = mp_mul a b nwords`. -/
  mp_mul : List Nat → List Nat → Nat → List Nat
  /-- The reduction `rdc_mont(ma, mc)`, as `mc = rdc_mont ma`. -/
  rdc_mont : List Nat → List Nat

namespace FieldCtx

/-- The Montgomery radix `R = 2 ^ (RADIX * NWORDS_FIELD)`. -/
def R (F : FieldCtx) : Nat := 2 ^ (F.RADIX * F.NWORDS_FIELD)

/-- A field element in the lazy range: `NWORDS_FIELD` digits holding a value in `[0, 2p)`. -/
def IsFelm (F : FieldCtx) (a : List Nat) : Prop :=
  IsDigits F.RADIX F.NWORDS_FIELD a ∧ value F.RADIX a < 2 * p503

instance (F : FieldCtx) (a : List Nat) : Decidable (F.IsFelm a) := by
  unfold IsFelm
  infer_instance

/-- The contract of the two primitives: `R = 2^512`, `mp_mul` is the exact double-width product,
and `rdc_mont` maps every `T < p * R` to a value below `2p` congruent to `T * R⁻¹` modulo `p`
(stated as `rdc_mont T * R ≡ T`). -/
structure Sound (F : FieldCtx) : Prop where
  radix_words : F.RADIX * F.NWORDS_FIELD = 512
  mp_mul_digits : ∀ a b n, IsDigits F.RADIX n a → IsDigits F.RADIX n b →
    IsDigits F.RADIX (2 * n) (F.mp_mul a b n)
  mp_mul_value : ∀ a b n, IsDigits F.RADIX n a → IsDigits F.RADIX n b →
    value F.RADIX (F.mp_mul a b n) = value F.RADIX a * value F.RADIX b
  rdc_mont_digits : ∀ T, IsDigits F.RADIX (2 * F.NWORDS_FIELD) T →
    value F.RADIX T < p503 * F.R → IsDigits F.RADIX F.NWORDS_FIELD (F.rdc_mont T)
  rdc_mont_lt : ∀ T, IsDigits F.RADIX (2 * F.NWORDS_FIELD) T →
    value F.RADIX T < p503 * F.R → value F.RADIX (F.rdc_mont T) < 2 * p503
  rdc_mont_congr : ∀ T, IsDigits F.RADIX (2 * F.NWORDS_FIELD) T →
    value F.RADIX T < p503 * F.R →
    value F.RADIX (F.rdc_mont T) * F.R ≡ value F.RADIX T [MOD p503]

end FieldCtx

/-- The global constant `Montgomery_R2`: the digits of `R^2 mod p`. -/
def Montgomery_R2 (F : FieldCtx) : List Nat :=
  toDigits F.RADIX F.NWORDS_FIELD (F.R ^ 2 % p503)

/-- Copy of a field element, `fpcopy(a, c)`: `c[i] = a[i]` for `i < NWORDS_FIELD`. -/
def fpcopy (F : FieldCtx) (a : List Nat) : List Nat :=
  (List.range F.NWORDS_FIELD).map (fun i => a.getD i 0)

/-- Zeroing of a field element, `fpzero(a)`: `a[i] = 0` for `i < NWORDS_FIELD`. -/
def fpzero (F : FieldCtx) : List Nat :=
  (List.range F.NWORDS_FIELD).map (fun _ => 0)

/-- Montgomery multiplication, `fpmul_mont(ma, mb, mc)`. -/
def fpmul_mont (F : FieldCtx) (ma mb : List Nat) : List Nat :=
  -- mp_mul(ma, mb, temp, NWORDS_FIELD);
  let temp := F.mp_mul ma mb F.NWORDS_FIELD
  -- rdc_mont(temp, mc);
  F.rdc_mont temp

/-- Montgomery squaring, `fpsqr_mont(ma, mc)`. -/
def fpsqr_mont (F : FieldCtx) (ma : List Nat) : List Nat :=
  -- mp_mul(ma, ma, temp, NWORDS_FIELD);
  let temp := F.mp_mul ma ma F.NWORDS_FIELD
  -- rdc_mont(temp, mc);
  F.rdc_mont temp

/-- Modelled from the spec: `fpcorrection` (its code is not in the files at hand) conditionally
subtracts `p` zero, one, or two times until the value is canonical in `[0, p)`. -/
def fpcorrection (F : FieldCtx) (a : List Nat) : List Nat :=
  let v := value F.RADIX a
  let v := if p503 ≤ v then v - p503 else v
  let v := if p503 ≤ v then v - p503 else v
  toDigits F.RADIX F.NWORDS_FIELD v

/-- Conversion to Montgomery representation, `to_mont(a, mc)`. -/
def to_mont (F : FieldCtx) (a : List Nat) : List Nat :=
  -- fpmul_mont(a, (const digit_t*)&Montgomery_R2, mc);
  fpmul_mont F a (Montgomery_R2 F)

/-- Conversion from Montgomery representation, `from_mont(ma, c)`. -/
def from_mont (F : FieldCtx) (ma : List Nat) : List Nat :=
  -- digit_t one[NWORDS_FIELD] = {0};
  let one := List.replicate F.NWORDS_FIELD 0
  -- one[0] = 1;
  let one := one.set 0 1
  -- fpmul_mont(ma, one, c);
  let c := fpmul_mont F ma one
  -- fpcorrection(c);
  fpcorrection F c

/-- The precomputed table of `fpinv_chain_mont`: `t[0] = a * a^2` and `t[i+1] = t[i] * a^2`,
with `tt = a^2` computed by `fpsqr_mont(a, tt)`. -/
def fpinv_chain_t (F : FieldCtx) (a : List Nat) : Nat → List Nat
  -- fpmul_mont(a, tt, t[0]);
  | 0 => fpmul_mont F a (fpsqr_mont F a)
  -- for (i = 0; i <= 13; i++) fpmul_mont(t[i], tt, t[i+1]);
  | i + 1 => fpmul_mont F (fpinv_chain_t F a i) (fpsqr_mont F a)

/-- The loop `for (i = 0; i < n; i++) fpsqr_mont(tt, tt);`. -/
def fpsqr_loop (F : FieldCtx) : Nat → List Nat → List Nat
  | 0, tt => tt
  | n + 1, tt => fpsqr_loop F n (fpsqr_mont F tt)

/-- The straight-line part of `fpinv_chain_mont` after `fpcopy(a, tt)`, one entry per pair of
lines `for (i = 0; i < n; i++) fpsqr_mont(tt, tt); fpmul_mont(x, tt, tt);` in source order:
`(n, none)` when `x` is `a`, `(n, some k)` when `x` is `t[k]`; the closing
`for (j = 0; j < 49; j++)` loop contributes 49 copies of `(5, some 14)`. -/
def fpinv_chain_steps : List (Nat × Option Nat) :=
  [(8, none), (5, some 8), (5, some 6), (6, some 9), (7, some 0), (7, none), (7, some 6),
   (7, some 2), (5, some 8), (7, none), (8, some 10), (5, some 0), (6, some 10), (5, some 10),
   (5, some 5), (5, some 2), (5, some 6), (5, some 3), (6, some 5), (12, some 12), (5, some 8),
   (5, some 6), (5, some 12), (6, some 11), (8, some 6), (5, some 5), (5, some 14),
   (7, some 14), (5, some 5), (5, some 6), (8, some 8), (5, none), (8, some 4), (5, some 6),
   (5, some 5), (8, some 7), (5, none), (5, some 0), (5, some 11), (5, some 13), (8, some 1),
   (6, some 10)]
  ++ List.replicate 49 (5, some 14)

/-- One pair of lines of the chain: `n` squarings of `tt`, then `fpmul_mont(x, tt, tt)`. -/
def fpinv_chain_step (F : FieldCtx) (a : List Nat) (tt : List Nat) (st : Nat × Option Nat) :
    List Nat :=
  let x := match st.2 with
    | none => a
    | some k => fpinv_chain_t F a k
  fpmul_mont F x (fpsqr_loop F st.1 tt)

/-- The addition chain `fpinv_chain_mont(a)`, computing `a^((p-3)/4)`. -/
def fpinv_chain_mont (F : FieldCtx) (a : List Nat) : List Nat :=
  -- fpcopy(a, tt);
  let tt := fpcopy F a
  let tt := fpinv_chain_steps.foldl (fpinv_chain_step F a) tt
  -- fpcopy(tt, a);
  fpcopy F tt

/-- Field inversion, `fpinv_mont(a)`; the result is the new content of `a`. -/
def fpinv_mont (F : FieldCtx) (a : List Nat) : List Nat :=
  -- fpcopy(a, tt);
  let tt := fpcopy F a
  -- fpinv_chain_mont(tt);
  let tt := fpinv_chain_mont F tt
  -- fpsqr_mont(tt, tt); fpsqr_mont(tt, tt);
  let tt := fpsqr_mont F tt
  let tt := fpsqr_mont F tt
  -- fpmul_mont(a, tt, a);
  fpmul_mont F a tt

/-- The exponent the chain reaches from exponent `e`: `n` squarings multiply it by `2^n`, the
multiplication by `a` adds 1 and the multiplication by `t[k]` adds `2k + 3`. -/
def fpinv_chain_exp (steps : List (Nat × Option Nat)) (e : Nat) : Nat :=
  steps.foldl (fun e st => (match st.2 with | none => 1 | some k => 2 * k + 3) + e * 2 ^ st.1) e

/-! ## A concrete field context: textbook Montgomery reduction on 64-bit digits -/

/-- The constant `-p⁻¹ mod 2^512`. -/
def p503_neg_inv : Nat := (1 + 3 ^ 159 * 2 ^ 250 + 3 ^ 318 * 2 ^ 500) % 2 ^ 512

/-- Modelled from the spec: `rdc_mont` (its code is not in the files at hand) is Montgomery
reduction producing a field-element-width result in `[0, 2p)`, here as a number:
`(T + (T * (-p⁻¹) mod R) * p) / R` without final subtraction. -/
def redc (T : Nat) : Nat :=
  (T + (T * p503_neg_inv % 2 ^ 512) * p503) / 2 ^ 512

/-- The field context with `RADIX = 64`, `NWORDS_FIELD = 8`, the exact product and `redc`. -/
def stdField : FieldCtx where
  RADIX := 64
  NWORDS_FIELD := 8
  mp_mul := fun a b n => toDigits 64 (2 * n) (value 64 a * value 64 b)
  rdc_mont := fun T => toDigits 64 8 (redc (value 64 T))

/-! ## Certificate of primality of `p503` -/

/-- Multiplication of Gaussian integers modulo `n`, on pairs of naturals. -/
def gmul (n : Nat) (x y : Nat × Nat) : Nat × Nat :=
  ((x.1 * y.1 + (n - (x.2 * y.2) % n)) % n, (x.1 * y.2 + x.2 * y.1) % n)

/-- Binary exponentiation `acc * b ^ e` of Gaussian integers modulo `n`, with `f` rounds. -/
def gpow (n : Nat) : Nat → Nat → Nat × Nat → Nat × Nat → Nat × Nat
  | 0, _, _, acc => acc
  | f + 1, e, b, acc =>
    gpow n f (e / 2) (gmul n b b) (if e % 2 = 1 then gmul n acc b else acc)

/-- The element `(1 + 2i)^(p-1)` modulo `p503`; it has norm one. -/
def alpha : Nat × Nat := gpow p503 503 (p503 - 1) (1, 2) (1, 0)

/-- The norm of `alpha ^ k - 1` modulo `p503`, up to a multiple of `p503`. -/
def normAt (k : Nat) : Nat :=
  ((gpow p503 503 k alpha (1, 0)).1 + p503 - 1) ^ 2 + ((gpow p503 503 k alpha (1, 0)).2) ^ 2

/-- Gaussian integers over `ZMod n`. -/
@[ext]
structure GInt (n : ℕ) where
  /-- Real part. -/
  re : ZMod n
  /-- Imaginary part. -/
  im : ZMod n

instance (n : ℕ) : Mul (GInt n) :=
  ⟨fun x y => ⟨x.re * y.re - x.im * y.im, x.re * y.im + x.im * y.re⟩⟩

instance (n : ℕ) : One (GInt n) := ⟨⟨1, 0⟩⟩

instance (n : ℕ) : Monoid (GInt n) where
  mul_assoc a b c := by
    ext
    · show (a.re * b.re - a.im * b.im) * c.re - (a.re * b.im + a.im * b.re) * c.im
        = a.re * (b.re * c.re - b.im * c.im) - a.im * (b.re * c.im + b.im * c.re)
      ring
    · show (a.re * b.re - a.im * b.im) * c.im + (a.re * b.im + a.im * b.re) * c.re
        = a.re * (b.re * c.im + b.im * c.re) + a.im * (b.re * c.re - b.im * c.im)
      ring
  one_mul a := by
    ext
    · show 1 * a.re - 0 * a.im = a.re
      ring
    · show 1 * a.im + 0 * a.re = a.im
      ring
  mul_one a := by
    ext
    · show a.re * 1 - a.im * 0 = a.re
      ring
    · show a.re * 0 + a.im * 1 = a.im
      ring

/-- Pairs and Gaussian integers are the same data. -/
def GInt.equivProd (n : ℕ) : ZMod n × ZMod n ≃ GInt n where
  toFun x := ⟨x.1, x.2⟩
  invFun x := (x.re, x.im)
  left_inv _ := rfl
  right_inv _ := rfl

instance (n : ℕ) [NeZero n] : Fintype (GInt n) := Fintype.ofEquiv _ (GInt.equivProd n)

/-- Reduction of a pair of naturals to a Gaussian integer over `ZMod r`. -/
def toG (r : ℕ) (x : Nat × Nat) : GInt r := ⟨(x.1 : ZMod r), (x.2 : ZMod r)⟩

/-- The element of GF(p) that a Montgomery residue stands for: `value a * R⁻¹`. -/
def montVal (F : FieldCtx) (a : List Nat) : ZMod p503 :=
  (value F.RADIX a : ZMod p503) * ((F.R : ℕ) : ZMod p503)⁻¹

/-! ## Multiprecision add, subtract, shift (`fpx_r1.c`) -/

/-- Modelled from the spec: the macro `ADDC(carryIn, addend1, addend2, carryOut, sumOut)` of the
absent header is digit addition with exact carry propagation; the result is
`(carryOut, sumOut)`. -/
def ADDC (RADIX carryIn addend1 addend2 : Nat) : Nat × Nat :=
  ((addend1 + addend2 + carryIn) / 2 ^ RADIX, (addend1 + addend2 + carryIn) % 2 ^ RADIX)

/-- Modelled from the spec: the macro `SUBC(borrowIn, minuend, subtrahend, borrowOut,
differenceOut)` of the absent header is digit subtraction with exact borrow propagation; the
result is `(borrowOut, differenceOut)`. -/
def SUBC (RADIX borrowIn minuend subtrahend : Nat) : Nat × Nat :=
  let borrowOut := if minuend < subtrahend + borrowIn then 1 else 0
  (borrowOut, (minuend + borrowOut * 2 ^ RADIX - (subtrahend + borrowIn)) % 2 ^ RADIX)

/-- Modelled from the spec: the macro `SHIFTR(highIn, lowIn, shift, shiftOut, DigitSize)` of the
absent header is the logical right shift of the double digit `highIn:lowIn`, kept to one digit:
`lowIn` moves down by `shift` bits and the low `shift` bits of `highIn` fill the top. -/
def SHIFTR (highIn lowIn shift DigitSize : Nat) : Nat :=
  lowIn / 2 ^ shift + (highIn % 2 ^ shift) * 2 ^ (DigitSize - shift)

/-- Multiprecision addition, `mp_add(a, b, c, nwords)`: the returned carry and the `nwords`
digits written to `c`. Digit `i` of `c` is written after `a[i]` and `b[i]` were read and no
lower digit is read again, so the result is the same when `c` is `a` or `b`. -/
def mp_add (RADIX : Nat) (a b : List Nat) (nwords : Nat) : Nat × List Nat :=
  -- unsigned int i, carry = 0;
  -- for (i = 0; i < nwords; i++) ADDC(carry, a[i], b[i], carry, c[i]);
  (List.range nwords).foldl
    (fun (st : Nat × List Nat) i =>
      ((ADDC RADIX st.1 (a.getD i 0) (b.getD i 0)).1,
        st.2 ++ [(ADDC RADIX st.1 (a.getD i 0) (b.getD i 0)).2]))
    (0, [])

/-- Multiprecision subtraction, `mp_sub(a, b, c, nwords)`: the returned borrow and the `nwords`
digits written to `c` (which may be `a` or `b`, as for `mp_add`). -/
def mp_sub (RADIX : Nat) (a b : List Nat) (nwords : Nat) : Nat × List Nat :=
  -- unsigned int i, borrow = 0;
  -- for (i = 0; i < nwords; i++) SUBC(borrow, a[i], b[i], borrow, c[i]);
  (List.range nwords).foldl
    (fun (st : Nat × List Nat) i =>
      ((SUBC RADIX st.1 (a.getD i 0) (b.getD i 0)).1,
        st.2 ++ [(SUBC RADIX st.1 (a.getD i 0) (b.getD i 0)).2]))
    (0, [])

/-- Multiprecision right shift by one, `mp_shiftr1(x, nwords)`, in place. -/
def mp_shiftr1 (RADIX : Nat) (x : List Nat) (nwords : Nat) : List Nat :=
  -- for (i = 0; i < nwords-1; i++) SHIFTR(x[i+1], x[i], 1, x[i], RADIX);
  let x := (List.range (nwords - 1)).foldl
    (fun (x : List Nat) i => x.set i (SHIFTR (x.getD (i + 1) 0) (x.getD i 0) 1 RADIX)) x
  -- x[nwords-1] >>= 1;
  x.set (nwords - 1) (x.getD (nwords - 1) 0 / 2)

/-- Field-length addition, `mp_addfast(a, b, c)`: the carry of `mp_add` is dropped. -/
def mp_addfast (F : FieldCtx) (a b : List Nat) : List Nat :=
  -- mp_add(a, b, c, NWORDS_FIELD);
  (mp_add F.RADIX a b F.NWORDS_FIELD).2

/-- Double-length addition, `mp_addfastx2(a, b, c)`: the carry of `mp_add` is dropped. -/
def mp_addfastx2 (F : FieldCtx) (a b : List Nat) : List Nat :=
  -- mp_add(a, b, c, 2*NWORDS_FIELD);
  (mp_add F.RADIX a b (2 * F.NWORDS_FIELD)).2

/-- Double-length subtraction, `mp_subfast(a, b, c)`: the returned mask
`0 - (digit_t)mp_sub(a, b, c, 2*NWORDS_FIELD)` in digit arithmetic, and the digits of `c`. -/
def mp_subfast (F : FieldCtx) (a b : List Nat) : Nat × List Nat :=
  let r := mp_sub F.RADIX a b (2 * F.NWORDS_FIELD)
  ((2 ^ F.RADIX - r.1 % 2 ^ F.RADIX) % 2 ^ F.RADIX, r.2)

/-! ## GF(p^2) multiplication and squaring (`fpx_r1.c`) -/

/-- Modelled from the spec: the constant table `PRIME` (defined in an absent file) holds the
digits of the prime modulus `p`. -/
def PRIME (F : FieldCtx) : List Nat :=
  toDigits F.RADIX F.NWORDS_FIELD p503

/-- The field context extended by the modular subtraction `fpsub(a, b, c)`, whose code lives in
another file. -/
structure FpxCtx extends FieldCtx where
  /-- The subtraction `fpsub(a, b, c)`, as `c = fpsub a b`. -/
  fpsub : List Nat → List Nat → List Nat

/-- The contract of `fpsub`: on operands in `[0, 2p)` the result is in `[0, 2p)` and congruent
to `a - b` modulo `p` (stated as `fpsub a b + b ≡ a`). -/
def FpxCtx.FpsubSound (X : FpxCtx) : Prop :=
  ∀ a b, X.IsFelm a → X.IsFelm b →
    X.IsFelm (X.fpsub a b)
      ∧ value X.RADIX (X.fpsub a b) + value X.RADIX b ≡ value X.RADIX a [MOD p503]

/-- Modular correction in GF(p^2), `fp2correction(a)`. -/
def fp2correction (F : FieldCtx) (a : List Nat × List Nat) : List Nat × List Nat :=
  -- fpcorrection(a->e[0]); fpcorrection(a->e[1]);
  (fpcorrection F a.1, fpcorrection F a.2)

/-- The local variables of `fp2mul_mont` at the end of the call, with the values returned by
the calls whose result the code drops. -/
structure Fp2MulTrace where
  /-- The carry returned by `mp_add` inside `mp_addfast(a0, a1, t1)`. -/
  carry_t1 : Nat
  /-- The carry returned by `mp_add` inside `mp_addfast(b0, b1, t2)`. -/
  carry_t2 : Nat
  /-- The variable `mask`. -/
  mask : Nat
  /-- The variable `borrow` after the `ADDC` loop. -/
  borrow : Nat
  /-- The variable `tt3` as handed to `rdc_mont`. -/
  tt3 : List Nat
  /-- The carry returned by `mp_add` inside `mp_addfastx2(tt1, tt2, tt1)`. -/
  carry_tt1 : Nat
  /-- The mask returned by the second `mp_subfast`, which the code drops. -/
  mask2 : Nat
  /-- The variable `tt2` as handed to `rdc_mont`. -/
  tt2 : List Nat
  /-- The output `c->e[0]`. -/
  c0 : List Nat
  /-- The output `c->e[1]`. -/
  c1 : List Nat

/-- The body of `fp2mul_mont(a, b, c)`, statement by statement. -/
def fp2mul_mont_trace (F : FieldCtx) (a b : List Nat × List Nat) : Fp2MulTrace :=
  -- unsigned int i, borrow = 0;
  let borrow := 0
  -- mp_mul(a->e[0], b->e[0], tt1, NWORDS_FIELD);
  let tt1 := F.mp_mul a.1 b.1 F.NWORDS_FIELD
  -- mp_mul(a->e[1], b->e[1], tt2, NWORDS_FIELD);
  let tt2 := F.mp_mul a.2 b.2 F.NWORDS_FIELD
  -- mp_addfast(a->e[0], a->e[1], t1);
  let t1 := mp_addfast F a.1 a.2
  -- mp_addfast(b->e[0], b->e[1], t2);
  let t2 := mp_addfast F b.1 b.2
  -- mask = mp_subfast(tt1, tt2, tt3);
  let mask := (mp_subfast F tt1 tt2).1
  let tt3 := (mp_subfast F tt1 tt2).2
  -- for (i = 0; i < NWORDS_FIELD; i++)
  --     ADDC(borrow, tt3[NWORDS_FIELD+i], PRIME[i] & mask, borrow, tt3[NWORDS_FIELD+i]);
  let looped := (List.range F.NWORDS_FIELD).foldl
    (fun (st : Nat × List Nat) i =>
      ((ADDC F.RADIX st.1 (st.2.getD (F.NWORDS_FIELD + i) 0) ((PRIME F).getD i 0 &&& mask)).1,
        st.2.set (F.NWORDS_FIELD + i)
          (ADDC F.RADIX st.1 (st.2.getD (F.NWORDS_FIELD + i) 0)
            ((PRIME F).getD i 0 &&& mask)).2))
    (borrow, tt3)
  let borrow := looped.1
  let tt3 := looped.2
  -- rdc_mont(tt3, c->e[0]);
  let c0 := F.rdc_mont tt3
  -- mp_addfastx2(tt1, tt2, tt1);
  let tt1 := mp_addfastx2 F tt1 tt2
  -- mp_mul(t1, t2, tt2, NWORDS_FIELD);
  let tt2 := F.mp_mul t1 t2 F.NWORDS_FIELD
  -- mp_subfast(tt2, tt1, tt2);
  let mask2 := (mp_subfast F tt2 tt1).1
  let tt2 := (mp_subfast F tt2 tt1).2
  -- rdc_mont(tt2, c->e[1]);
  let c1 := F.rdc_mont tt2
  { carry_t1 := (mp_add F.RADIX a.1 a.2 F.NWORDS_FIELD).1
    carry_t2 := (mp_add F.RADIX b.1 b.2 F.NWORDS_FIELD).1
    mask := mask
    borrow := borrow
    tt3 := tt3
    carry_tt1 := (mp_add F.RADIX (F.mp_mul a.1 b.1 F.NWORDS_FIELD)
      (F.mp_mul a.2 b.2 F.NWORDS_FIELD) (2 * F.NWORDS_FIELD)).1
    mask2 := mask2
    tt2 := tt2
    c0 := c0
    c1 := c1 }

/-- GF(p^2) multiplication, `fp2mul_mont(a, b, c)`: the pair `(c->e[0], c->e[1])`. -/
def fp2mul_mont (F : FieldCtx) (a b : List Nat × List Nat) : List Nat × List Nat :=
  ((fp2mul_mont_trace F a b).c0, (fp2mul_mont_trace F a b).c1)

/-- The local variables of `fp2sqr_mont` at the end of the call, with the carries the code
drops. -/
structure Fp2SqrTrace where
  /-- The carry returned by `mp_add` inside `mp_addfast(a0, a1, t1)`. -/
  carry_t1 : Nat
  /-- The carry returned by `mp_add` inside `mp_addfast(a0, a0, t3)`. -/
  carry_t3 : Nat
  /-- The variable `t1`. -/
  t1 : List Nat
  /-- The variable `t2`. -/
  t2 : List Nat
  /-- The variable `t3`. -/
  t3 : List Nat
  /-- The output `c->e[0]`. -/
  c0 : List Nat
  /-- The output `c->e[1]`. -/
  c1 : List Nat

/-- The body of `fp2sqr_mont(a, c)`, statement by statement. -/
def fp2sqr_mont_trace (X : FpxCtx) (a : List Nat × List Nat) : Fp2SqrTrace :=
  -- mp_addfast(a->e[0], a->e[1], t1);
  let t1 := mp_addfast X.toFieldCtx a.1 a.2
  -- fpsub(a->e[0], a->e[1], t2);
  let t2 := X.fpsub a.1 a.2
  -- mp_addfast(a->e[0], a->e[0], t3);
  let t3 := mp_addfast X.toFieldCtx a.1 a.1
  -- fpmul_mont(t1, t2, c->e[0]);
  let c0 := fpmul_mont X.toFieldCtx t1 t2
  -- fpmul_mont(t3, a->e[1], c->e[1]);
  let c1 := fpmul_mont X.toFieldCtx t3 a.2
  { carry_t1 := (mp_add X.RADIX a.1 a.2 X.NWORDS_FIELD).1
    carry_t3 := (mp_add X.RADIX a.1 a.1 X.NWORDS_FIELD).1
    t1 := t1
    t2 := t2
    t3 := t3
    c0 := c0
    c1 := c1 }

/-- GF(p^2) squaring, `fp2sqr_mont(a, c)`: the pair `(c->e[0], c->e[1])`. -/
def fp2sqr_mont (X : FpxCtx) (a : List Nat × List Nat) : List Nat × List Nat :=
  ((fp2sqr_mont_trace X a).c0, (fp2sqr_mont_trace X a).c1)

/-! ## Concrete contexts for the GF(p^2) layer and for exponent tracking -/

/-- Modelled from the spec: `fpsub` (its code is not in the files at hand) is subtraction
modulo `p` on the lazy range: `a - b`, with `2p` added back when the subtraction borrows. -/
def fpsub_2p (a b : Nat) : Nat :=
  if b ≤ a then a - b else a + 2 * p503 - b

/-- The context `stdField` with that subtraction on 64-bit digits. -/
def stdFpx : FpxCtx where
  toFieldCtx := stdField
  fpsub := fun a b => toDigits 64 8 (fpsub_2p (value 64 a) (value 64 b))

/-- A context that tracks only exponents of `a`: a field element is the one-digit array `[e]`
standing for `a^e`, multiplication adds exponents and reduction does nothing. -/
def expField : FieldCtx where
  RADIX := 64
  NWORDS_FIELD := 1
  mp_mul := fun a b _ => [a.getD 0 0 + b.getD 0 0]
  rdc_mont := fun T => T

/-- The element `(3 + 5·2^64) + (7 + 2^128)·i` used in the evaluations. -/
def demoF2a : List Nat × List Nat := ([3, 5, 0, 0, 0, 0, 0, 0], [7, 0, 1, 0, 0, 0, 0, 0])

/-- The element `(2p - 1) + 11·i` used in the evaluations. -/
def demoF2b : List Nat × List Nat := (toDigits 64 8 (2 * p503 - 1), [11, 0, 0, 0, 0, 0, 0, 0])

/-- What holds of the variables of `fp2mul_mont` on operands in `[0, 2p)`. -/
structure Fp2MulFacts (F : FieldCtx) (a b : List Nat × List Nat) : Prop where
  carry_t1 : (fp2mul_mont_trace F a b).carry_t1 = 0
  carry_t2 : (fp2mul_mont_trace F a b).carry_t2 = 0
  carry_tt1 : (fp2mul_mont_trace F a b).carry_tt1 = 0
  mask2 : (fp2mul_mont_trace F a b).mask2 = 0
  mask : (fp2mul_mont_trace F a b).mask
    = if value F.RADIX a.1 * value F.RADIX b.1 < value F.RADIX a.2 * value F.RADIX b.2
      then 2 ^ F.RADIX - 1 else 0
  borrow : (fp2mul_mont_trace F a b).borrow
    = if value F.RADIX a.1 * value F.RADIX b.1 < value F.RADIX a.2 * value F.RADIX b.2
      then 1 else 0
  tt3_digits : IsDigits F.RADIX (2 * F.NWORDS_FIELD) (fp2mul_mont_trace F a b).tt3
  tt3_value : value F.RADIX (fp2mul_mont_trace F a b).tt3
      + value F.RADIX a.2 * value F.RADIX b.2
    = value F.RADIX a.1 * value F.RADIX b.1
      + (if value F.RADIX a.1 * value F.RADIX b.1 < value F.RADIX a.2 * value F.RADIX b.2
          then p503 * F.R else 0)
  tt3_lt : value F.RADIX (fp2mul_mont_trace F a b).tt3 < p503 * F.R
  tt2_digits : IsDigits F.RADIX (2 * F.NWORDS_FIELD) (fp2mul_mont_trace F a b).tt2
  tt2_value : value F.RADIX (fp2mul_mont_trace F a b).tt2
    = value F.RADIX a.1 * value F.RADIX b.2 + value F.RADIX a.2 * value F.RADIX b.1
  tt2_lt : value F.RADIX (fp2mul_mont_trace F a b).tt2 < p503 * F.R
  c0_felm : F.IsFelm (fp2mul_mont_trace F a b).c0
  c0_congr : value F.RADIX (fp2mul_mont_trace F a b).c0 * F.R
    ≡ value F.RADIX (fp2mul_mont_trace F a b).tt3 [MOD p503]
  c1_felm : F.IsFelm (fp2mul_mont_trace F a b).c1
  c1_congr : value F.RADIX (fp2mul_mont_trace F a b).c1 * F.R
    ≡ value F.RADIX (fp2mul_mont_trace F a b).tt2 [MOD p503]

/-- The element `11 + (2p - 1)·i` used in the evaluations. -/
def demoF2c : List Nat × List Nat := ([11, 0, 0, 0, 0, 0, 0, 0], toDigits 64 8 (2 * p503 - 1))

/-! # Theorems -/

/-! ## Buffer lemmas -/

theorem memcpy_append_left (a rest src : List Nat) (off n : Nat)
    (ha : a.length = off) (hs : src.length = n) :
    memcpy (a ++ rest) off src n = a ++ src ++ rest.drop n := by
  subst ha hs
  simp [memcpy]

theorem memcpy_zero (dst src : List Nat) (n : Nat) (hs : src.length = n) :
    memcpy dst 0 src n = src ++ dst.drop n := by
  subst hs
  simp [memcpy]

theorem length_uninit (n : Nat) (g : Nat → Nat) : (uninit n g).length = n := by
  simp [uninit]

theorem take_uninit (n k : Nat) (g : Nat → Nat) (h : k ≤ n) :
    (uninit n g).take k = uninit k g := by
  simp [uninit, ← List.map_take, List.take_range, Nat.min_eq_left h]

theorem xor_loop_eq (n : Nat) (dst : List Nat) (doff : Nat) (a : List Nat) (aoff : Nat)
    (b : List Nat) (h : doff + n ≤ dst.length) :
    xor_loop n dst doff a aoff b =
      dst.take doff ++ (List.range n).map (fun i => a.getD (i + aoff) 0 ^^^ b.getD i 0)
        ++ dst.drop (doff + n) := by
  induction n with
  | zero => simp [xor_loop]
  | succ n ih =>
    have ih := ih (by omega)
    unfold xor_loop at ih ⊢
    rw [List.range_succ, List.foldl_append, ih]
    simp only [List.foldl_cons, List.foldl_nil, List.map_append, List.map_cons, List.map_nil]
    have hlen : (List.take doff dst ++
        List.map (fun i => a.getD (i + aoff) 0 ^^^ b.getD i 0) (List.range n)).length
          = n + doff := by
      simp; omega
    rw [List.set_append, if_neg (by rw [hlen]; omega), hlen, Nat.sub_self,
      List.drop_eq_getElem_cons (by omega : doff + n < dst.length), List.set_cons_zero]
    simp [Nat.add_assoc]

theorem map_range_xor (n : Nat) (a : List Nat) (aoff : Nat) (b : List Nat)
    (ha : aoff + n ≤ a.length) (hb : n ≤ b.length) :
    (List.range n).map (fun i => a.getD (i + aoff) 0 ^^^ b.getD i 0)
      = xor_bytes ((a.drop aoff).take n) (b.take n) := by
  apply List.ext_getElem
  · simp [xor_bytes]; omega
  · intro i h1 h2
    simp at h1
    have h3 : i + aoff < a.length := by omega
    have h4 : i < b.length := by omega
    have h5 : aoff + i < a.length := by omega
    simp [xor_bytes, List.getD_eq_getElem?_getD, List.getElem?_eq_getElem h3,
      List.getElem?_eq_getElem h4, List.getElem?_eq_getElem h5, Nat.add_comm]

theorem xor_bytes_cancel (m h : List Nat) (hl : m.length = h.length) :
    xor_bytes (xor_bytes m h) h = m := by
  induction m generalizing h with
  | nil => simp [xor_bytes]
  | cons x xs ih =>
    cases h with
    | nil => simp at hl
    | cons y ys =>
      simp only [xor_bytes, List.zipWith_cons_cons, List.cons.injEq]
      exact ⟨by rw [Nat.xor_assoc, Nat.xor_self, Nat.xor_zero], ih ys (by simpa using hl)⟩

theorem length_xor_bytes (a b : List Nat) : (xor_bytes a b).length = min a.length b.length := by
  simp [xor_bytes]

theorem take_memcpy (t src : List Nat) (off n : Nat) (ht : off ≤ t.length)
    (hs : src.length = n) : (memcpy t off src n).take (n + off) = t.take off ++ src := by
  subst hs
  have h1 : (List.take off t ++ src).length = src.length + off := by
    simp [Nat.min_eq_left ht, Nat.add_comm]
  simp only [memcpy, List.take_length]
  rw [← h1, List.take_left]

/-! ## Decapsulation, path by path -/

theorem memcpy_out (ss out : List Nat) (n : Nat) (hss : ss.length = n) (ho : out.length = n) :
    memcpy ss 0 out n = out := by
  rw [memcpy_zero ss out n ho, List.drop_eq_nil_of_le (by omega)]
  simp

/-- On the path where the agreement fails, the hashed message is the first `MSG_BYTES` bytes of
the uninitialised buffer `temp`. -/
theorem dec_failure_eq (K : KemCtx) (hK : K.WellFormed) (g : Nat → Nat) (ss ct sk : List Nat)
    (hss : ss.length = K.SIKE_P503_R1_SHARED_SECRET_BYTES)
    (hct : ct.length = K.SIKE_P503_R1_CIPHERTEXT_BYTES)
    (hfail : (K.EphemeralSecretAgreement_B ((sk.drop K.MSG_BYTES).take K.SECRETKEY_B_BYTES)
      (ct.take K.SIKE_P503_R1_PUBLIC_KEY_BYTES)).1 ≠ 0) :
    SIKE_P503_r1_crypto_kem_dec K true g ss ct sk =
      (0, K.cshake256_simple K.SIKE_P503_R1_SHARED_SECRET_BYTES H (uninit K.MSG_BYTES g ++ ct)) := by
  have hne : ((K.EphemeralSecretAgreement_B ((sk.drop K.MSG_BYTES).take K.SECRETKEY_B_BYTES)
      (ct.take K.SIKE_P503_R1_PUBLIC_KEY_BYTES)).1 == 0) = false := by
    simpa using hfail
  simp only [SIKE_P503_r1_crypto_kem_dec, hne, Bool.not_true, Bool.not_false, if_true,
    Bool.false_eq_true, if_false, s2n_constant_time_copy_or_dont]
  rw [take_memcpy _ ct _ _ (by rw [length_uninit]; omega) hct,
    take_uninit _ _ _ (by omega), memcpy_out _ _ _ hss (hK.cshake_length _ _ _)]

/-- On the path where the agreement succeeds with j-invariant `j`, the hashed message is the
recovered message if the re-derived public key matches, the seed otherwise. -/
theorem dec_success_eq (K : KemCtx) (hK : K.WellFormed) (g : Nat → Nat) (ss ct sk j : List Nat)
    (hss : ss.length = K.SIKE_P503_R1_SHARED_SECRET_BYTES)
    (hct : ct.length = K.SIKE_P503_R1_CIPHERTEXT_BYTES)
    (hsk : sk.length = K.SIKE_P503_R1_SECRET_KEY_BYTES)
    (hagree : K.EphemeralSecretAgreement_B ((sk.drop K.MSG_BYTES).take K.SECRETKEY_B_BYTES)
      (ct.take K.SIKE_P503_R1_PUBLIC_KEY_BYTES) = (0, j)) :
    SIKE_P503_r1_crypto_kem_dec K true g ss ct sk =
      (0, K.cshake256_simple K.SIKE_P503_R1_SHARED_SECRET_BYTES H
        ((if K.EphemeralKeyGeneration_A
              (and_assign
                (K.cshake256_simple K.SECRETKEY_A_BYTES G
                  (xor_bytes (ct.drop K.SIKE_P503_R1_PUBLIC_KEY_BYTES)
                      (K.cshake256_simple K.MSG_BYTES P j)
                    ++ sk.drop (K.MSG_BYTES + K.SECRETKEY_B_BYTES)))
                (K.SECRETKEY_A_BYTES - 1) K.MASK_ALICE)
              = ct.take K.SIKE_P503_R1_PUBLIC_KEY_BYTES
          then xor_bytes (ct.drop K.SIKE_P503_R1_PUBLIC_KEY_BYTES)
            (K.cshake256_simple K.MSG_BYTES P j)
          else sk.take K.MSG_BYTES) ++ ct)) := by
  have hj : j.take K.FP2_ENCODED_BYTES = j := by
    have := hK.agreeB_length ((sk.drop K.MSG_BYTES).take K.SECRETKEY_B_BYTES)
      (ct.take K.SIKE_P503_R1_PUBLIC_KEY_BYTES)
    rw [hagree] at this
    exact List.take_of_length_le (by simp at this; omega)
  have hCT : K.SIKE_P503_R1_CIPHERTEXT_BYTES = K.SIKE_P503_R1_PUBLIC_KEY_BYTES + K.MSG_BYTES := rfl
  have hSK : K.SIKE_P503_R1_SECRET_KEY_BYTES
      = K.MSG_BYTES + K.SECRETKEY_B_BYTES + K.SIKE_P503_R1_PUBLIC_KEY_BYTES := rfl
  have hh : (K.cshake256_simple K.MSG_BYTES P j).length = K.MSG_BYTES := hK.cshake_length _ _ _
  -- the recovered message
  have hm : (List.range K.MSG_BYTES).map
      (fun i => ct.getD (i + K.SIKE_P503_R1_PUBLIC_KEY_BYTES) 0
        ^^^ (K.cshake256_simple K.MSG_BYTES P j).getD i 0)
      = xor_bytes (ct.drop K.SIKE_P503_R1_PUBLIC_KEY_BYTES)
          (K.cshake256_simple K.MSG_BYTES P j) := by
    rw [map_range_xor _ _ _ _ (by omega) (by omega), List.take_of_length_le (by simp; omega),
      List.take_of_length_le (by omega)]
  have hml : (xor_bytes (ct.drop K.SIKE_P503_R1_PUBLIC_KEY_BYTES)
      (K.cshake256_simple K.MSG_BYTES P j)).length = K.MSG_BYTES := by
    rw [length_xor_bytes]; simp; omega
  have hpk : (sk.drop (K.MSG_BYTES + K.SECRETKEY_B_BYTES)).length
      = K.SIKE_P503_R1_PUBLIC_KEY_BYTES := by simp; omega
  have hc0 : (K.EphemeralKeyGeneration_A
              (and_assign
                (K.cshake256_simple K.SECRETKEY_A_BYTES G
                  (xor_bytes (ct.drop K.SIKE_P503_R1_PUBLIC_KEY_BYTES)
                      (K.cshake256_simple K.MSG_BYTES P j)
                    ++ sk.drop (K.MSG_BYTES + K.SECRETKEY_B_BYTES)))
                (K.SECRETKEY_A_BYTES - 1) K.MASK_ALICE)).length
      = K.SIKE_P503_R1_PUBLIC_KEY_BYTES := hK.keygenA_length _
  simp only [SIKE_P503_r1_crypto_kem_dec, hagree, Bool.not_true, Bool.false_eq_true, if_false,
    beq_self_eq_true, hj, s2n_constant_time_copy_or_dont, s2n_constant_time_equals]
  rw [xor_loop_eq _ _ _ _ _ _ (by rw [length_uninit]; omega), hm]
  simp only [List.take_zero, List.nil_append, Nat.zero_add]
  rw [memcpy_append_left _ _ _ _ _ hml hpk,
    List.take_left' (by rw [List.length_append, hml, hpk]; omega),
    List.take_of_length_le (Nat.le_of_eq hc0)]
  have hfin : ∀ t : List Nat, K.MSG_BYTES ≤ t.length →
      memcpy ss 0 (K.cshake256_simple K.SIKE_P503_R1_SHARED_SECRET_BYTES H
        (List.take (K.SIKE_P503_R1_CIPHERTEXT_BYTES + K.MSG_BYTES)
          (memcpy t K.MSG_BYTES ct K.SIKE_P503_R1_CIPHERTEXT_BYTES)))
        K.SIKE_P503_R1_SHARED_SECRET_BYTES
      = K.cshake256_simple K.SIKE_P503_R1_SHARED_SECRET_BYTES H (t.take K.MSG_BYTES ++ ct) := by
    intro t ht
    rw [take_memcpy _ ct _ _ ht hct, memcpy_out _ _ _ hss (hK.cshake_length _ _ _)]
  by_cases hc : K.EphemeralKeyGeneration_A
              (and_assign
                (K.cshake256_simple K.SECRETKEY_A_BYTES G
                  (xor_bytes (ct.drop K.SIKE_P503_R1_PUBLIC_KEY_BYTES)
                      (K.cshake256_simple K.MSG_BYTES P j)
                    ++ sk.drop (K.MSG_BYTES + K.SECRETKEY_B_BYTES)))
                (K.SECRETKEY_A_BYTES - 1) K.MASK_ALICE)
              = ct.take K.SIKE_P503_R1_PUBLIC_KEY_BYTES
  · simp only [hc, decide_True, if_true]
    rw [hfin _ (by simp only [List.length_append, hml]; omega), List.append_assoc,
      List.take_left' hml]
  · simp only [hc, decide_False, Bool.false_eq_true, if_false]
    have hseed : (sk.take K.MSG_BYTES).length = K.MSG_BYTES := by
      rw [List.length_take]; omega
    have hlen : K.MSG_BYTES ≤ (memcpy
        (xor_bytes (List.drop K.SIKE_P503_R1_PUBLIC_KEY_BYTES ct)
            (K.cshake256_simple K.MSG_BYTES P j) ++
          List.drop (K.MSG_BYTES + K.SECRETKEY_B_BYTES) sk ++
          List.drop K.SIKE_P503_R1_PUBLIC_KEY_BYTES
            (List.drop K.MSG_BYTES (uninit (K.SIKE_P503_R1_CIPHERTEXT_BYTES + K.MSG_BYTES) g)))
        0 sk K.MSG_BYTES).length := by
      simp only [memcpy, List.length_append, List.take_zero, List.nil_append, hseed]
      omega
    rw [hfin _ hlen]
    simp only [memcpy, List.take_zero, List.nil_append, List.append_assoc]
    rw [List.take_left' hseed]

/-- With the gate enabled, decapsulation returns 0 and ends with the hash call that writes
`SIKE_P503_R1_SHARED_SECRET_BYTES` bytes at `ss`; the hashed input does not depend on the prior
contents of `ss`. -/
theorem dec_enabled_written (K : KemCtx) (g : Nat → Nat) (ct sk : List Nat) :
    ∃ inp, ∀ ss, SIKE_P503_r1_crypto_kem_dec K true g ss ct sk =
      (0, memcpy ss 0 (K.cshake256_simple K.SIKE_P503_R1_SHARED_SECRET_BYTES H inp)
        K.SIKE_P503_R1_SHARED_SECRET_BYTES) :=
  ⟨_, fun _ => rfl⟩

/-- With the gate enabled and buffers of the documented lengths, the hashed input is a message
of `MSG_BYTES` bytes followed by the ciphertext, whatever the agreement returns. -/
theorem dec_enabled_hashes_msg_ct (K : KemCtx) (hK : K.WellFormed) (g : Nat → Nat)
    (ct sk : List Nat) (hct : ct.length = K.SIKE_P503_R1_CIPHERTEXT_BYTES)
    (hsk : sk.length = K.SIKE_P503_R1_SECRET_KEY_BYTES) :
    ∃ m, m.length = K.MSG_BYTES ∧ ∀ ss, SIKE_P503_r1_crypto_kem_dec K true g ss ct sk =
      (0, K.cshake256_simple K.SIKE_P503_R1_SHARED_SECRET_BYTES H (m ++ ct)
        ++ ss.drop K.SIKE_P503_R1_SHARED_SECRET_BYTES) := by
  obtain ⟨inp, hinp⟩ := dec_enabled_written K g ct sk
  have hCT : K.SIKE_P503_R1_CIPHERTEXT_BYTES = K.SIKE_P503_R1_PUBLIC_KEY_BYTES + K.MSG_BYTES := rfl
  have hSK : K.SIKE_P503_R1_SECRET_KEY_BYTES
      = K.MSG_BYTES + K.SECRETKEY_B_BYTES + K.SIKE_P503_R1_PUBLIC_KEY_BYTES := rfl
  have h0 : (List.replicate K.SIKE_P503_R1_SHARED_SECRET_BYTES 0).length
      = K.SIKE_P503_R1_SHARED_SECRET_BYTES := List.length_replicate _ _
  -- it is enough to identify the hash written into one buffer of the right length
  have key : ∀ m : List Nat,
      SIKE_P503_r1_crypto_kem_dec K true g
          (List.replicate K.SIKE_P503_R1_SHARED_SECRET_BYTES 0) ct sk
        = (0, K.cshake256_simple K.SIKE_P503_R1_SHARED_SECRET_BYTES H (m ++ ct)) →
      ∀ ss, SIKE_P503_r1_crypto_kem_dec K true g ss ct sk =
        (0, K.cshake256_simple K.SIKE_P503_R1_SHARED_SECRET_BYTES H (m ++ ct)
          ++ ss.drop K.SIKE_P503_R1_SHARED_SECRET_BYTES) := by
    intro m hm ss
    have h1 := hinp (List.replicate K.SIKE_P503_R1_SHARED_SECRET_BYTES 0)
    rw [hm, memcpy_out _ _ _ h0 (hK.cshake_length _ _ _)] at h1
    have h2 : K.cshake256_simple K.SIKE_P503_R1_SHARED_SECRET_BYTES H (m ++ ct)
        = K.cshake256_simple K.SIKE_P503_R1_SHARED_SECRET_BYTES H inp := (Prod.mk.inj h1).2
    rw [hinp ss, memcpy_zero _ _ _ (hK.cshake_length _ _ _), h2]
  by_cases hret : (K.EphemeralSecretAgreement_B ((sk.drop K.MSG_BYTES).take K.SECRETKEY_B_BYTES)
      (ct.take K.SIKE_P503_R1_PUBLIC_KEY_BYTES)).1 = 0
  · have hagree : K.EphemeralSecretAgreement_B ((sk.drop K.MSG_BYTES).take K.SECRETKEY_B_BYTES)
        (ct.take K.SIKE_P503_R1_PUBLIC_KEY_BYTES)
        = (0, (K.EphemeralSecretAgreement_B ((sk.drop K.MSG_BYTES).take K.SECRETKEY_B_BYTES)
          (ct.take K.SIKE_P503_R1_PUBLIC_KEY_BYTES)).2) := Prod.ext hret rfl
    refine ⟨_, ?_, key _ (dec_success_eq K hK g _ ct sk _ h0 hct hsk hagree)⟩
    have hh : ∀ j, (K.cshake256_simple K.MSG_BYTES P j).length = K.MSG_BYTES :=
      fun j => hK.cshake_length _ _ _
    split
    · rw [length_xor_bytes, hh, List.length_drop, hct, hCT]
      omega
    · rw [List.length_take, hsk, hSK]
      omega
  · exact ⟨uninit K.MSG_BYTES g, length_uninit _ _, key _ (dec_failure_eq K hK g _ ct sk h0 hct hret)⟩

/-! ## Encapsulation and key generation in closed form -/

theorem enc_eq (K : KemCtx) (hK : K.WellFormed) (g : Nat → Nat) (m ct ss pk : List Nat)
    (hm : m.length = K.MSG_BYTES)
    (hct : ct.length = K.SIKE_P503_R1_CIPHERTEXT_BYTES)
    (hss : ss.length = K.SIKE_P503_R1_SHARED_SECRET_BYTES)
    (hpk : pk.length = K.SIKE_P503_R1_PUBLIC_KEY_BYTES) :
    SIKE_P503_r1_crypto_kem_enc K true (some m) g ct ss pk =
      (0,
        K.EphemeralKeyGeneration_A
            (and_assign (K.cshake256_simple K.SECRETKEY_A_BYTES G (m ++ pk))
              (K.SECRETKEY_A_BYTES - 1) K.MASK_ALICE)
          ++ xor_bytes m (K.cshake256_simple K.MSG_BYTES P
              (K.EphemeralSecretAgreement_A
                (and_assign (K.cshake256_simple K.SECRETKEY_A_BYTES G (m ++ pk))
                  (K.SECRETKEY_A_BYTES - 1) K.MASK_ALICE) pk)),
        K.cshake256_simple K.SIKE_P503_R1_SHARED_SECRET_BYTES H
          (m ++ (K.EphemeralKeyGeneration_A
            (and_assign (K.cshake256_simple K.SECRETKEY_A_BYTES G (m ++ pk))
              (K.SECRETKEY_A_BYTES - 1) K.MASK_ALICE)
          ++ xor_bytes m (K.cshake256_simple K.MSG_BYTES P
              (K.EphemeralSecretAgreement_A
                (and_assign (K.cshake256_simple K.SECRETKEY_A_BYTES G (m ++ pk))
                  (K.SECRETKEY_A_BYTES - 1) K.MASK_ALICE) pk))))) := by
  have hCT : K.SIKE_P503_R1_CIPHERTEXT_BYTES = K.SIKE_P503_R1_PUBLIC_KEY_BYTES + K.MSG_BYTES := rfl
  generalize hesk : and_assign (K.cshake256_simple K.SECRETKEY_A_BYTES G (m ++ pk))
    (K.SECRETKEY_A_BYTES - 1) K.MASK_ALICE = esk
  have hc0 : (K.EphemeralKeyGeneration_A esk).length = K.SIKE_P503_R1_PUBLIC_KEY_BYTES :=
    hK.keygenA_length _
  have hj : (K.EphemeralSecretAgreement_A esk pk).take K.FP2_ENCODED_BYTES
      = K.EphemeralSecretAgreement_A esk pk :=
    List.take_of_length_le (Nat.le_of_eq (hK.agreeA_length _ _))
  have hh : (K.cshake256_simple K.MSG_BYTES P (K.EphemeralSecretAgreement_A esk pk)).length
      = K.MSG_BYTES := hK.cshake_length _ _ _
  simp only [SIKE_P503_r1_crypto_kem_enc, Bool.not_true, Bool.false_eq_true, if_false]
  rw [memcpy_zero _ m _ hm, memcpy_append_left _ _ _ _ _ hm hpk,
    List.take_left' (by rw [List.length_append, hm, hpk]; omega), hesk,
    List.take_of_length_le (Nat.le_of_eq hpk), hj, memcpy_zero _ _ _ hc0,
    xor_loop_eq _ _ _ _ _ _ (by simp only [List.length_append, hc0, List.length_drop]; omega),
    List.take_left' hc0]
  have hx : (List.range K.MSG_BYTES).map (fun i =>
      (m ++ pk ++ List.drop K.SIKE_P503_R1_PUBLIC_KEY_BYTES
        (List.drop K.MSG_BYTES (uninit (K.SIKE_P503_R1_CIPHERTEXT_BYTES + K.MSG_BYTES) g))).getD
          (i + 0) 0
        ^^^ (K.cshake256_simple K.MSG_BYTES P (K.EphemeralSecretAgreement_A esk pk)).getD i 0)
      = xor_bytes m (K.cshake256_simple K.MSG_BYTES P (K.EphemeralSecretAgreement_A esk pk)) := by
    rw [map_range_xor _ _ _ _ (by simp only [List.length_append, hm]; omega) (by omega),
      List.drop_zero, List.append_assoc, List.take_left' hm, List.take_of_length_le (by omega)]
  rw [hx]
  have hd : List.drop (K.SIKE_P503_R1_PUBLIC_KEY_BYTES + K.MSG_BYTES)
      (K.EphemeralKeyGeneration_A esk ++ List.drop K.SIKE_P503_R1_PUBLIC_KEY_BYTES ct) = [] :=
    List.drop_eq_nil_of_le (by simp only [List.length_append, hc0, List.length_drop]; omega)
  rw [hd, List.append_nil]
  have hctl : (K.EphemeralKeyGeneration_A esk ++
      xor_bytes m (K.cshake256_simple K.MSG_BYTES P (K.EphemeralSecretAgreement_A esk pk))).length
      = K.SIKE_P503_R1_CIPHERTEXT_BYTES := by
    rw [List.length_append, hc0, length_xor_bytes, hm, hh]; omega
  rw [take_memcpy _ _ _ _ (by simp only [List.length_append, hm]; omega) hctl,
    List.append_assoc m, List.take_left' hm, memcpy_out _ _ _ hss (hK.cshake_length _ _ _)]

theorem keypair_eq (K : KemCtx) (hK : K.WellFormed) (seed scalar pk sk : List Nat) (rc : Int)
    (hrc : ¬ rc < 0)
    (hpk : pk.length = K.SIKE_P503_R1_PUBLIC_KEY_BYTES)
    (hsk : sk.length = K.SIKE_P503_R1_SECRET_KEY_BYTES)
    (hseed : seed.length = K.MSG_BYTES)
    (hscalar : scalar.length = K.SECRETKEY_B_BYTES) :
    SIKE_P503_r1_crypto_kem_keypair K true (some seed) (rc, scalar) pk sk =
      (0, K.EphemeralKeyGeneration_B scalar,
        seed ++ scalar ++ K.EphemeralKeyGeneration_B scalar) := by
  have hSK : K.SIKE_P503_R1_SECRET_KEY_BYTES
      = K.MSG_BYTES + K.SECRETKEY_B_BYTES + K.SIKE_P503_R1_PUBLIC_KEY_BYTES := rfl
  have hkg : (K.EphemeralKeyGeneration_B scalar).length = K.SIKE_P503_R1_PUBLIC_KEY_BYTES :=
    hK.keygenB_length _
  simp only [SIKE_P503_r1_crypto_kem_keypair, Bool.not_true, Bool.false_eq_true, if_false,
    S2N_SUCCESS, hrc]
  rw [List.take_of_length_le (Nat.le_of_eq hscalar), memcpy_out _ _ _ hpk hkg,
    memcpy_zero _ _ _ hseed, memcpy_append_left _ _ _ _ _ hseed hscalar,
    memcpy_append_left _ _ _ _ _ (by rw [List.length_append, hseed, hscalar]) hkg,
    List.drop_eq_nil_of_le (by simp only [List.length_drop]; omega), List.append_nil]

/-! ## The demonstration context is well formed -/

theorem demoKem_wellFormed : demoKem.WellFormed where
  cshake_length := by
    intro outlen cstm inp
    simp only [demoKem, demo_cshake, List.length_map, List.length_range]
  keygenA_length := by intro s; simp only [demoKem, List.length_replicate]
  keygenB_length := by intro s; simp only [demoKem, List.length_replicate]
  agreeA_length := by intro s pk; simp only [demoKem, List.length_replicate]
  agreeB_length := by intro s pk; simp only [demoKem, List.length_replicate]

theorem headD_replicate_succ (n x d : Nat) : (List.replicate (n + 1) x).headD d = x := rfl

theorem demoKem_isogenyCorrect : demoKem.IsogenyCorrect := by
  intro skB skA _ _
  have h1 : ∀ x : Nat, (List.replicate 378 x).headD 0 = x := fun x => headD_replicate_succ 377 x 0
  simp only [demoKem, h1, if_true, Nat.mul_comm]

/-! ## Claims on the KEM layer -/

/-- C1. KEM round trip: with the gate enabled, well-formed collaborators and a correct isogeny
collaborator, decapsulating the ciphertext that encapsulation produced for a generated key pair
returns 0 and the very shared secret encapsulation produced, whatever the random draws and the
prior contents of the buffers. -/
theorem kem_round_trip (K : KemCtx) (hK : K.WellFormed) (hiso : K.IsogenyCorrect)
    (seed_draw msg_draw : Option (List Nat)) (scalar_draw : Int × List Nat)
    (g_enc g_dec : Nat → Nat) (pk0 sk0 ct0 ss0 ss1 pk sk ct ss : List Nat)
    (hpk0 : pk0.length = K.SIKE_P503_R1_PUBLIC_KEY_BYTES)
    (hsk0 : sk0.length = K.SIKE_P503_R1_SECRET_KEY_BYTES)
    (hct0 : ct0.length = K.SIKE_P503_R1_CIPHERTEXT_BYTES)
    (hss0 : ss0.length = K.SIKE_P503_R1_SHARED_SECRET_BYTES)
    (hss1 : ss1.length = K.SIKE_P503_R1_SHARED_SECRET_BYTES)
    (hseed : ∀ s, seed_draw = some s → s.length = K.MSG_BYTES)
    (hscalar : scalar_draw.2.length = K.SECRETKEY_B_BYTES)
    (hmsg : ∀ m, msg_draw = some m → m.length = K.MSG_BYTES)
    (hkeypair : SIKE_P503_r1_crypto_kem_keypair K true seed_draw scalar_draw pk0 sk0
      = (0, pk, sk))
    (henc : SIKE_P503_r1_crypto_kem_enc K true msg_draw g_enc ct0 ss0 pk = (0, ct, ss)) :
    SIKE_P503_r1_crypto_kem_dec K true g_dec ss1 ct sk = (0, ss) := by
  obtain ⟨rc, scalar⟩ := scalar_draw
  simp only at hscalar
  -- key generation succeeded: both draws did
  cases seed_draw with
  | none => simp [SIKE_P503_r1_crypto_kem_keypair, S2N_FAILURE] at hkeypair
  | some seed =>
  have hseed := hseed seed rfl
  by_cases hrc : rc < 0
  · simp [SIKE_P503_r1_crypto_kem_keypair, S2N_FAILURE, S2N_SUCCESS, hrc] at hkeypair
  rw [keypair_eq K hK seed scalar pk0 sk0 rc hrc hpk0 hsk0 hseed hscalar] at hkeypair
  simp only [Prod.mk.injEq, true_and] at hkeypair
  obtain ⟨hpk, hsk⟩ := hkeypair
  have hpkl : pk.length = K.SIKE_P503_R1_PUBLIC_KEY_BYTES := by
    rw [← hpk]; exact hK.keygenB_length _
  -- encapsulation succeeded: the message draw did
  cases msg_draw with
  | none => simp [SIKE_P503_r1_crypto_kem_enc, S2N_FAILURE] at henc
  | some m =>
  have hm := hmsg m rfl
  rw [enc_eq K hK g_enc m ct0 ss0 pk hm hct0 hss0 hpkl] at henc
  simp only [Prod.mk.injEq, true_and] at henc
  obtain ⟨hct, hss⟩ := henc
  generalize hesk : and_assign (K.cshake256_simple K.SECRETKEY_A_BYTES G (m ++ pk))
    (K.SECRETKEY_A_BYTES - 1) K.MASK_ALICE = esk at hct hss
  have hc0 : (K.EphemeralKeyGeneration_A esk).length = K.SIKE_P503_R1_PUBLIC_KEY_BYTES :=
    hK.keygenA_length _
  have hh : (K.cshake256_simple K.MSG_BYTES P (K.EphemeralSecretAgreement_A esk pk)).length
      = K.MSG_BYTES := hK.cshake_length _ _ _
  have hCT : K.SIKE_P503_R1_CIPHERTEXT_BYTES = K.SIKE_P503_R1_PUBLIC_KEY_BYTES + K.MSG_BYTES := rfl
  have hSK : K.SIKE_P503_R1_SECRET_KEY_BYTES
      = K.MSG_BYTES + K.SECRETKEY_B_BYTES + K.SIKE_P503_R1_PUBLIC_KEY_BYTES := rfl
  -- the pieces decapsulation reads
  have hctl : ct.length = K.SIKE_P503_R1_CIPHERTEXT_BYTES := by
    rw [← hct, List.length_append, hc0, length_xor_bytes, hm, hh]; omega
  have hskl : sk.length = K.SIKE_P503_R1_SECRET_KEY_BYTES := by
    rw [← hsk, List.length_append, List.length_append, hseed, hscalar, hpk, hpkl, hSK]
  have hskB : (sk.drop K.MSG_BYTES).take K.SECRETKEY_B_BYTES = scalar := by
    rw [← hsk, List.append_assoc, List.drop_left' hseed, List.take_left' hscalar]
  have hpkB : sk.drop (K.MSG_BYTES + K.SECRETKEY_B_BYTES) = pk := by
    rw [← hsk, List.drop_left' (by rw [List.length_append, hseed, hscalar]), hpk]
  have hct0' : ct.take K.SIKE_P503_R1_PUBLIC_KEY_BYTES = K.EphemeralKeyGeneration_A esk := by
    rw [← hct, List.take_left' hc0]
  have hct1 : ct.drop K.SIKE_P503_R1_PUBLIC_KEY_BYTES
      = xor_bytes m (K.cshake256_simple K.MSG_BYTES P (K.EphemeralSecretAgreement_A esk pk)) := by
    rw [← hct, List.drop_left' hc0]
  have hagree : K.EphemeralSecretAgreement_B ((sk.drop K.MSG_BYTES).take K.SECRETKEY_B_BYTES)
      (ct.take K.SIKE_P503_R1_PUBLIC_KEY_BYTES)
      = (0, K.EphemeralSecretAgreement_A esk pk) := by
    have heskl : esk.length = K.SECRETKEY_A_BYTES := by
      rw [← hesk, and_assign, List.length_set]
      exact hK.cshake_length _ _ _
    rw [hskB, hct0', hiso scalar esk hscalar heskl, hpk]
  rw [dec_success_eq K hK g_dec ss1 ct sk _ hss1 hctl hskl hagree, hct1,
    xor_bytes_cancel _ _ (by rw [hm, hh]), hpkB, hesk, hct0', if_pos rfl, ← hss, hct]

set_option maxRecDepth 100000 in
/-- Witness of C1 on the demonstration context: key generation, encapsulation of `demoMsg`, and
decapsulation with different stack garbage. -/
theorem kem_round_trip_witness :
    SIKE_P503_r1_crypto_kem_dec demoKem true (fun i => i + 7) (zeros 16) demoEnc.2.1 demoSk
      = (0, demoEnc.2.2) :=
  kem_round_trip demoKem demoKem_wellFormed demoKem_isogenyCorrect
    (some demoSeed) (some demoMsg) (0, demoScalar) (fun _ => 0) (fun i => i + 7)
    (zeros 378) (zeros 434) (zeros 402) (zeros 16) (zeros 16) demoPk demoSk demoEnc.2.1 demoEnc.2.2
    (by decide) (by decide) (by decide) (by decide) (by decide)
    (by intro s hs; cases hs; decide) (by decide) (by intro m hm; cases hm; decide)
    (by decide) (by decide)

/-- C2. Accept/reject selection in decapsulation: when the role-B agreement returns 0 with
j-invariant `j`, the shared secret is the hash of the recovered message and the ciphertext if
the re-derived public key equals the first ciphertext component, and the hash of the secret-key
seed and the ciphertext otherwise. -/
theorem dec_selects_message_or_seed (K : KemCtx) (hK : K.WellFormed) (g : Nat → Nat)
    (ss ct sk j : List Nat)
    (hss : ss.length = K.SIKE_P503_R1_SHARED_SECRET_BYTES)
    (hct : ct.length = K.SIKE_P503_R1_CIPHERTEXT_BYTES)
    (hsk : sk.length = K.SIKE_P503_R1_SECRET_KEY_BYTES)
    (hagree : K.EphemeralSecretAgreement_B ((sk.drop K.MSG_BYTES).take K.SECRETKEY_B_BYTES)
      (ct.take K.SIKE_P503_R1_PUBLIC_KEY_BYTES) = (0, j)) :
    let seed := sk.take K.MSG_BYTES
    let pkB := sk.drop (K.MSG_BYTES + K.SECRETKEY_B_BYTES)
    let c0 := ct.take K.SIKE_P503_R1_PUBLIC_KEY_BYTES
    let c1 := ct.drop K.SIKE_P503_R1_PUBLIC_KEY_BYTES
    let m' := xor_bytes c1 (K.cshake256_simple K.MSG_BYTES P j)
    let esk' := and_assign (K.cshake256_simple K.SECRETKEY_A_BYTES G (m' ++ pkB))
      (K.SECRETKEY_A_BYTES - 1) K.MASK_ALICE
    let c0' := K.EphemeralKeyGeneration_A esk'
    SIKE_P503_r1_crypto_kem_dec K true g ss ct sk =
      (0, if c0' = c0
        then K.cshake256_simple K.SIKE_P503_R1_SHARED_SECRET_BYTES H (m' ++ ct)
        else K.cshake256_simple K.SIKE_P503_R1_SHARED_SECRET_BYTES H (seed ++ ct)) := by
  intro seed pkB c0 c1 m' esk' c0'
  rw [dec_success_eq K hK g ss ct sk j hss hct hsk hagree]
  by_cases h : c0' = c0
  · rw [if_pos h, if_pos h]
  · rw [if_neg h, if_neg h]

set_option maxRecDepth 100000 in
/-- Witness of C2: an all-zero ciphertext passes the agreement but not the re-encryption check,
so the seed is hashed. -/
theorem dec_selects_message_or_seed_witness :
    SIKE_P503_r1_crypto_kem_dec demoKem true (fun _ => 7) (zeros 16) (zeros 402) demoSk
      = (0, demo_cshake 16 H (demoSeed ++ zeros 402)) :=
  (dec_selects_message_or_seed demoKem demoKem_wellFormed (fun _ => 7) (zeros 16) (zeros 402)
    demoSk (zeros 126) (by decide) (by decide) (by decide) (by decide)).trans (by decide)

set_option maxRecDepth 100000 in
/-- C3, the code at a failing input: role B rejects `demoBadCt`, the call returns 0, and the
message part it hashes is the stack garbage in `temp` (here 24 bytes of value 7), which gives a
shared secret different from the hash of the seed and the ciphertext. -/
theorem dec_agreement_failure_hashes_garbage :
    (demoKem.EphemeralSecretAgreement_B ((demoSk.drop 24).take 32) (demoBadCt.take 378)).1 ≠ 0
    ∧ SIKE_P503_r1_crypto_kem_dec demoKem true (fun _ => 7) (zeros 16) demoBadCt demoSk
        = (0, demoKem.cshake256_simple 16 H (List.replicate 24 7 ++ demoBadCt))
    ∧ SIKE_P503_r1_crypto_kem_dec demoKem true (fun _ => 7) (zeros 16) demoBadCt demoSk
        ≠ (0, demoKem.cshake256_simple 16 H (demoSk.take 24 ++ demoBadCt)) := by
  decide

set_option maxRecDepth 100000 in
/-- C4, the code at a failing input: two runs of decapsulation on the same secret key and the
same (rejected) ciphertext, which differ only in the prior contents of the uninitialised local
`temp`, write different shared secrets. -/
theorem dec_agreement_failure_not_deterministic :
    SIKE_P503_r1_crypto_kem_dec demoKem true (fun _ => 7) (zeros 16) demoBadCt demoSk
      ≠ SIKE_P503_r1_crypto_kem_dec demoKem true (fun _ => 8) (zeros 16) demoBadCt demoSk := by
  decide

/-- C5. Decapsulation never signals an invalid ciphertext: for every secret key and every
ciphertext it returns a failure exactly when the feature gate is disabled, and with the gate
enabled it returns 0 and writes a shared secret of exactly `SIKE_P503_R1_SHARED_SECRET_BYTES`
bytes: the first `SIKE_P503_R1_SHARED_SECRET_BYTES` bytes of `ss` are replaced by a hash output
of that length which does not depend on the prior contents of `ss`, and nothing after them is
touched. With buffers of the documented lengths the hashed input is a message of `MSG_BYTES`
bytes followed by the ciphertext. -/
theorem dec_fails_iff_gate_disabled (K : KemCtx) (hK : K.WellFormed) (pq_enabled : Bool)
    (g : Nat → Nat) (ct sk : List Nat) :
    (∀ ss, (SIKE_P503_r1_crypto_kem_dec K pq_enabled g ss ct sk).1 ≠ 0 ↔ pq_enabled = false)
    ∧ (pq_enabled = true →
        (∀ ss, (SIKE_P503_r1_crypto_kem_dec K pq_enabled g ss ct sk).1 = 0)
        ∧ (∃ inp,
            (K.cshake256_simple K.SIKE_P503_R1_SHARED_SECRET_BYTES H inp).length
              = K.SIKE_P503_R1_SHARED_SECRET_BYTES
            ∧ (∀ ss, K.SIKE_P503_R1_SHARED_SECRET_BYTES ≤ ss.length →
                (SIKE_P503_r1_crypto_kem_dec K pq_enabled g ss ct sk).2
                  = K.cshake256_simple K.SIKE_P503_R1_SHARED_SECRET_BYTES H inp
                    ++ ss.drop K.SIKE_P503_R1_SHARED_SECRET_BYTES
                ∧ (SIKE_P503_r1_crypto_kem_dec K pq_enabled g ss ct sk).2.length = ss.length)
            ∧ (∀ ss, ss.length = K.SIKE_P503_R1_SHARED_SECRET_BYTES →
                (SIKE_P503_r1_crypto_kem_dec K pq_enabled g ss ct sk).2
                  = K.cshake256_simple K.SIKE_P503_R1_SHARED_SECRET_BYTES H inp
                ∧ (SIKE_P503_r1_crypto_kem_dec K pq_enabled g ss ct sk).2.length
                  = K.SIKE_P503_R1_SHARED_SECRET_BYTES))
        ∧ (ct.length = K.SIKE_P503_R1_CIPHERTEXT_BYTES →
            sk.length = K.SIKE_P503_R1_SECRET_KEY_BYTES →
            ∃ m, m.length = K.MSG_BYTES ∧
              ∀ ss, K.SIKE_P503_R1_SHARED_SECRET_BYTES ≤ ss.length →
                (SIKE_P503_r1_crypto_kem_dec K pq_enabled g ss ct sk).2
                  = K.cshake256_simple K.SIKE_P503_R1_SHARED_SECRET_BYTES H (m ++ ct)
                    ++ ss.drop K.SIKE_P503_R1_SHARED_SECRET_BYTES)) := by
  cases pq_enabled with
  | false =>
    refine ⟨fun ss => ?_, fun h => absurd h (by decide)⟩
    simp [SIKE_P503_r1_crypto_kem_dec, S2N_FAILURE]
  | true =>
    obtain ⟨inp, hinp⟩ := dec_enabled_written K g ct sk
    have hlen := hK.cshake_length K.SIKE_P503_R1_SHARED_SECRET_BYTES H inp
    refine ⟨fun ss => ?_, fun _ => ⟨fun ss => ?_, ⟨inp, hlen, fun ss hss => ?_, fun ss hss => ?_⟩,
      fun hct hsk => ?_⟩⟩
    · rw [hinp ss]
      simp
    · rw [hinp ss]
    · rw [hinp ss, memcpy_zero _ _ _ hlen]
      refine ⟨rfl, ?_⟩
      rw [List.length_append, List.length_drop, hlen]
      omega
    · rw [hinp ss, memcpy_out _ _ _ hss hlen]
      exact ⟨rfl, hlen⟩
    · obtain ⟨m, hm, hall⟩ := dec_enabled_hashes_msg_ct K hK g ct sk hct hsk
      exact ⟨m, hm, fun ss _ => by rw [hall ss]⟩

/-- Witness of C5 on a ciphertext that role B rejects. -/
theorem dec_fails_iff_gate_disabled_witness :
    (∀ ss, (SIKE_P503_r1_crypto_kem_dec demoKem true (fun _ => 7) ss demoBadCt demoSk).1 ≠ 0
        ↔ true = false)
    ∧ (true = true →
        (∀ ss, (SIKE_P503_r1_crypto_kem_dec demoKem true (fun _ => 7) ss demoBadCt demoSk).1 = 0)
        ∧ (∃ inp,
            (demoKem.cshake256_simple 16 H inp).length = 16
            ∧ (∀ ss, 16 ≤ ss.length →
                (SIKE_P503_r1_crypto_kem_dec demoKem true (fun _ => 7) ss demoBadCt demoSk).2
                  = demoKem.cshake256_simple 16 H inp ++ ss.drop 16
                ∧ (SIKE_P503_r1_crypto_kem_dec demoKem true (fun _ => 7) ss demoBadCt
                    demoSk).2.length = ss.length)
            ∧ (∀ ss, ss.length = 16 →
                (SIKE_P503_r1_crypto_kem_dec demoKem true (fun _ => 7) ss demoBadCt demoSk).2
                  = demoKem.cshake256_simple 16 H inp
                ∧ (SIKE_P503_r1_crypto_kem_dec demoKem true (fun _ => 7) ss demoBadCt
                    demoSk).2.length = 16))
        ∧ (demoBadCt.length = 402 → demoSk.length = 434 →
            ∃ m, m.length = 24 ∧
              ∀ ss, 16 ≤ ss.length →
                (SIKE_P503_r1_crypto_kem_dec demoKem true (fun _ => 7) ss demoBadCt demoSk).2
                  = demoKem.cshake256_simple 16 H (m ++ demoBadCt) ++ ss.drop 16)) :=
  dec_fails_iff_gate_disabled demoKem demoKem_wellFormed true (fun _ => 7) demoBadCt demoSk

/-- C6. Secret-key layout: whenever key generation returns 0, the seed draw succeeded and the
secret key is `seed ‖ scalar ‖ pk`: its first `MSG_BYTES` bytes are the drawn seed, the next
`SECRETKEY_B_BYTES` bytes the role-B scalar, the rest is the returned public key, which is
`EphemeralKeyGeneration_B` of that scalar. -/
theorem keypair_secret_key_layout (K : KemCtx) (hK : K.WellFormed) (pq_enabled : Bool)
    (seed_draw : Option (List Nat)) (scalar_draw : Int × List Nat)
    (pk0 sk0 pk sk : List Nat)
    (hpk0 : pk0.length = K.SIKE_P503_R1_PUBLIC_KEY_BYTES)
    (hsk0 : sk0.length = K.SIKE_P503_R1_SECRET_KEY_BYTES)
    (hseed : ∀ s, seed_draw = some s → s.length = K.MSG_BYTES)
    (hscalar : scalar_draw.2.length = K.SECRETKEY_B_BYTES)
    (hret : SIKE_P503_r1_crypto_kem_keypair K pq_enabled seed_draw scalar_draw pk0 sk0
      = (0, pk, sk)) :
    ∃ seed, seed_draw = some seed
      ∧ pk = K.EphemeralKeyGeneration_B scalar_draw.2
      ∧ sk = seed ++ scalar_draw.2 ++ pk
      ∧ sk.take K.MSG_BYTES = seed
      ∧ (sk.drop K.MSG_BYTES).take K.SECRETKEY_B_BYTES = scalar_draw.2
      ∧ sk.drop (K.MSG_BYTES + K.SECRETKEY_B_BYTES) = pk
      ∧ pk.length = K.SIKE_P503_R1_PUBLIC_KEY_BYTES := by
  obtain ⟨rc, scalar⟩ := scalar_draw
  simp only at hscalar
  cases pq_enabled with
  | false => simp [SIKE_P503_r1_crypto_kem_keypair, S2N_FAILURE] at hret
  | true =>
  cases seed_draw with
  | none => simp [SIKE_P503_r1_crypto_kem_keypair, S2N_FAILURE] at hret
  | some seed =>
  have hseed := hseed seed rfl
  by_cases hrc : rc < 0
  · simp [SIKE_P503_r1_crypto_kem_keypair, S2N_FAILURE, S2N_SUCCESS, hrc] at hret
  rw [keypair_eq K hK seed scalar pk0 sk0 rc hrc hpk0 hsk0 hseed hscalar] at hret
  simp only [Prod.mk.injEq, true_and] at hret
  obtain ⟨hpk, hsk⟩ := hret
  refine ⟨seed, rfl, hpk.symm, by rw [← hsk, hpk], ?_, ?_, ?_, ?_⟩
  · rw [← hsk, List.append_assoc, List.take_left' hseed]
  · rw [← hsk, List.append_assoc, List.drop_left' hseed, List.take_left' hscalar]
  · rw [← hsk, List.drop_left' (by rw [List.length_append, hseed, hscalar]), hpk]
  · rw [← hpk]; exact hK.keygenB_length _

set_option maxRecDepth 100000 in
/-- Witness of C6 on the demonstration context. -/
theorem keypair_secret_key_layout_witness :
    ∃ seed, some demoSeed = some seed
      ∧ demoPk = demoKem.EphemeralKeyGeneration_B demoScalar
      ∧ demoSk = seed ++ demoScalar ++ demoPk
      ∧ demoSk.take 24 = seed
      ∧ (demoSk.drop 24).take 32 = demoScalar
      ∧ demoSk.drop (24 + 32) = demoPk
      ∧ demoPk.length = 378 :=
  keypair_secret_key_layout demoKem demoKem_wellFormed true (some demoSeed) (0, demoScalar)
    (zeros 378) (zeros 434) demoPk demoSk (by decide) (by decide)
    (by intro s hs; cases hs; decide) (by decide) (by decide)

set_option maxRecDepth 100000 in
/-- C7, counterexample: the seed draw succeeds and the scalar draw fails; key generation returns
a failure, yet the first `MSG_BYTES` bytes of the caller's `sk` now hold the drawn seed. -/
theorem keypair_scalar_failure_changes_sk :
    SIKE_P503_r1_crypto_kem_keypair demoKem true (some demoSeed) (-1, []) (zeros 378) (zeros 434)
        = (S2N_FAILURE, zeros 378, demoSeed ++ zeros 410)
    ∧ demoSeed ++ zeros 410 ≠ zeros 434 := by
  decide

/-- C7, amended. Whenever key generation returns a failure, `pk` holds its pre-call contents and
so do the bytes of `sk` from offset `MSG_BYTES` on; if the gate is disabled or the seed draw
fails, all of `sk` holds its pre-call contents; if the seed draw succeeded (so the scalar draw
failed), `sk` is the drawn seed followed by the pre-call bytes from `MSG_BYTES` on. -/
theorem keypair_failure_outputs (K : KemCtx) (pq_enabled : Bool)
    (seed_draw : Option (List Nat)) (scalar_draw : Int × List Nat) (pk0 sk0 : List Nat)
    (hseed : ∀ s, seed_draw = some s → s.length = K.MSG_BYTES)
    (hfail : (SIKE_P503_r1_crypto_kem_keypair K pq_enabled seed_draw scalar_draw pk0 sk0).1 ≠ 0) :
    (SIKE_P503_r1_crypto_kem_keypair K pq_enabled seed_draw scalar_draw pk0 sk0).2.1 = pk0
    ∧ (SIKE_P503_r1_crypto_kem_keypair K pq_enabled seed_draw scalar_draw pk0 sk0).2.2.drop
        K.MSG_BYTES = sk0.drop K.MSG_BYTES
    ∧ ((pq_enabled = false ∨ seed_draw = none) →
        (SIKE_P503_r1_crypto_kem_keypair K pq_enabled seed_draw scalar_draw pk0 sk0).2.2 = sk0)
    ∧ (∀ seed, pq_enabled = true → seed_draw = some seed →
        (SIKE_P503_r1_crypto_kem_keypair K pq_enabled seed_draw scalar_draw pk0 sk0).2.2
          = seed ++ sk0.drop K.MSG_BYTES) := by
  cases pq_enabled with
  | false => simp [SIKE_P503_r1_crypto_kem_keypair]
  | true =>
  cases seed_draw with
  | none => simp [SIKE_P503_r1_crypto_kem_keypair]
  | some seed =>
  have hseed := hseed seed rfl
  by_cases hrc : scalar_draw.1 < 0
  · simp only [SIKE_P503_r1_crypto_kem_keypair, Bool.not_true, Bool.false_eq_true, if_false,
      S2N_SUCCESS, hrc, if_true, memcpy_zero _ _ _ hseed]
    refine ⟨trivial, List.drop_left' hseed, by simp, ?_⟩
    intro s _ hs
    cases hs
    rfl
  · exfalso
    apply hfail
    simp only [SIKE_P503_r1_crypto_kem_keypair, Bool.not_true, Bool.false_eq_true, if_false,
      S2N_SUCCESS, hrc]

set_option maxRecDepth 100000 in
/-- Witness of the amended C7: the scalar draw fails after a successful seed draw. -/
theorem keypair_failure_outputs_witness :
    (SIKE_P503_r1_crypto_kem_keypair demoKem true (some demoSeed) (-1, []) (zeros 378)
        (zeros 434)).2.1 = zeros 378
    ∧ (SIKE_P503_r1_crypto_kem_keypair demoKem true (some demoSeed) (-1, []) (zeros 378)
        (zeros 434)).2.2.drop demoKem.MSG_BYTES = (zeros 434).drop demoKem.MSG_BYTES
    ∧ ((true = false ∨ some demoSeed = none) →
        (SIKE_P503_r1_crypto_kem_keypair demoKem true (some demoSeed) (-1, []) (zeros 378)
          (zeros 434)).2.2 = zeros 434)
    ∧ (∀ seed, true = true → some demoSeed = some seed →
        (SIKE_P503_r1_crypto_kem_keypair demoKem true (some demoSeed) (-1, []) (zeros 378)
          (zeros 434)).2.2 = seed ++ (zeros 434).drop demoKem.MSG_BYTES) :=
  keypair_failure_outputs demoKem true (some demoSeed) (-1, []) (zeros 378) (zeros 434)
    (by intro s hs; cases hs; decide) (by decide)

/-! ## Digit arrays -/

theorem value_toDigits (B n v : Nat) : value B (toDigits B n v) = v % 2 ^ (B * n) := by
  induction n generalizing v with
  | zero => simp [toDigits, value, Nat.mod_one]
  | succ n ih =>
    rw [toDigits, value, ih, Nat.mul_succ, Nat.add_comm (B * n) B, pow_add, Nat.mod_mul]

theorem isDigits_toDigits (B n v : Nat) : IsDigits B n (toDigits B n v) := by
  induction n generalizing v with
  | zero => exact ⟨rfl, by simp [toDigits]⟩
  | succ n ih =>
    obtain ⟨h1, h2⟩ := ih (v / 2 ^ B)
    refine ⟨by simp [toDigits, h1], ?_⟩
    intro d hd
    simp only [toDigits, List.mem_cons] at hd
    rcases hd with h | h
    · rw [h]; exact Nat.mod_lt _ (by positivity)
    · exact h2 d h

theorem toDigits_value (B n : Nat) (a : List Nat) (h : IsDigits B n a) :
    toDigits B n (value B a) = a := by
  induction a generalizing n with
  | nil =>
    obtain ⟨h1, _⟩ := h
    simp at h1
    subst h1
    rfl
  | cons d ds ih =>
    obtain ⟨h1, h2⟩ := h
    cases n with
    | zero => simp at h1
    | succ n =>
      have hd : d < 2 ^ B := h2 d (by simp)
      have hds : IsDigits B n ds := ⟨by simpa using h1, fun x hx => h2 x (by simp [hx])⟩
      have hpos : 0 < 2 ^ B := by positivity
      rw [value, toDigits, Nat.add_mul_mod_self_left, Nat.mod_eq_of_lt hd,
        Nat.add_mul_div_left _ _ hpos, Nat.div_eq_of_lt hd, Nat.zero_add, ih n hds]

theorem value_lt (B n : Nat) (a : List Nat) (h : IsDigits B n a) : value B a < 2 ^ (B * n) := by
  have h1 := value_toDigits B n (value B a)
  rw [toDigits_value B n a h] at h1
  rw [h1]
  exact Nat.mod_lt _ (by positivity)

theorem value_toDigits_of_lt (B n v : Nat) (h : v < 2 ^ (B * n)) :
    value B (toDigits B n v) = v := by
  rw [value_toDigits, Nat.mod_eq_of_lt h]

theorem value_injective (B n : Nat) (a b : List Nat) (ha : IsDigits B n a)
    (hb : IsDigits B n b) (h : value B a = value B b) : a = b := by
  rw [← toDigits_value B n a ha, ← toDigits_value B n b hb, h]

/-! ## Facts about the prime -/

theorem p503_pos : 0 < p503 := by decide!

theorem two_le_p503 : 2 ≤ p503 := by decide!

theorem p503_succ : p503 + 1 = 2 ^ 250 * 3 ^ 159 := by decide!

theorem p503_lt_R : p503 < 2 ^ 512 := by decide!

theorem four_p503_lt_R : 4 * p503 < 2 ^ 512 := by decide!

theorem two_p503_lt_R : 2 * p503 < 2 ^ 512 := by decide!

theorem coprime_R_p503 : Nat.Coprime (2 ^ 512) p503 := by
  unfold Nat.Coprime
  decide!

theorem p503_neg_inv_spec : (1 + p503_neg_inv * p503) % 2 ^ 512 = 0 := by decide!

/-! ## Primality of `p503`

The order of `alpha` in the Gaussian integers modulo any prime factor `r` of `p503` is
`p503 + 1 = 2^250 * 3^159`, while that monoid has `r * r` elements; so `p503 < r * r` for every
prime factor `r`, which leaves no room for a proper factor. -/

theorem GInt.mul_re {n : ℕ} (x y : GInt n) : (x * y).re = x.re * y.re - x.im * y.im := rfl

theorem GInt.mul_im {n : ℕ} (x y : GInt n) : (x * y).im = x.re * y.im + x.im * y.re := rfl

theorem GInt.one_re {n : ℕ} : (1 : GInt n).re = 1 := rfl

theorem GInt.one_im {n : ℕ} : (1 : GInt n).im = 0 := rfl

theorem GInt.card (n : ℕ) [NeZero n] : Fintype.card (GInt n) = n * n := by
  rw [← Fintype.card_congr (GInt.equivProd n), Fintype.card_prod, ZMod.card]

theorem cast_mod_of_dvd {r n : ℕ} (h : r ∣ n) (a : ℕ) :
    ((a % n : ℕ) : ZMod r) = (a : ZMod r) :=
  (ZMod.natCast_eq_natCast_iff' _ _ _).2 (Nat.mod_mod_of_dvd _ h)

theorem cast_self_of_dvd {r n : ℕ} (h : r ∣ n) : ((n : ℕ) : ZMod r) = 0 :=
  (ZMod.natCast_zmod_eq_zero_iff_dvd n r).2 h

theorem toG_one (r : ℕ) : toG r (1, 0) = 1 := by
  ext <;> simp [toG, GInt.one_re, GInt.one_im]

theorem toG_gmul {r n : ℕ} (h : r ∣ n) (hn : 0 < n) (x y : Nat × Nat) :
    toG r (gmul n x y) = toG r x * toG r y := by
  have hle : x.2 * y.2 % n ≤ n := (Nat.mod_lt _ hn).le
  ext
  · simp only [toG, gmul, GInt.mul_re, cast_mod_of_dvd h, Nat.cast_add, Nat.cast_mul,
      Nat.cast_sub hle, cast_self_of_dvd h]
    ring
  · simp only [toG, gmul, GInt.mul_im, cast_mod_of_dvd h, Nat.cast_add, Nat.cast_mul]

theorem toG_gpow {r n : ℕ} (h : r ∣ n) (hn : 0 < n) (f : ℕ) :
    ∀ (e : ℕ) (b acc : Nat × Nat), e < 2 ^ f →
      toG r (gpow n f e b acc) = toG r acc * toG r b ^ e := by
  induction f with
  | zero =>
    intro e b acc he
    have : e = 0 := by simpa using he
    subst this
    simp [gpow]
  | succ f ih =>
    intro e b acc he
    have he2 : e / 2 < 2 ^ f := by
      rw [Nat.div_lt_iff_lt_mul (by norm_num)]; rw [pow_succ] at he; exact he
    rw [gpow, ih _ _ _ he2, toG_gmul h hn]
    have hsplit : toG r b ^ e = toG r b ^ (e % 2) * (toG r b * toG r b) ^ (e / 2) := by
      rw [← pow_two, ← pow_mul, ← pow_add, Nat.mod_add_div]
    rw [hsplit, ← mul_assoc]
    rcases Nat.mod_two_eq_zero_or_one e with h0 | h1
    · rw [h0]; simp
    · rw [h1]; simp [toG_gmul h hn]

theorem alpha_pow_succ : gpow p503 503 (p503 + 1) alpha (1, 0) = (1, 0) := by decide!

theorem alpha_half_coprime : Nat.gcd (normAt ((p503 + 1) / 2)) p503 = 1 := by decide!

theorem alpha_third_coprime : Nat.gcd (normAt ((p503 + 1) / 3)) p503 = 1 := by decide!

theorem p503_succ_lt : p503 + 1 < 2 ^ 503 := by decide!

theorem p503_half_lt : (p503 + 1) / 2 < 2 ^ 503 := by decide!

theorem p503_third_lt : (p503 + 1) / 3 < 2 ^ 503 := by decide!

theorem dvd_one_of_gcd_eq_one (r N n : ℕ) (h1 : r ∣ N) (h2 : r ∣ n) (hg : Nat.gcd N n = 1) :
    r ∣ 1 := hg ▸ Nat.dvd_gcd h1 h2

theorem prime_of_lt_sq (n : ℕ) (h2 : 2 ≤ n) (h : ∀ r : ℕ, r.Prime → r ∣ n → n < r * r) :
    n.Prime := by
  by_contra hnp
  have hrp : (Nat.minFac n).Prime := Nat.minFac_prime (by omega)
  have hsq : Nat.minFac n ^ 2 ≤ n := Nat.minFac_sq_le_self (by omega) hnp
  have hlt := h _ hrp (Nat.minFac_dvd _)
  rw [pow_two] at hsq
  omega

theorem dvd_norm_of_pow_eq_one {r : ℕ} (hr : r ∣ p503) (k : ℕ) (hk : k < 2 ^ 503)
    (h1 : toG r alpha ^ k = 1) : r ∣ normAt k := by
  unfold normAt
  have hg := toG_gpow hr p503_pos 503 k alpha (1, 0) hk
  rw [toG_one, one_mul, h1] at hg
  have hre : (((gpow p503 503 k alpha (1, 0)).1 : ℕ) : ZMod r) = 1 := congrArg GInt.re hg
  have him : (((gpow p503 503 k alpha (1, 0)).2 : ℕ) : ZMod r) = 0 := congrArg GInt.im hg
  rw [← ZMod.natCast_zmod_eq_zero_iff_dvd]
  have hp1 : 1 ≤ (gpow p503 503 k alpha (1, 0)).1 + p503 := by
    have := p503_pos; omega
  rw [Nat.cast_add, Nat.cast_pow, Nat.cast_pow, Nat.cast_sub hp1, Nat.cast_add, hre, him,
    cast_self_of_dvd hr]
  simp

theorem lt_sq_of_prime_dvd_p503 (r : ℕ) (hrp : r.Prime) (hrd : r ∣ p503) : p503 < r * r := by
  haveI : NeZero r := ⟨hrp.ne_zero⟩
  have hpow : toG r alpha ^ (p503 + 1) = 1 := by
    have hg := toG_gpow hrd p503_pos 503 (p503 + 1) alpha (1, 0) p503_succ_lt
    rw [alpha_pow_succ, toG_one, one_mul] at hg
    exact hg.symm
  have hord : orderOf (toG r alpha) = p503 + 1 := by
    apply orderOf_eq_of_pow_and_pow_div_prime (by omega : 0 < p503 + 1) hpow
    intro q hq hqd hq1
    have hqd' : q ∣ 2 ^ 250 * 3 ^ 159 := by rw [← p503_succ]; exact hqd
    have hq23 : q = 2 ∨ q = 3 := by
      rcases (Nat.Prime.dvd_mul hq).1 hqd' with h | h
      · left; exact (Nat.prime_dvd_prime_iff_eq hq Nat.prime_two).1 (hq.dvd_of_dvd_pow h)
      · right; exact (Nat.prime_dvd_prime_iff_eq hq Nat.prime_three).1 (hq.dvd_of_dvd_pow h)
    have hdvd : r ∣ 1 := by
      rcases hq23 with h | h
      · subst h
        exact dvd_one_of_gcd_eq_one _ _ _
          (dvd_norm_of_pow_eq_one hrd _ p503_half_lt hq1) hrd alpha_half_coprime
      · subst h
        exact dvd_one_of_gcd_eq_one _ _ _
          (dvd_norm_of_pow_eq_one hrd _ p503_third_lt hq1) hrd alpha_third_coprime
    exact hrp.one_lt.ne' (Nat.dvd_one.1 hdvd)
  have hcard := @orderOf_le_card_univ (GInt r) _ (toG r alpha) _
  rw [hord, GInt.card] at hcard
  omega

theorem p503_prime : Nat.Prime p503 :=
  prime_of_lt_sq p503 two_le_p503 lt_sq_of_prime_dvd_p503

/-! ## The Montgomery engine under the contract of its primitives -/

theorem FieldCtx.Sound.R_eq {F : FieldCtx} (hS : F.Sound) : F.R = 2 ^ 512 := by
  unfold FieldCtx.R
  rw [hS.radix_words]

theorem FieldCtx.Sound.nwords_pos {F : FieldCtx} (hS : F.Sound) : 0 < F.NWORDS_FIELD := by
  have h := hS.radix_words
  rcases Nat.eq_zero_or_pos F.NWORDS_FIELD with h0 | h0
  · rw [h0] at h; simp at h
  · exact h0

theorem FieldCtx.Sound.radix_pos {F : FieldCtx} (hS : F.Sound) : 0 < F.RADIX := by
  have h := hS.radix_words
  rcases Nat.eq_zero_or_pos F.RADIX with h0 | h0
  · rw [h0] at h; simp at h
  · exact h0

/-- Montgomery multiplication keeps the lazy range and multiplies up to the factor `R`. -/
theorem fpmul_mont_spec {F : FieldCtx} (hS : F.Sound) (a b : List Nat)
    (ha : F.IsFelm a) (hb : F.IsFelm b) :
    F.IsFelm (fpmul_mont F a b)
      ∧ value F.RADIX (fpmul_mont F a b) * F.R ≡ value F.RADIX a * value F.RADIX b
          [MOD p503] := by
  have hT := hS.mp_mul_digits a b F.NWORDS_FIELD ha.1 hb.1
  have hv := hS.mp_mul_value a b F.NWORDS_FIELD ha.1 hb.1
  have hlt : value F.RADIX (F.mp_mul a b F.NWORDS_FIELD) < p503 * F.R := by
    rw [hv, hS.R_eq]
    have h4 := four_p503_lt_R
    have hp := p503_pos
    calc value F.RADIX a * value F.RADIX b
        < (2 * p503) * (2 * p503) :=
          Nat.mul_lt_mul'' ha.2 hb.2
      _ = p503 * (4 * p503) := by ring
      _ ≤ p503 * 2 ^ 512 := Nat.mul_le_mul_left _ h4.le
  refine ⟨⟨hS.rdc_mont_digits _ hT hlt, hS.rdc_mont_lt _ hT hlt⟩, ?_⟩
  have hc := hS.rdc_mont_congr _ hT hlt
  rw [hv] at hc
  exact hc

theorem fpsqr_mont_eq (F : FieldCtx) (a : List Nat) : fpsqr_mont F a = fpmul_mont F a a := rfl

theorem isFelm_Montgomery_R2 {F : FieldCtx} (hS : F.Sound) :
    F.IsFelm (Montgomery_R2 F) ∧ value F.RADIX (Montgomery_R2 F) = F.R ^ 2 % p503 := by
  have hlt : F.R ^ 2 % p503 < p503 := Nat.mod_lt _ p503_pos
  have hv : value F.RADIX (Montgomery_R2 F) = F.R ^ 2 % p503 := by
    unfold Montgomery_R2
    apply value_toDigits_of_lt
    rw [hS.radix_words]
    exact lt_trans hlt p503_lt_R
  refine ⟨⟨isDigits_toDigits _ _ _, ?_⟩, hv⟩
  rw [hv]
  omega

theorem isFelm_one {F : FieldCtx} (hS : F.Sound) :
    F.IsFelm ((List.replicate F.NWORDS_FIELD 0).set 0 1)
      ∧ value F.RADIX ((List.replicate F.NWORDS_FIELD 0).set 0 1) = 1 := by
  obtain ⟨n, hn⟩ : ∃ n, F.NWORDS_FIELD = n + 1 := ⟨F.NWORDS_FIELD - 1, by
    have := hS.nwords_pos; omega⟩
  have hz : ∀ k, value F.RADIX (List.replicate k 0) = 0 := by
    intro k
    induction k with
    | zero => rfl
    | succ k ih => rw [List.replicate_succ, value, ih]; simp
  have h1 : (1 : Nat) < 2 ^ F.RADIX := Nat.one_lt_two_pow (by have := hS.radix_pos; omega)
  have hv : value F.RADIX ((List.replicate F.NWORDS_FIELD 0).set 0 1) = 1 := by
    rw [hn, List.replicate_succ, List.set_cons_zero, value, hz, Nat.mul_zero]
  refine ⟨⟨⟨by simp, ?_⟩, ?_⟩, hv⟩
  · intro d hd
    rw [hn, List.replicate_succ, List.set_cons_zero] at hd
    simp only [List.mem_cons, List.mem_replicate] at hd
    rcases hd with h | h
    · rw [h]; exact h1
    · rw [h.2]; positivity
  · rw [hv]
    have := two_le_p503
    omega

theorem fpcorrection_spec {F : FieldCtx} (a : List Nat) (ha : F.IsFelm a) :
    fpcorrection F a = toDigits F.RADIX F.NWORDS_FIELD (value F.RADIX a % p503) := by
  have h2 := ha.2
  unfold fpcorrection
  by_cases h : p503 ≤ value F.RADIX a
  · have h3 : ¬ p503 ≤ value F.RADIX a - p503 := by omega
    have h4 : value F.RADIX a % p503 = value F.RADIX a - p503 := by
      rw [Nat.mod_eq_sub_mod h, Nat.mod_eq_of_lt (by omega)]
    simp only [h, if_true, h3, if_false, h4]
  · have h4 : value F.RADIX a % p503 = value F.RADIX a := Nat.mod_eq_of_lt (by omega)
    simp only [h, if_false, h4]

theorem to_mont_spec {F : FieldCtx} (hS : F.Sound) (a : List Nat) (ha : F.IsFelm a) :
    F.IsFelm (to_mont F a)
      ∧ value F.RADIX (to_mont F a) ≡ value F.RADIX a * F.R [MOD p503] := by
  obtain ⟨hR2, hR2v⟩ := isFelm_Montgomery_R2 hS
  obtain ⟨h1, h2⟩ := fpmul_mont_spec hS a (Montgomery_R2 F) ha hR2
  refine ⟨h1, ?_⟩
  have hcop : Nat.Coprime p503 F.R := by rw [hS.R_eq]; exact coprime_R_p503.symm
  apply Nat.ModEq.cancel_right_of_coprime hcop
  refine h2.trans ?_
  rw [hR2v]
  have : F.R ^ 2 % p503 ≡ F.R ^ 2 [MOD p503] := Nat.mod_modEq _ _
  calc value F.RADIX a * (F.R ^ 2 % p503)
      ≡ value F.RADIX a * F.R ^ 2 [MOD p503] := Nat.ModEq.mul_left _ this
    _ = value F.RADIX a * F.R * F.R := by ring

theorem from_mont_spec {F : FieldCtx} (hS : F.Sound) (a : List Nat) (ha : F.IsFelm a) (v : Nat)
    (hv : value F.RADIX a ≡ v * F.R [MOD p503]) :
    from_mont F a = toDigits F.RADIX F.NWORDS_FIELD (v % p503) := by
  obtain ⟨hone, honev⟩ := isFelm_one hS
  obtain ⟨h1, h2⟩ := fpmul_mont_spec hS a _ ha hone
  unfold from_mont
  simp only
  rw [fpcorrection_spec _ h1]
  congr 1
  have hcop : Nat.Coprime p503 F.R := by rw [hS.R_eq]; exact coprime_R_p503.symm
  apply Nat.ModEq.cancel_right_of_coprime hcop
  rw [honev, Nat.mul_one] at h2
  exact h2.trans hv

/-! ## The concrete field context satisfies the contract -/

theorem redc_lt (T : Nat) (hT : T < p503 * 2 ^ 512) : redc T < 2 * p503 := by
  unfold redc
  rw [Nat.div_lt_iff_lt_mul (by positivity)]
  have hm : T * p503_neg_inv % 2 ^ 512 < 2 ^ 512 := Nat.mod_lt _ (by positivity)
  have hp := p503_pos
  calc T + T * p503_neg_inv % 2 ^ 512 * p503
      < p503 * 2 ^ 512 + 2 ^ 512 * p503 :=
        Nat.add_lt_add hT ((Nat.mul_lt_mul_right hp).2 hm)
    _ = 2 * p503 * 2 ^ 512 := by ring

theorem redc_dvd (T : Nat) : 2 ^ 512 ∣ T + T * p503_neg_inv % 2 ^ 512 * p503 := by
  rw [← Nat.modEq_zero_iff_dvd]
  have h1 : T * p503_neg_inv % 2 ^ 512 ≡ T * p503_neg_inv [MOD 2 ^ 512] := Nat.mod_modEq _ _
  have h2 : (1 + p503_neg_inv * p503) ≡ 0 [MOD 2 ^ 512] :=
    (Nat.modEq_zero_iff_dvd).2 (Nat.dvd_of_mod_eq_zero p503_neg_inv_spec)
  calc T + T * p503_neg_inv % 2 ^ 512 * p503
      ≡ T + T * p503_neg_inv * p503 [MOD 2 ^ 512] := Nat.ModEq.add_left _ (h1.mul_right _)
    _ = T * (1 + p503_neg_inv * p503) := by ring
    _ ≡ T * 0 [MOD 2 ^ 512] := Nat.ModEq.mul_left _ h2
    _ = 0 := by ring

theorem redc_congr (T : Nat) : redc T * 2 ^ 512 ≡ T [MOD p503] := by
  unfold redc
  rw [Nat.div_mul_cancel (redc_dvd T)]
  have h : T + T * p503_neg_inv % 2 ^ 512 * p503 ≡ T + 0 [MOD p503] :=
    Nat.ModEq.add_left _ ((Nat.modEq_zero_iff_dvd).2 (Dvd.intro_left _ rfl))
  rw [Nat.add_zero] at h
  exact h

theorem stdField_R : stdField.R = 2 ^ 512 :=
  congrArg (fun n => 2 ^ n) (show stdField.RADIX * stdField.NWORDS_FIELD = 512 from rfl)

theorem stdField_rdc_value (T : List Nat) (hlt : value 64 T < p503 * stdField.R) :
    value 64 (toDigits 64 8 (redc (value 64 T))) = redc (value 64 T)
      ∧ redc (value 64 T) < 2 * p503 := by
  rw [stdField_R] at hlt
  have h1 := redc_lt _ hlt
  have h64 : redc (value 64 T) < 2 ^ (64 * 8) := by
    rw [show (64 : ℕ) * 8 = 512 from rfl]
    exact lt_trans h1 two_p503_lt_R
  exact ⟨value_toDigits_of_lt _ _ _ h64, h1⟩

theorem stdField_sound : stdField.Sound where
  radix_words := rfl
  mp_mul_digits := by
    intro a b n _ _
    exact isDigits_toDigits _ _ _
  mp_mul_value := by
    intro a b n ha hb
    show value 64 (toDigits 64 (2 * n) (value 64 a * value 64 b)) = value 64 a * value 64 b
    apply value_toDigits_of_lt
    have h1 := value_lt 64 n a ha
    have h2 := value_lt 64 n b hb
    calc value 64 a * value 64 b < 2 ^ (64 * n) * 2 ^ (64 * n) := Nat.mul_lt_mul'' h1 h2
      _ = 2 ^ (64 * (2 * n)) := by rw [← pow_add]; congr 1; ring
  rdc_mont_digits := by
    intro T _ _
    exact isDigits_toDigits _ _ _
  rdc_mont_lt := by
    intro T _ hlt
    show value 64 (toDigits 64 8 (redc (value 64 T))) < 2 * p503
    rw [(stdField_rdc_value T hlt).1]
    exact (stdField_rdc_value T hlt).2
  rdc_mont_congr := by
    intro T _ hlt
    show value 64 (toDigits 64 8 (redc (value 64 T))) * stdField.R ≡ value 64 T [MOD p503]
    rw [(stdField_rdc_value T hlt).1, stdField_R]
    exact redc_congr _

/-! ## Claims on the Montgomery engine -/

/-- C8. Montgomery conversion round trip: under the contract of `mp_mul` and `rdc_mont`, for
every field element `a` with `0 ≤ a < p`, `from_mont (to_mont a)` is `a`, digit for digit. -/
theorem from_mont_to_mont (F : FieldCtx) (hS : F.Sound) (a : List Nat)
    (ha : IsDigits F.RADIX F.NWORDS_FIELD a) (hlt : value F.RADIX a < p503) :
    from_mont F (to_mont F a) = a := by
  have hfa : F.IsFelm a := ⟨ha, by omega⟩
  obtain ⟨h1, h2⟩ := to_mont_spec hS a hfa
  rw [from_mont_spec hS _ h1 _ h2, Nat.mod_eq_of_lt hlt, toDigits_value _ _ _ ha]

/-- Witness of C8 on 64-bit digits with the textbook reduction, at `a = 2^64 + 12345`. -/
theorem from_mont_to_mont_witness :
    from_mont stdField (to_mont stdField [12345, 1, 0, 0, 0, 0, 0, 0])
      = [12345, 1, 0, 0, 0, 0, 0, 0] :=
  from_mont_to_mont stdField stdField_sound [12345, 1, 0, 0, 0, 0, 0, 0] (by decide!)
    (by decide!)

/-- C9, counterexample: with the textbook Montgomery reduction, `a = 100` and `b = 130`, the
two sides differ as digit arrays (they differ by `p`). -/
theorem fpmul_mont_to_mont_ne :
    fpmul_mont stdField (to_mont stdField (toDigits 64 8 100)) (to_mont stdField (toDigits 64 8 130))
      ≠ to_mont stdField (toDigits 64 8 (100 * 130 % p503)) := by
  decide!

/-- C9, amended. For all `a, b` with `0 ≤ a, b < p`, `fpmul_mont (to_mont a) (to_mont b)` and
`to_mont ((a * b) mod p)` are both in `[0, 2p)` and congruent to `a * b * R` modulo `p`; they
are equal after `fpcorrection`. -/
theorem fpmul_mont_to_mont_congr (F : FieldCtx) (hS : F.Sound) (a b : List Nat)
    (ha : IsDigits F.RADIX F.NWORDS_FIELD a) (hb : IsDigits F.RADIX F.NWORDS_FIELD b)
    (hlta : value F.RADIX a < p503) (hltb : value F.RADIX b < p503) :
    F.IsFelm (fpmul_mont F (to_mont F a) (to_mont F b))
    ∧ F.IsFelm (to_mont F
        (toDigits F.RADIX F.NWORDS_FIELD (value F.RADIX a * value F.RADIX b % p503)))
    ∧ value F.RADIX (fpmul_mont F (to_mont F a) (to_mont F b))
        ≡ value F.RADIX a * value F.RADIX b * F.R [MOD p503]
    ∧ value F.RADIX (to_mont F
          (toDigits F.RADIX F.NWORDS_FIELD (value F.RADIX a * value F.RADIX b % p503)))
        ≡ value F.RADIX a * value F.RADIX b * F.R [MOD p503]
    ∧ fpcorrection F (fpmul_mont F (to_mont F a) (to_mont F b))
        = fpcorrection F (to_mont F
            (toDigits F.RADIX F.NWORDS_FIELD (value F.RADIX a * value F.RADIX b % p503))) := by
  have hcop : Nat.Coprime p503 F.R := by rw [hS.R_eq]; exact coprime_R_p503.symm
  obtain ⟨ha1, ha2⟩ := to_mont_spec hS a ⟨ha, by omega⟩
  obtain ⟨hb1, hb2⟩ := to_mont_spec hS b ⟨hb, by omega⟩
  obtain ⟨hl1, hl2⟩ := fpmul_mont_spec hS _ _ ha1 hb1
  have hl : value F.RADIX (fpmul_mont F (to_mont F a) (to_mont F b))
      ≡ value F.RADIX a * value F.RADIX b * F.R [MOD p503] := by
    apply Nat.ModEq.cancel_right_of_coprime hcop
    refine hl2.trans ?_
    calc value F.RADIX (to_mont F a) * value F.RADIX (to_mont F b)
        ≡ (value F.RADIX a * F.R) * (value F.RADIX b * F.R) [MOD p503] := ha2.mul hb2
      _ = value F.RADIX a * value F.RADIX b * F.R * F.R := by ring
  have hmod : value F.RADIX a * value F.RADIX b % p503 < p503 := Nat.mod_lt _ p503_pos
  have hcv : value F.RADIX
      (toDigits F.RADIX F.NWORDS_FIELD (value F.RADIX a * value F.RADIX b % p503))
      = value F.RADIX a * value F.RADIX b % p503 := by
    apply value_toDigits_of_lt
    rw [hS.radix_words]
    exact lt_trans hmod p503_lt_R
  obtain ⟨hr1, hr2⟩ := to_mont_spec hS
    (toDigits F.RADIX F.NWORDS_FIELD (value F.RADIX a * value F.RADIX b % p503))
    ⟨isDigits_toDigits _ _ _, by rw [hcv]; omega⟩
  have hr : value F.RADIX (to_mont F
      (toDigits F.RADIX F.NWORDS_FIELD (value F.RADIX a * value F.RADIX b % p503)))
      ≡ value F.RADIX a * value F.RADIX b * F.R [MOD p503] := by
    refine hr2.trans ?_
    rw [hcv]
    exact (Nat.mod_modEq _ _).mul_right _
  refine ⟨hl1, hr1, hl, hr, ?_⟩
  rw [fpcorrection_spec _ hl1, fpcorrection_spec _ hr1]
  congr 1
  exact hl.trans hr.symm

/-- Witness of the amended C9 at the counterexample `a = 100`, `b = 130`. -/
theorem fpmul_mont_to_mont_congr_witness :
    fpcorrection stdField
        (fpmul_mont stdField (to_mont stdField (toDigits 64 8 100))
          (to_mont stdField (toDigits 64 8 130)))
      = fpcorrection stdField (to_mont stdField
          (toDigits stdField.RADIX stdField.NWORDS_FIELD
            (value stdField.RADIX (toDigits 64 8 100) * value stdField.RADIX (toDigits 64 8 130)
              % p503))) :=
  (fpmul_mont_to_mont_congr stdField stdField_sound (toDigits 64 8 100) (toDigits 64 8 130)
    (by decide!) (by decide!) (by decide!) (by decide!)).2.2.2.2

/-! ## Inversion: the addition chain in GF(p) -/

theorem natCast_R_ne_zero {F : FieldCtx} (hS : F.Sound) [Fact (Nat.Prime p503)] :
    ((F.R : ℕ) : ZMod p503) ≠ 0 := by
  rw [Ne, ZMod.natCast_zmod_eq_zero_iff_dvd, hS.R_eq]
  intro hd
  have := Nat.Coprime.eq_one_of_dvd coprime_R_p503.symm hd
  have := two_le_p503
  omega

/-- Montgomery multiplication is multiplication of the elements the residues stand for. -/
theorem montVal_fpmul_mont {F : FieldCtx} (hS : F.Sound) [Fact (Nat.Prime p503)]
    (a b : List Nat) (ha : F.IsFelm a) (hb : F.IsFelm b) :
    montVal F (fpmul_mont F a b) = montVal F a * montVal F b := by
  have h := (fpmul_mont_spec hS a b ha hb).2
  have hc := (ZMod.natCast_eq_natCast_iff _ _ _).2 h
  rw [Nat.cast_mul, Nat.cast_mul] at hc
  have hR := natCast_R_ne_zero hS
  unfold montVal
  have h1 : (value F.RADIX (fpmul_mont F a b) : ZMod p503)
      = value F.RADIX a * value F.RADIX b * ((F.R : ℕ) : ZMod p503)⁻¹ := by
    rw [← hc, mul_assoc, mul_inv_cancel₀ hR, mul_one]
  rw [h1]
  ring

theorem fpcopy_eq {F : FieldCtx} (a : List Nat) (ha : a.length = F.NWORDS_FIELD) :
    fpcopy F a = a := by
  unfold fpcopy
  apply List.ext_getElem
  · simp [ha]
  · intro i h1 h2
    simp [List.getD_eq_getElem?_getD, List.getElem?_eq_getElem h2]

theorem fpinv_chain_t_spec {F : FieldCtx} (hS : F.Sound) [Fact (Nat.Prime p503)]
    (a : List Nat) (ha : F.IsFelm a) (k : Nat) :
    F.IsFelm (fpinv_chain_t F a k) ∧ montVal F (fpinv_chain_t F a k) = montVal F a ^ (2 * k + 3) := by
  have hsq := fpmul_mont_spec hS a a ha ha
  have hsqv := montVal_fpmul_mont hS a a ha ha
  induction k with
  | zero =>
    refine ⟨(fpmul_mont_spec hS _ _ ha hsq.1).1, ?_⟩
    rw [fpinv_chain_t, fpsqr_mont_eq, montVal_fpmul_mont hS _ _ ha hsq.1, hsqv]
    ring
  | succ k ih =>
    refine ⟨(fpmul_mont_spec hS _ _ ih.1 hsq.1).1, ?_⟩
    rw [fpinv_chain_t, fpsqr_mont_eq, montVal_fpmul_mont hS _ _ ih.1 hsq.1, hsqv, ih.2]
    ring

theorem fpsqr_loop_spec {F : FieldCtx} (hS : F.Sound) [Fact (Nat.Prime p503)] (n : Nat) :
    ∀ tt : List Nat, F.IsFelm tt →
      F.IsFelm (fpsqr_loop F n tt) ∧ montVal F (fpsqr_loop F n tt) = montVal F tt ^ (2 ^ n) := by
  induction n with
  | zero => intro tt htt; exact ⟨htt, by simp [fpsqr_loop]⟩
  | succ n ih =>
    intro tt htt
    have hsq := fpmul_mont_spec hS tt tt htt htt
    obtain ⟨h1, h2⟩ := ih (fpsqr_mont F tt) hsq.1
    refine ⟨h1, ?_⟩
    rw [fpsqr_loop, h2, fpsqr_mont_eq, montVal_fpmul_mont hS tt tt htt htt, ← pow_two,
      ← pow_mul, pow_succ, Nat.mul_comm]

theorem fpinv_chain_step_spec {F : FieldCtx} (hS : F.Sound) [Fact (Nat.Prime p503)]
    (a tt : List Nat) (ha : F.IsFelm a) (htt : F.IsFelm tt) (e : Nat)
    (he : montVal F tt = montVal F a ^ e) (st : Nat × Option Nat) :
    F.IsFelm (fpinv_chain_step F a tt st)
      ∧ montVal F (fpinv_chain_step F a tt st) = montVal F a ^ (fpinv_chain_exp [st] e) := by
  obtain ⟨n, op⟩ := st
  obtain ⟨h1, h2⟩ := fpsqr_loop_spec hS n tt htt
  cases op with
  | none =>
    refine ⟨(fpmul_mont_spec hS _ _ ha h1).1, ?_⟩
    simp only [fpinv_chain_step, fpinv_chain_exp, List.foldl_cons, List.foldl_nil]
    rw [montVal_fpmul_mont hS _ _ ha h1, h2, he, ← pow_mul, pow_add, pow_one]
  | some k =>
    obtain ⟨h3, h4⟩ := fpinv_chain_t_spec hS a ha k
    refine ⟨(fpmul_mont_spec hS _ _ h3 h1).1, ?_⟩
    simp only [fpinv_chain_step, fpinv_chain_exp, List.foldl_cons, List.foldl_nil]
    rw [montVal_fpmul_mont hS _ _ h3 h1, h2, he, h4, ← pow_mul, ← pow_add]

theorem fpinv_chain_fold_spec {F : FieldCtx} (hS : F.Sound) [Fact (Nat.Prime p503)]
    (a : List Nat) (ha : F.IsFelm a) (steps : List (Nat × Option Nat)) :
    ∀ (tt : List Nat) (e : Nat), F.IsFelm tt → montVal F tt = montVal F a ^ e →
      F.IsFelm (steps.foldl (fpinv_chain_step F a) tt)
        ∧ montVal F (steps.foldl (fpinv_chain_step F a) tt)
            = montVal F a ^ (fpinv_chain_exp steps e) := by
  induction steps with
  | nil => intro tt e htt he; exact ⟨htt, by simpa [fpinv_chain_exp] using he⟩
  | cons st rest ih =>
    intro tt e htt he
    obtain ⟨h1, h2⟩ := fpinv_chain_step_spec hS a tt ha htt e he st
    have := ih _ _ h1 h2
    simpa [fpinv_chain_exp] using this

theorem fpinv_chain_exp_eq : fpinv_chain_exp fpinv_chain_steps 1 = (p503 - 3) / 4 := by
  decide!

theorem fpinv_exp_eq : 1 + (p503 - 3) / 4 * 2 * 2 = p503 - 2 := by decide!

theorem fpinv_chain_mont_spec {F : FieldCtx} (hS : F.Sound) [Fact (Nat.Prime p503)]
    (a : List Nat) (ha : F.IsFelm a) :
    F.IsFelm (fpinv_chain_mont F a)
      ∧ montVal F (fpinv_chain_mont F a) = montVal F a ^ ((p503 - 3) / 4) := by
  have h := fpinv_chain_fold_spec hS a ha fpinv_chain_steps a 1 ha (pow_one _).symm
  unfold fpinv_chain_mont
  simp only
  rw [fpcopy_eq a ha.1.1, fpcopy_eq _ h.1.1.1, ← fpinv_chain_exp_eq]
  exact h

theorem fpinv_mont_spec {F : FieldCtx} (hS : F.Sound) [Fact (Nat.Prime p503)]
    (a : List Nat) (ha : F.IsFelm a) :
    F.IsFelm (fpinv_mont F a)
      ∧ montVal F (fpinv_mont F a) = montVal F a ^ (p503 - 2) := by
  obtain ⟨h1, h2⟩ := fpinv_chain_mont_spec hS a ha
  have hs1 := fpmul_mont_spec hS _ _ h1 h1
  have hs2 := fpmul_mont_spec hS _ _ hs1.1 hs1.1
  unfold fpinv_mont
  simp only
  rw [fpcopy_eq a ha.1.1, fpsqr_mont_eq, fpsqr_mont_eq]
  refine ⟨(fpmul_mont_spec hS _ _ ha hs2.1).1, ?_⟩
  rw [montVal_fpmul_mont hS _ _ ha hs2.1, montVal_fpmul_mont hS _ _ hs1.1 hs1.1,
    montVal_fpmul_mont hS _ _ h1 h1, h2, ← fpinv_exp_eq]
  ring

/-- C10. Field inversion is correct: for every field element `a` in `[0, 2p)` that is not a
multiple of `p`, multiplying `a` by what `fpinv_mont` leaves in its place and applying
`fpcorrection` gives `R mod p`, the Montgomery representation of 1. -/
theorem fpinv_mont_correct (F : FieldCtx) (hS : F.Sound) (a : List Nat) (ha : F.IsFelm a)
    (hnz : value F.RADIX a % p503 ≠ 0) :
    fpcorrection F (fpmul_mont F a (fpinv_mont F a))
        = toDigits F.RADIX F.NWORDS_FIELD (2 ^ 512 % p503)
      ∧ value F.RADIX (fpcorrection F (fpmul_mont F a (fpinv_mont F a))) = 2 ^ 512 % p503 := by
  haveI : Fact (Nat.Prime p503) := ⟨p503_prime⟩
  obtain ⟨h1, h2⟩ := fpinv_mont_spec hS a ha
  have hc := fpmul_mont_spec hS _ _ ha h1
  have hR := natCast_R_ne_zero hS
  -- the element `a` stands for is not zero
  have hx : montVal F a ≠ 0 := by
    unfold montVal
    refine mul_ne_zero ?_ (inv_ne_zero hR)
    rw [Ne, ZMod.natCast_zmod_eq_zero_iff_dvd]
    intro hd
    exact hnz (Nat.mod_eq_zero_of_dvd hd)
  -- so the product stands for one
  have hone : montVal F (fpmul_mont F a (fpinv_mont F a)) = 1 := by
    rw [montVal_fpmul_mont hS _ _ ha h1, h2, ← pow_succ']
    have hp : p503 - 2 + 1 = p503 - 1 := by have := two_le_p503; omega
    rw [hp]
    exact ZMod.pow_card_sub_one_eq_one hx
  -- hence its value is congruent to `R`
  have hcong : value F.RADIX (fpmul_mont F a (fpinv_mont F a)) ≡ F.R [MOD p503] := by
    rw [← ZMod.natCast_eq_natCast_iff]
    unfold montVal at hone
    have := congrArg (fun z => z * ((F.R : ℕ) : ZMod p503)) hone
    simp only [mul_assoc, inv_mul_cancel₀ hR, mul_one, one_mul] at this
    exact this
  have hfin : fpcorrection F (fpmul_mont F a (fpinv_mont F a))
      = toDigits F.RADIX F.NWORDS_FIELD (2 ^ 512 % p503) := by
    rw [fpcorrection_spec _ hc.1, ← hS.R_eq]
    congr 1
  refine ⟨hfin, ?_⟩
  rw [hfin]
  apply value_toDigits_of_lt
  rw [hS.radix_words]
  exact lt_trans (Nat.mod_lt _ p503_pos) p503_lt_R

/-- Witness of C10 on 64-bit digits with the textbook reduction, at `a = 3 + 2^64 * 7`. -/
theorem fpinv_mont_correct_witness :
    fpcorrection stdField
        (fpmul_mont stdField [3, 7, 0, 0, 0, 0, 0, 0] (fpinv_mont stdField [3, 7, 0, 0, 0, 0, 0, 0]))
        = toDigits stdField.RADIX stdField.NWORDS_FIELD (2 ^ 512 % p503)
      ∧ value stdField.RADIX (fpcorrection stdField
          (fpmul_mont stdField [3, 7, 0, 0, 0, 0, 0, 0]
            (fpinv_mont stdField [3, 7, 0, 0, 0, 0, 0, 0]))) = 2 ^ 512 % p503 :=
  fpinv_mont_correct stdField stdField_sound [3, 7, 0, 0, 0, 0, 0, 0] (by decide!) (by decide!)

/-! ## Carry and borrow chains -/

theorem value_append (R : Nat) (xs ys : List Nat) :
    value R (xs ++ ys) = value R xs + 2 ^ (R * xs.length) * value R ys := by
  induction xs with
  | nil => simp [value]
  | cons d ds ih =>
    rw [List.cons_append, value, ih, value, List.length_cons, Nat.mul_succ, pow_add]
    ring

theorem value_singleton (R d : Nat) : value R [d] = d := by
  simp [value]

theorem map_range_getD (a : List Nat) (n : Nat) (ha : a.length = n) :
    (List.range n).map (fun i => a.getD i 0) = a := by
  apply List.ext_getElem
  · simp [ha]
  · intro i h1 h2
    simp [List.getD_eq_getElem?_getD, List.getElem?_eq_getElem h2]

theorem value_map_range_succ (R n : Nat) (f : Nat → Nat) :
    value R ((List.range (n + 1)).map f)
      = value R ((List.range n).map f) + 2 ^ (R * n) * f n := by
  rw [List.range_succ, List.map_append, value_append]
  simp [value_singleton]

theorem value_map_range_snoc (R n : Nat) (f : Nat → Nat) :
    value R ((List.range n ++ [n]).map f)
      = value R ((List.range n).map f) + 2 ^ (R * n) * f n := by
  rw [← List.range_succ, value_map_range_succ]

/-- The `ADDC` loop: the digits written and the final carry add up to the exact sum. -/
theorem addc_fold_spec (R : Nat) (f g : Nat → Nat) (n : Nat)
    (hf : ∀ i, i < n → f i < 2 ^ R) (hg : ∀ i, i < n → g i < 2 ^ R) :
    ((List.range n).foldl
        (fun (st : Nat × List Nat) i =>
          ((ADDC R st.1 (f i) (g i)).1, st.2 ++ [(ADDC R st.1 (f i) (g i)).2])) (0, [])).1 ≤ 1
    ∧ IsDigits R n ((List.range n).foldl
        (fun (st : Nat × List Nat) i =>
          ((ADDC R st.1 (f i) (g i)).1, st.2 ++ [(ADDC R st.1 (f i) (g i)).2])) (0, [])).2
    ∧ value R ((List.range n).foldl
        (fun (st : Nat × List Nat) i =>
          ((ADDC R st.1 (f i) (g i)).1, st.2 ++ [(ADDC R st.1 (f i) (g i)).2])) (0, [])).2
        + ((List.range n).foldl
            (fun (st : Nat × List Nat) i =>
              ((ADDC R st.1 (f i) (g i)).1, st.2 ++ [(ADDC R st.1 (f i) (g i)).2]))
            (0, [])).1 * 2 ^ (R * n)
      = value R ((List.range n).map f) + value R ((List.range n).map g) := by
  induction n with
  | zero => exact ⟨by simp, ⟨rfl, by simp⟩, by simp [value]⟩
  | succ n ih =>
    obtain ⟨h1, h2, h3⟩ := ih (fun i hi => hf i (by omega)) (fun i hi => hg i (by omega))
    rw [List.range_succ, List.foldl_append]
    simp only [List.foldl_cons, List.foldl_nil]
    generalize (List.range n).foldl
        (fun (st : Nat × List Nat) i =>
          ((ADDC R st.1 (f i) (g i)).1, st.2 ++ [(ADDC R st.1 (f i) (g i)).2])) (0, [])
      = st at h1 h2 h3 ⊢
    obtain ⟨c, ds⟩ := st
    simp only at h1 h2 h3 ⊢
    have hB : 0 < 2 ^ R := by positivity
    have hfn := hf n (by omega)
    have hgn := hg n (by omega)
    have hs : (f n + g n + c) / 2 ^ R ≤ 1 := by
      have : f n + g n + c < 2 * 2 ^ R := by omega
      have := (Nat.div_lt_iff_lt_mul hB).2 this
      omega
    refine ⟨hs, ⟨by simp [h2.1], ?_⟩, ?_⟩
    · intro d hd
      simp only [List.mem_append, List.mem_singleton] at hd
      rcases hd with h | h
      · exact h2.2 d h
      · rw [h]; exact Nat.mod_lt _ hB
    · rw [value_append, value_singleton, h2.1, value_map_range_snoc, value_map_range_snoc,
        ADDC]
      simp only
      have hdm := Nat.div_add_mod (f n + g n + c) (2 ^ R)
      have hp : 2 ^ (R * (n + 1)) = 2 ^ (R * n) * 2 ^ R := by rw [Nat.mul_succ, pow_add]
      rw [hp]
      calc value R ds + 2 ^ (R * n) * ((f n + g n + c) % 2 ^ R)
            + (f n + g n + c) / 2 ^ R * (2 ^ (R * n) * 2 ^ R)
          = value R ds
            + 2 ^ (R * n) * (2 ^ R * ((f n + g n + c) / 2 ^ R) + (f n + g n + c) % 2 ^ R) := by
            ring
        _ = value R ds + c * 2 ^ (R * n) + 2 ^ (R * n) * f n + 2 ^ (R * n) * g n := by
            rw [hdm]; ring
        _ = value R (List.map f (List.range n)) + 2 ^ (R * n) * f n
            + (value R (List.map g (List.range n)) + 2 ^ (R * n) * g n) := by
            rw [h3]; ring

/-- The `SUBC` loop: the digits written and the final borrow give the exact difference. -/
theorem subc_fold_spec (R : Nat) (f g : Nat → Nat) (n : Nat)
    (hf : ∀ i, i < n → f i < 2 ^ R) (hg : ∀ i, i < n → g i < 2 ^ R) :
    ((List.range n).foldl
        (fun (st : Nat × List Nat) i =>
          ((SUBC R st.1 (f i) (g i)).1, st.2 ++ [(SUBC R st.1 (f i) (g i)).2])) (0, [])).1 ≤ 1
    ∧ IsDigits R n ((List.range n).foldl
        (fun (st : Nat × List Nat) i =>
          ((SUBC R st.1 (f i) (g i)).1, st.2 ++ [(SUBC R st.1 (f i) (g i)).2])) (0, [])).2
    ∧ value R ((List.range n).foldl
        (fun (st : Nat × List Nat) i =>
          ((SUBC R st.1 (f i) (g i)).1, st.2 ++ [(SUBC R st.1 (f i) (g i)).2])) (0, [])).2
        + value R ((List.range n).map g)
      = value R ((List.range n).map f)
        + ((List.range n).foldl
            (fun (st : Nat × List Nat) i =>
              ((SUBC R st.1 (f i) (g i)).1, st.2 ++ [(SUBC R st.1 (f i) (g i)).2]))
            (0, [])).1 * 2 ^ (R * n) := by
  induction n with
  | zero => exact ⟨by simp, ⟨rfl, by simp⟩, by simp [value]⟩
  | succ n ih =>
    obtain ⟨h1, h2, h3⟩ := ih (fun i hi => hf i (by omega)) (fun i hi => hg i (by omega))
    rw [List.range_succ, List.foldl_append]
    simp only [List.foldl_cons, List.foldl_nil]
    generalize (List.range n).foldl
        (fun (st : Nat × List Nat) i =>
          ((SUBC R st.1 (f i) (g i)).1, st.2 ++ [(SUBC R st.1 (f i) (g i)).2])) (0, [])
      = st at h1 h2 h3 ⊢
    obtain ⟨c, ds⟩ := st
    simp only at h1 h2 h3 ⊢
    have hB : 0 < 2 ^ R := by positivity
    have hfn := hf n (by omega)
    have hgn := hg n (by omega)
    have hp : 2 ^ (R * (n + 1)) = 2 ^ (R * n) * 2 ^ R := by rw [Nat.mul_succ, pow_add]
    rw [value_append, value_singleton, h2.1, value_map_range_snoc, value_map_range_snoc, hp]
    have hmem : ∀ x, x < 2 ^ R → ∀ d ∈ ds ++ [x], d < 2 ^ R := by
      intro x hx d hd
      simp only [List.mem_append, List.mem_singleton] at hd
      rcases hd with h | h
      · exact h2.2 d h
      · rw [h]; exact hx
    by_cases hlt : f n < g n + c
    · have hd : (f n + 1 * 2 ^ R - (g n + c)) % 2 ^ R = f n + 2 ^ R - (g n + c) := by
        rw [Nat.one_mul]; exact Nat.mod_eq_of_lt (by omega)
      simp only [SUBC, hlt, if_true, hd]
      refine ⟨le_refl _, ⟨by simp [h2.1], hmem _ (by omega)⟩, ?_⟩
      have e1 : f n + 2 ^ R - (g n + c) + g n + c = f n + 2 ^ R := by omega
      calc value R ds + 2 ^ (R * n) * (f n + 2 ^ R - (g n + c))
            + (value R (List.map g (List.range n)) + 2 ^ (R * n) * g n)
          = (value R ds + value R (List.map g (List.range n)))
            + 2 ^ (R * n) * (f n + 2 ^ R - (g n + c) + g n) := by ring
        _ = value R (List.map f (List.range n))
            + 2 ^ (R * n) * (f n + 2 ^ R - (g n + c) + g n + c) := by rw [h3]; ring
        _ = value R (List.map f (List.range n)) + 2 ^ (R * n) * f n
            + 1 * (2 ^ (R * n) * 2 ^ R) := by rw [e1]; ring
    · have hd : (f n + 0 * 2 ^ R - (g n + c)) % 2 ^ R = f n - (g n + c) := by
        rw [Nat.zero_mul, Nat.add_zero]; exact Nat.mod_eq_of_lt (by omega)
      simp only [SUBC, hlt, if_false, hd]
      refine ⟨by omega, ⟨by simp [h2.1], hmem _ (by omega)⟩, ?_⟩
      have e1 : f n - (g n + c) + g n + c = f n := by omega
      calc value R ds + 2 ^ (R * n) * (f n - (g n + c))
            + (value R (List.map g (List.range n)) + 2 ^ (R * n) * g n)
          = (value R ds + value R (List.map g (List.range n)))
            + 2 ^ (R * n) * (f n - (g n + c) + g n) := by ring
        _ = value R (List.map f (List.range n))
            + 2 ^ (R * n) * (f n - (g n + c) + g n + c) := by rw [h3]; ring
        _ = value R (List.map f (List.range n)) + 2 ^ (R * n) * f n
            + 0 * (2 ^ (R * n) * 2 ^ R) := by rw [e1]; ring

theorem getD_lt_of_isDigits (R n : Nat) (a : List Nat) (ha : IsDigits R n a) (i : Nat) :
    a.getD i 0 < 2 ^ R := by
  rw [List.getD_eq_getElem?_getD]
  by_cases h : i < a.length
  · rw [List.getElem?_eq_getElem h]
    exact ha.2 _ (List.getElem_mem _)
  · rw [List.getElem?_eq_none (by omega)]
    simp

/-- The specification of `mp_add` used by the callers. -/
theorem mp_add_spec (R n : Nat) (a b : List Nat) (ha : IsDigits R n a) (hb : IsDigits R n b) :
    (mp_add R a b n).1 ≤ 1 ∧ IsDigits R n (mp_add R a b n).2
      ∧ value R (mp_add R a b n).2 + (mp_add R a b n).1 * 2 ^ (R * n)
          = value R a + value R b := by
  have h := addc_fold_spec R (fun i => a.getD i 0) (fun i => b.getD i 0) n
    (fun i _ => getD_lt_of_isDigits R n a ha i) (fun i _ => getD_lt_of_isDigits R n b hb i)
  rw [map_range_getD a n ha.1, map_range_getD b n hb.1] at h
  exact h

/-- The specification of `mp_sub` used by the callers. -/
theorem mp_sub_spec (R n : Nat) (a b : List Nat) (ha : IsDigits R n a) (hb : IsDigits R n b) :
    (mp_sub R a b n).1 ≤ 1 ∧ IsDigits R n (mp_sub R a b n).2
      ∧ value R (mp_sub R a b n).2 + value R b
          = value R a + (mp_sub R a b n).1 * 2 ^ (R * n)
      ∧ ((mp_sub R a b n).1 = 1 ↔ value R a < value R b) := by
  have h := subc_fold_spec R (fun i => a.getD i 0) (fun i => b.getD i 0) n
    (fun i _ => getD_lt_of_isDigits R n a ha i) (fun i _ => getD_lt_of_isDigits R n b hb i)
  rw [map_range_getD a n ha.1, map_range_getD b n hb.1] at h
  obtain ⟨h1, h2, h3⟩ := h
  refine ⟨h1, h2, h3, ?_⟩
  have hc := value_lt R n _ h2
  have hva := value_lt R n a ha
  change (mp_sub R a b n).1 ≤ 1 at h1
  change value R (mp_sub R a b n).2 + value R b
    = value R a + (mp_sub R a b n).1 * 2 ^ (R * n) at h3
  change value R (mp_sub R a b n).2 < 2 ^ (R * n) at hc
  generalize (mp_sub R a b n).1 = bo at h1 h3 ⊢
  generalize value R (mp_sub R a b n).2 = vc at h3 hc
  generalize 2 ^ (R * n) = M at h3 hc hva
  rcases Nat.le_one_iff_eq_zero_or_eq_one.1 h1 with h0 | h0
  · subst h0; simp at h3 ⊢; omega
  · subst h0; simp at h3 ⊢; omega

theorem mp_subfast_mask (F : FieldCtx) (a b : List Nat)
    (ha : IsDigits F.RADIX (2 * F.NWORDS_FIELD) a) (hb : IsDigits F.RADIX (2 * F.NWORDS_FIELD) b) :
    (mp_subfast F a b).1 = (if value F.RADIX a < value F.RADIX b then 2 ^ F.RADIX - 1 else 0)
      ∧ (mp_subfast F a b).2 = (mp_sub F.RADIX a b (2 * F.NWORDS_FIELD)).2 := by
  obtain ⟨h1, _, _, h4⟩ := mp_sub_spec F.RADIX (2 * F.NWORDS_FIELD) a b ha hb
  refine ⟨?_, rfl⟩
  simp only [mp_subfast]
  have hB : 0 < 2 ^ F.RADIX := by positivity
  by_cases hlt : value F.RADIX a < value F.RADIX b
  · rw [if_pos hlt, h4.2 hlt]
    rcases Nat.eq_zero_or_pos F.RADIX with h0 | h0
    · rw [h0]; rfl
    · have h1' : 1 < 2 ^ F.RADIX := Nat.one_lt_two_pow (by omega)
      rw [Nat.mod_eq_of_lt h1', Nat.mod_eq_of_lt (by omega)]
  · rw [if_neg hlt]
    have h0 : (mp_sub F.RADIX a b (2 * F.NWORDS_FIELD)).1 = 0 := by
      rcases Nat.le_one_iff_eq_zero_or_eq_one.1 h1 with h | h
      · exact h
      · exact absurd (h4.1 h) hlt
    rw [h0, Nat.zero_mod, Nat.sub_zero, Nat.mod_self]

/-! ## Claims on the multiprecision core -/

/-- C12. Multiprecision addition is exact: for digit arrays `a`, `b` of length `nwords`,
`mp_add` writes `nwords` digits `c` and returns a carry in `{0, 1}` with
`value c + carry * 2^(RADIX*nwords) = value a + value b`. -/
theorem mp_add_exact (RADIX nwords : Nat) (a b : List Nat)
    (ha : IsDigits RADIX nwords a) (hb : IsDigits RADIX nwords b) :
    ((mp_add RADIX a b nwords).1 = 0 ∨ (mp_add RADIX a b nwords).1 = 1)
    ∧ IsDigits RADIX nwords (mp_add RADIX a b nwords).2
    ∧ value RADIX (mp_add RADIX a b nwords).2
        + (mp_add RADIX a b nwords).1 * 2 ^ (RADIX * nwords)
      = value RADIX a + value RADIX b := by
  obtain ⟨h1, h2, h3⟩ := mp_add_spec RADIX nwords a b ha hb
  exact ⟨Nat.le_one_iff_eq_zero_or_eq_one.1 h1, h2, h3⟩

/-- Witness of C12: a two-digit addition on 64-bit digits that carries out of both digits. -/
theorem mp_add_exact_witness :
    ((mp_add 64 [2 ^ 64 - 1, 5] [1, 2 ^ 64 - 1] 2).1 = 0
      ∨ (mp_add 64 [2 ^ 64 - 1, 5] [1, 2 ^ 64 - 1] 2).1 = 1)
    ∧ IsDigits 64 2 (mp_add 64 [2 ^ 64 - 1, 5] [1, 2 ^ 64 - 1] 2).2
    ∧ value 64 (mp_add 64 [2 ^ 64 - 1, 5] [1, 2 ^ 64 - 1] 2).2
        + (mp_add 64 [2 ^ 64 - 1, 5] [1, 2 ^ 64 - 1] 2).1 * 2 ^ (64 * 2)
      = value 64 [2 ^ 64 - 1, 5] + value 64 [1, 2 ^ 64 - 1] :=
  mp_add_exact 64 2 [2 ^ 64 - 1, 5] [1, 2 ^ 64 - 1] (by decide) (by decide)

/-- C13. Multiprecision subtraction is exact: for digit arrays `a`, `b` of length `nwords`,
`mp_sub` writes `nwords` digits `c` and returns a borrow in `{0, 1}` with
`value c = value a - value b + borrow * 2^(RADIX*nwords)`, and the borrow is 1 exactly when
`value a < value b`; consequently, on arrays `x`, `y` of length `2*NWORDS_FIELD`, `mp_subfast`
returns the all-ones digit when `x < y` and 0 otherwise. -/
theorem mp_sub_exact (F : FieldCtx) (nwords : Nat) (a b x y : List Nat)
    (ha : IsDigits F.RADIX nwords a) (hb : IsDigits F.RADIX nwords b)
    (hx : IsDigits F.RADIX (2 * F.NWORDS_FIELD) x) (hy : IsDigits F.RADIX (2 * F.NWORDS_FIELD) y) :
    ((mp_sub F.RADIX a b nwords).1 = 0 ∨ (mp_sub F.RADIX a b nwords).1 = 1)
    ∧ IsDigits F.RADIX nwords (mp_sub F.RADIX a b nwords).2
    ∧ (value F.RADIX (mp_sub F.RADIX a b nwords).2 : ℤ)
        = (value F.RADIX a : ℤ) - value F.RADIX b
          + (mp_sub F.RADIX a b nwords).1 * 2 ^ (F.RADIX * nwords)
    ∧ ((mp_sub F.RADIX a b nwords).1 = 1 ↔ value F.RADIX a < value F.RADIX b)
    ∧ (mp_subfast F x y).1
        = (if value F.RADIX x < value F.RADIX y then 2 ^ F.RADIX - 1 else 0) := by
  obtain ⟨h1, h2, h3, h4⟩ := mp_sub_spec F.RADIX nwords a b ha hb
  refine ⟨Nat.le_one_iff_eq_zero_or_eq_one.1 h1, h2, ?_, h4, (mp_subfast_mask F x y hx hy).1⟩
  have h3' : ((value F.RADIX (mp_sub F.RADIX a b nwords).2 + value F.RADIX b : ℕ) : ℤ)
      = ((value F.RADIX a + (mp_sub F.RADIX a b nwords).1 * 2 ^ (F.RADIX * nwords) : ℕ) : ℤ) :=
    congrArg _ h3
  push_cast at h3'
  linarith

/-- Witness of C13 on 64-bit digits: `2^64 - (1 + 2^64)` borrows, and so does `0 - 1` on the
double length. -/
theorem mp_sub_exact_witness :
    ((mp_sub stdField.RADIX [0, 1] [1, 1] 2).1 = 0 ∨ (mp_sub stdField.RADIX [0, 1] [1, 1] 2).1 = 1)
    ∧ IsDigits stdField.RADIX 2 (mp_sub stdField.RADIX [0, 1] [1, 1] 2).2
    ∧ (value stdField.RADIX (mp_sub stdField.RADIX [0, 1] [1, 1] 2).2 : ℤ)
        = (value stdField.RADIX [0, 1] : ℤ) - value stdField.RADIX [1, 1]
          + (mp_sub stdField.RADIX [0, 1] [1, 1] 2).1 * 2 ^ (stdField.RADIX * 2)
    ∧ ((mp_sub stdField.RADIX [0, 1] [1, 1] 2).1 = 1
        ↔ value stdField.RADIX [0, 1] < value stdField.RADIX [1, 1])
    ∧ (mp_subfast stdField (toDigits 64 16 0) (toDigits 64 16 1)).1
        = (if value stdField.RADIX (toDigits 64 16 0) < value stdField.RADIX (toDigits 64 16 1)
            then 2 ^ stdField.RADIX - 1 else 0) :=
  mp_sub_exact stdField 2 [0, 1] [1, 1] (toDigits 64 16 0) (toDigits 64 16 1)
    (by decide) (by decide) (by decide) (by decide)

/-! ## The one-bit right shift -/

theorem getD_append_drop (pre x : List Nat) (k j : Nat) (hpre : pre.length = k) (hj : k ≤ j) :
    (pre ++ x.drop k).getD j 0 = x.getD j 0 := by
  rw [List.getD_eq_getElem?_getD, List.getD_eq_getElem?_getD,
    List.getElem?_append_right (by omega), List.getElem?_drop, hpre]
  congr 2
  omega

/-- After `k` rounds of the loop of `mp_shiftr1` the first `k` digits are final and the rest is
untouched. -/
theorem mp_shiftr1_loop_eq (R : Nat) (x : List Nat) (k : Nat) (hk : k + 1 ≤ x.length) :
    (List.range k).foldl
        (fun (x : List Nat) i => x.set i (SHIFTR (x.getD (i + 1) 0) (x.getD i 0) 1 R)) x
      = (List.range k).map (fun i => SHIFTR (x.getD (i + 1) 0) (x.getD i 0) 1 R)
          ++ x.drop k := by
  induction k with
  | zero => simp
  | succ k ih =>
    rw [List.range_succ, List.foldl_append, ih (by omega)]
    simp only [List.foldl_cons, List.foldl_nil, List.map_append, List.map_cons, List.map_nil]
    have hlen : ((List.range k).map
        (fun i => SHIFTR (x.getD (i + 1) 0) (x.getD i 0) 1 R)).length = k := by simp
    rw [getD_append_drop _ x k (k + 1) hlen (by omega), getD_append_drop _ x k k hlen (le_refl _),
      List.set_append, if_neg (by rw [hlen]; omega), hlen, Nat.sub_self,
      List.drop_eq_getElem_cons (by omega : k < x.length), List.set_cons_zero]
    simp

theorem SHIFTR_one (R hi lo : Nat) :
    SHIFTR hi lo 1 R = lo / 2 + hi % 2 * 2 ^ (R - 1) := by
  simp [SHIFTR]

/-- The array `mp_shiftr1` leaves: digit `i` is `x[i] >> 1` with the low bit of `x[i+1]` on top
(and nothing on top of the last digit). -/
theorem mp_shiftr1_eq (R : Nat) (x : List Nat) (n : Nat) (hn : 1 ≤ n) (hx : x.length = n) :
    mp_shiftr1 R x n
      = (List.range n).map (fun i => x.getD i 0 / 2 + x.getD (i + 1) 0 % 2 * 2 ^ (R - 1)) := by
  obtain ⟨m, rfl⟩ : ∃ m, n = m + 1 := ⟨n - 1, by omega⟩
  unfold mp_shiftr1
  simp only [Nat.add_sub_cancel]
  rw [mp_shiftr1_loop_eq R x m (by omega)]
  have hlen : ((List.range m).map
      (fun i => SHIFTR (x.getD (i + 1) 0) (x.getD i 0) 1 R)).length = m := by simp
  have hlast : x.getD (m + 1) 0 = 0 := by
    rw [List.getD_eq_getElem?_getD, List.getElem?_eq_none (by omega)]
    rfl
  rw [getD_append_drop _ x m m hlen (le_refl _), List.set_append, if_neg (by rw [hlen]; omega),
    hlen, Nat.sub_self, List.drop_eq_getElem_cons (by omega : m < x.length), List.set_cons_zero,
    List.drop_eq_nil_of_le (by omega), List.range_succ, List.map_append]
  simp only [List.map_cons, List.map_nil, hlast, Nat.zero_mod, Nat.zero_mul, Nat.add_zero,
    SHIFTR_one]

theorem value_mod_two (R : Nat) (hR : 0 < R) (x : List Nat) :
    value R x % 2 = x.getD 0 0 % 2 := by
  cases x with
  | nil => rfl
  | cons d ds =>
    obtain ⟨r, rfl⟩ : ∃ r, R = r + 1 := ⟨R - 1, by omega⟩
    have e : 2 ^ (r + 1) * value (r + 1) ds = 2 * (2 ^ r * value (r + 1) ds) := by
      rw [pow_succ]; ring
    rw [value, e, Nat.add_mul_mod_self_left]
    rfl

/-- Halving the value of a digit array digit by digit. -/
theorem value_shifted (R : Nat) (hR : 0 < R) (x : List Nat) :
    value R ((List.range x.length).map
        (fun i => x.getD i 0 / 2 + x.getD (i + 1) 0 % 2 * 2 ^ (R - 1)))
      = value R x / 2 := by
  induction x with
  | nil => simp [value]
  | cons d ds ih =>
    obtain ⟨r, rfl⟩ : ∃ r, R = r + 1 := ⟨R - 1, by omega⟩
    rw [List.length_cons, List.range_succ_eq_map, List.map_cons, List.map_map, value]
    have hmap : List.map ((fun i => (d :: ds).getD i 0 / 2
          + (d :: ds).getD (i + 1) 0 % 2 * 2 ^ (r + 1 - 1)) ∘ Nat.succ) (List.range ds.length)
        = List.map (fun i => ds.getD i 0 / 2 + ds.getD (i + 1) 0 % 2 * 2 ^ (r + 1 - 1))
            (List.range ds.length) := by
      apply List.map_congr_left
      intro i _
      simp
    rw [hmap, ih, value]
    simp only [List.getD_cons_zero, List.getD_cons_succ, Nat.zero_add, Nat.add_sub_cancel]
    have hm := value_mod_two (r + 1) (by omega) ds
    have hdm := Nat.div_add_mod (value (r + 1) ds) 2
    rw [hm] at hdm
    have e1 : d + 2 ^ (r + 1) * value (r + 1) ds = d + 2 * (2 ^ r * value (r + 1) ds) := by
      rw [pow_succ]; ring
    rw [e1, Nat.add_mul_div_left _ _ (by norm_num : 0 < 2)]
    have e2 : 2 ^ r * value (r + 1) ds
        = 2 ^ (r + 1) * (value (r + 1) ds / 2) + ds.getD 0 0 % 2 * 2 ^ r := by
      conv_lhs => rw [← hdm]
      rw [pow_succ]; ring
    rw [e2]
    ring

/-- C14. One-bit right shift: for `nwords ≥ 1` and a digit array `x` of length `nwords`, after
`mp_shiftr1(x, nwords)` the array holds `floor(value x / 2)`: digit `i` is the old digit `i`
moved down one bit with the low bit of the old digit `i+1` as its top bit, and the top bit of
the most significant digit is 0. -/
theorem mp_shiftr1_halves (RADIX nwords : Nat) (x : List Nat) (hR : 0 < RADIX)
    (hn : 1 ≤ nwords) (hx : IsDigits RADIX nwords x) :
    value RADIX (mp_shiftr1 RADIX x nwords) = value RADIX x / 2
    ∧ IsDigits RADIX nwords (mp_shiftr1 RADIX x nwords)
    ∧ (∀ i, i + 1 < nwords →
        (mp_shiftr1 RADIX x nwords).getD i 0
          = x.getD i 0 / 2 + x.getD (i + 1) 0 % 2 * 2 ^ (RADIX - 1))
    ∧ (mp_shiftr1 RADIX x nwords).getD (nwords - 1) 0 = x.getD (nwords - 1) 0 / 2
    ∧ (mp_shiftr1 RADIX x nwords).getD (nwords - 1) 0 < 2 ^ (RADIX - 1) := by
  have heq := mp_shiftr1_eq RADIX x nwords hn hx.1
  have hval : value RADIX (mp_shiftr1 RADIX x nwords) = value RADIX x / 2 := by
    rw [heq, ← hx.1]; exact value_shifted RADIX hR x
  have hget : ∀ i, i < nwords → (mp_shiftr1 RADIX x nwords).getD i 0
      = x.getD i 0 / 2 + x.getD (i + 1) 0 % 2 * 2 ^ (RADIX - 1) := by
    intro i hi
    rw [heq, List.getD_eq_getElem?_getD, List.getElem?_map, List.getElem?_range hi]
    rfl
  have hlast : x.getD (nwords - 1 + 1) 0 = 0 := by
    rw [List.getD_eq_getElem?_getD, List.getElem?_eq_none (by rw [hx.1]; omega)]
    rfl
  have hB : (2 : Nat) ^ RADIX = 2 * 2 ^ (RADIX - 1) := by
    obtain ⟨r, rfl⟩ : ∃ r, RADIX = r + 1 := ⟨RADIX - 1, by omega⟩
    rw [pow_succ, Nat.add_sub_cancel]; ring
  have htop : (mp_shiftr1 RADIX x nwords).getD (nwords - 1) 0 = x.getD (nwords - 1) 0 / 2 := by
    rw [hget _ (by omega), hlast]; simp
  refine ⟨hval, ⟨by rw [heq]; simp, ?_⟩, fun i hi => hget i (by omega), htop, ?_⟩
  · intro d hd
    rw [heq] at hd
    simp only [List.mem_map, List.mem_range] at hd
    obtain ⟨i, _, rfl⟩ := hd
    have h1 := getD_lt_of_isDigits RADIX nwords x hx i
    have h2 : x.getD (i + 1) 0 % 2 < 2 := Nat.mod_lt _ (by norm_num)
    have h3 : x.getD i 0 / 2 < 2 ^ (RADIX - 1) := by
      rw [Nat.div_lt_iff_lt_mul (by norm_num)]; omega
    have h4 : x.getD (i + 1) 0 % 2 * 2 ^ (RADIX - 1) ≤ 1 * 2 ^ (RADIX - 1) :=
      Nat.mul_le_mul_right _ (by omega)
    omega
  · rw [htop, Nat.div_lt_iff_lt_mul (by norm_num)]
    have h1 := getD_lt_of_isDigits RADIX nwords x hx (nwords - 1)
    omega

/-- Witness of C14 on three 8-bit digits: `0x0301FF >> 1 = 0x0180FF`. -/
theorem mp_shiftr1_halves_witness :
    value 8 (mp_shiftr1 8 [255, 1, 3] 3) = value 8 [255, 1, 3] / 2
    ∧ IsDigits 8 3 (mp_shiftr1 8 [255, 1, 3] 3)
    ∧ (∀ i, i + 1 < 3 →
        (mp_shiftr1 8 [255, 1, 3] 3).getD i 0
          = [255, 1, 3].getD i 0 / 2 + [255, 1, 3].getD (i + 1) 0 % 2 * 2 ^ (8 - 1))
    ∧ (mp_shiftr1 8 [255, 1, 3] 3).getD (3 - 1) 0 = [255, 1, 3].getD (3 - 1) 0 / 2
    ∧ (mp_shiftr1 8 [255, 1, 3] 3).getD (3 - 1) 0 < 2 ^ (8 - 1) :=
  mp_shiftr1_halves 8 3 [255, 1, 3] (by decide) (by decide) (by decide)

/-! ## The masked addition of `p` inside `fp2mul_mont` -/

theorem addc_fold_length (R : Nat) (f g : Nat → Nat) (n : Nat) :
    ((List.range n).foldl
        (fun (st : Nat × List Nat) i =>
          ((ADDC R st.1 (f i) (g i)).1, st.2 ++ [(ADDC R st.1 (f i) (g i)).2]))
        (0, [])).2.length = n := by
  induction n with
  | zero => rfl
  | succ n ih =>
    rw [List.range_succ, List.foldl_append]
    simp [ih]

/-- The in-place `ADDC` loop on the digits `[off, off + n)` of `x` writes what the loop on a
copy of those digits writes. -/
theorem addc_inplace_eq (R n off : Nat) (g : Nat → Nat) (x : List Nat)
    (hx : off + n ≤ x.length) :
    (List.range n).foldl
        (fun (st : Nat × List Nat) i =>
          ((ADDC R st.1 (st.2.getD (off + i) 0) (g i)).1,
            st.2.set (off + i) (ADDC R st.1 (st.2.getD (off + i) 0) (g i)).2))
        (0, x)
      = (((List.range n).foldl
            (fun (st : Nat × List Nat) i =>
              ((ADDC R st.1 (x.getD (off + i) 0) (g i)).1,
                st.2 ++ [(ADDC R st.1 (x.getD (off + i) 0) (g i)).2]))
            (0, [])).1,
          x.take off ++ ((List.range n).foldl
            (fun (st : Nat × List Nat) i =>
              ((ADDC R st.1 (x.getD (off + i) 0) (g i)).1,
                st.2 ++ [(ADDC R st.1 (x.getD (off + i) 0) (g i)).2]))
            (0, [])).2 ++ x.drop (off + n)) := by
  induction n with
  | zero => simp
  | succ n ih =>
    have hlen := addc_fold_length R (fun i => x.getD (off + i) 0) g n
    rw [List.range_succ, List.foldl_append, List.foldl_append, ih (by omega)]
    simp only [List.foldl_cons, List.foldl_nil]
    generalize (List.range n).foldl
        (fun (st : Nat × List Nat) i =>
          ((ADDC R st.1 (x.getD (off + i) 0) (g i)).1,
            st.2 ++ [(ADDC R st.1 (x.getD (off + i) 0) (g i)).2]))
        (0, []) = L at hlen ⊢
    have hpre : (List.take off x ++ L.2).length = off + n := by
      rw [List.length_append, List.length_take, hlen]; omega
    rw [getD_append_drop _ x (off + n) (off + n) hpre (le_refl _), List.set_append,
      if_neg (by rw [hpre]; omega), hpre, Nat.sub_self,
      List.drop_eq_getElem_cons (by omega : off + n < x.length), List.set_cons_zero]
    simp [Nat.add_assoc]

theorem map_range_getD_add (x : List Nat) (n : Nat) (hx : x.length = n + n) :
    (List.range n).map (fun i => x.getD (n + i) 0) = x.drop n := by
  apply List.ext_getElem
  · simp [hx]
  · intro i h1 h2
    simp only [List.length_map, List.length_range] at h1
    have h3 : n + i < x.length := by omega
    simp [List.getD_eq_getElem?_getD, List.getElem?_eq_getElem h3]

theorem value_take_add_drop (R n : Nat) (x : List Nat) (hx : n ≤ x.length) :
    value R x = value R (x.take n) + 2 ^ (R * n) * value R (x.drop n) := by
  conv_lhs => rw [← List.take_append_drop n x]
  rw [value_append, List.length_take, Nat.min_eq_left hx]

theorem isDigits_take (R n m : Nat) (x : List Nat) (hx : IsDigits R m x) (hn : n ≤ m) :
    IsDigits R n (x.take n) :=
  ⟨by rw [List.length_take, hx.1]; omega, fun d hd => hx.2 d (List.mem_of_mem_take hd)⟩

theorem isDigits_append (R n m : Nat) (x y : List Nat) (hx : IsDigits R n x)
    (hy : IsDigits R m y) : IsDigits R (n + m) (x ++ y) := by
  refine ⟨by rw [List.length_append, hx.1, hy.1], ?_⟩
  intro d hd
  rcases List.mem_append.1 hd with h | h
  · exact hx.2 d h
  · exact hy.2 d h

theorem value_PRIME {F : FieldCtx} (hS : F.Sound) :
    IsDigits F.RADIX F.NWORDS_FIELD (PRIME F) ∧ value F.RADIX (PRIME F) = p503 := by
  refine ⟨isDigits_toDigits _ _ _, ?_⟩
  unfold PRIME
  apply value_toDigits_of_lt
  rw [hS.radix_words]
  exact p503_lt_R

theorem value_map_zero (R n : Nat) : value R ((List.range n).map (fun _ => 0)) = 0 := by
  induction n with
  | zero => rfl
  | succ n ih => rw [value_map_range_succ, ih, Nat.mul_zero]

/-- The masked prime: `PRIME[i] & mask` over all digits is `p` for the all-ones mask and 0 for
the zero mask. -/
theorem value_masked_PRIME {F : FieldCtx} (hS : F.Sound) (c : Prop) [Decidable c] :
    (∀ i, (PRIME F).getD i 0 &&& (if c then 2 ^ F.RADIX - 1 else 0) < 2 ^ F.RADIX)
    ∧ value F.RADIX ((List.range F.NWORDS_FIELD).map
        (fun i => (PRIME F).getD i 0 &&& (if c then 2 ^ F.RADIX - 1 else 0)))
      = if c then p503 else 0 := by
  obtain ⟨hd, hv⟩ := value_PRIME hS
  have hdig : ∀ i, (PRIME F).getD i 0 < 2 ^ F.RADIX := getD_lt_of_isDigits _ _ _ hd
  by_cases hc : c
  · simp only [hc, if_true, Nat.and_pow_two_sub_one_eq_mod]
    have hmod : ∀ i, (PRIME F).getD i 0 % 2 ^ F.RADIX = (PRIME F).getD i 0 :=
      fun i => Nat.mod_eq_of_lt (hdig i)
    simp only [hmod]
    exact ⟨hdig, by rw [map_range_getD _ _ hd.1, hv]⟩
  · simp only [hc, if_false, Nat.and_zero]
    exact ⟨fun _ => by positivity, value_map_zero _ _⟩

/-- The arithmetic behind the masked correction: a borrow of the subtraction is cancelled by
the carry of adding `p * R`. -/
theorem masked_correction_arith (A B v3 v3' bo c M RP : Nat) (hbo : bo ≤ 1) (hc : c ≤ 1)
    (h1 : v3 + B = A + bo * M) (hbo' : bo = 1 ↔ A < B)
    (h2 : v3' + c * M = v3 + (if A < B then RP else 0))
    (hv3 : v3 < M) (hv3' : v3' < M) (hA : A < RP) (hB : B < RP) :
    v3' + B = A + (if A < B then RP else 0) ∧ v3' < RP ∧ c = (if A < B then 1 else 0) := by
  by_cases hlt : A < B
  · have hb1 : bo = 1 := hbo'.2 hlt
    subst hb1
    simp only [hlt, if_true] at h2 ⊢
    rcases Nat.le_one_iff_eq_zero_or_eq_one.1 hc with h | h
    · subst h; omega
    · subst h; omega
  · have hb0 : bo = 0 := by
      rcases Nat.le_one_iff_eq_zero_or_eq_one.1 hbo with h | h
      · exact h
      · exact absurd (hbo'.1 h) hlt
    subst hb0
    simp only [hlt, if_false] at h2 ⊢
    rcases Nat.le_one_iff_eq_zero_or_eq_one.1 hc with h | h
    · subst h; omega
    · subst h; omega

theorem mp_add_no_carry (R n : Nat) (a b : List Nat) (ha : IsDigits R n a)
    (hb : IsDigits R n b) (hlt : value R a + value R b < 2 ^ (R * n)) :
    (mp_add R a b n).1 = 0 ∧ IsDigits R n (mp_add R a b n).2
      ∧ value R (mp_add R a b n).2 = value R a + value R b := by
  obtain ⟨h1, h2, h3⟩ := mp_add_spec R n a b ha hb
  generalize (mp_add R a b n).1 = c at h1 h3 ⊢
  generalize 2 ^ (R * n) = M at h3 hlt
  rcases Nat.le_one_iff_eq_zero_or_eq_one.1 h1 with h | h
  · subst h; exact ⟨rfl, h2, by omega⟩
  · subst h; omega

theorem mp_sub_no_borrow (R n : Nat) (a b : List Nat) (ha : IsDigits R n a)
    (hb : IsDigits R n b) (hle : value R b ≤ value R a) :
    (mp_sub R a b n).1 = 0 ∧ IsDigits R n (mp_sub R a b n).2
      ∧ value R (mp_sub R a b n).2 + value R b = value R a := by
  obtain ⟨h1, h2, h3, h4⟩ := mp_sub_spec R n a b ha hb
  have h0 : (mp_sub R a b n).1 = 0 := by
    rcases Nat.le_one_iff_eq_zero_or_eq_one.1 h1 with h | h
    · exact h
    · exact absurd (h4.1 h) (by omega)
  rw [h0] at h3
  exact ⟨h0, h2, by omega⟩

/-! ## The variables of `fp2mul_mont` -/

theorem eight_p503_lt_R : 8 * p503 < 2 ^ 512 := by decide!

theorem mul_lt_of_lt_two_mul (x y p Rv : Nat) (hx : x < 2 * p) (hy : y < 2 * p)
    (h4 : 4 * p ≤ Rv) : x * y < p * Rv := by
  calc x * y < (2 * p) * (2 * p) := Nat.mul_lt_mul'' hx hy
    _ = p * (4 * p) := by ring
    _ ≤ p * Rv := Nat.mul_le_mul_left _ h4

theorem add_mul_lt_of_lt_two_mul (x y z w p Rv : Nat) (hx : x < 2 * p) (hy : y < 2 * p)
    (hz : z < 2 * p) (hw : w < 2 * p) (h8 : 8 * p ≤ Rv) : x * y + z * w < p * Rv := by
  have h1 : x * y < (2 * p) * (2 * p) := Nat.mul_lt_mul'' hx hy
  have h2 : z * w < (2 * p) * (2 * p) := Nat.mul_lt_mul'' hz hw
  calc x * y + z * w < (2 * p) * (2 * p) + (2 * p) * (2 * p) := Nat.add_lt_add h1 h2
    _ = p * (8 * p) := by ring
    _ ≤ p * Rv := Nat.mul_le_mul_left _ h8

theorem pow_double_words (F : FieldCtx) :
    2 ^ (F.RADIX * (2 * F.NWORDS_FIELD)) = F.R * F.R := by
  unfold FieldCtx.R
  rw [← pow_add]
  congr 1
  ring

theorem fp2mul_trace_tt3 (F : FieldCtx) (a b : List Nat × List Nat) :
    (fp2mul_mont_trace F a b).tt3
      = ((List.range F.NWORDS_FIELD).foldl
          (fun (st : Nat × List Nat) i =>
            ((ADDC F.RADIX st.1 (st.2.getD (F.NWORDS_FIELD + i) 0)
                ((PRIME F).getD i 0 &&&
                  (mp_subfast F (F.mp_mul a.1 b.1 F.NWORDS_FIELD)
                    (F.mp_mul a.2 b.2 F.NWORDS_FIELD)).1)).1,
              st.2.set (F.NWORDS_FIELD + i)
                (ADDC F.RADIX st.1 (st.2.getD (F.NWORDS_FIELD + i) 0)
                  ((PRIME F).getD i 0 &&&
                    (mp_subfast F (F.mp_mul a.1 b.1 F.NWORDS_FIELD)
                      (F.mp_mul a.2 b.2 F.NWORDS_FIELD)).1)).2))
          (0, (mp_subfast F (F.mp_mul a.1 b.1 F.NWORDS_FIELD)
            (F.mp_mul a.2 b.2 F.NWORDS_FIELD)).2)).2 := rfl

theorem fp2mul_trace_borrow (F : FieldCtx) (a b : List Nat × List Nat) :
    (fp2mul_mont_trace F a b).borrow
      = ((List.range F.NWORDS_FIELD).foldl
          (fun (st : Nat × List Nat) i =>
            ((ADDC F.RADIX st.1 (st.2.getD (F.NWORDS_FIELD + i) 0)
                ((PRIME F).getD i 0 &&&
                  (mp_subfast F (F.mp_mul a.1 b.1 F.NWORDS_FIELD)
                    (F.mp_mul a.2 b.2 F.NWORDS_FIELD)).1)).1,
              st.2.set (F.NWORDS_FIELD + i)
                (ADDC F.RADIX st.1 (st.2.getD (F.NWORDS_FIELD + i) 0)
                  ((PRIME F).getD i 0 &&&
                    (mp_subfast F (F.mp_mul a.1 b.1 F.NWORDS_FIELD)
                      (F.mp_mul a.2 b.2 F.NWORDS_FIELD)).1)).2))
          (0, (mp_subfast F (F.mp_mul a.1 b.1 F.NWORDS_FIELD)
            (F.mp_mul a.2 b.2 F.NWORDS_FIELD)).2)).1 := rfl

theorem fp2mul_trace_tt2 (F : FieldCtx) (a b : List Nat × List Nat) :
    (fp2mul_mont_trace F a b).tt2
      = (mp_subfast F
          (F.mp_mul (mp_addfast F a.1 a.2) (mp_addfast F b.1 b.2) F.NWORDS_FIELD)
          (mp_addfastx2 F (F.mp_mul a.1 b.1 F.NWORDS_FIELD)
            (F.mp_mul a.2 b.2 F.NWORDS_FIELD))).2 := rfl

theorem fp2mul_trace_mask2 (F : FieldCtx) (a b : List Nat × List Nat) :
    (fp2mul_mont_trace F a b).mask2
      = (mp_subfast F
          (F.mp_mul (mp_addfast F a.1 a.2) (mp_addfast F b.1 b.2) F.NWORDS_FIELD)
          (mp_addfastx2 F (F.mp_mul a.1 b.1 F.NWORDS_FIELD)
            (F.mp_mul a.2 b.2 F.NWORDS_FIELD))).1 := rfl

/-- The real part: after the subtraction and the masked addition of `p`, `tt3` holds
`a0*b0 - a1*b1`, plus `p * R` when that is negative. -/
theorem fp2mul_tt3_spec {F : FieldCtx} (hS : F.Sound) (a b : List Nat × List Nat)
    (ha0 : F.IsFelm a.1) (ha1 : F.IsFelm a.2) (hb0 : F.IsFelm b.1) (hb1 : F.IsFelm b.2) :
    (fp2mul_mont_trace F a b).mask
        = (if value F.RADIX a.1 * value F.RADIX b.1 < value F.RADIX a.2 * value F.RADIX b.2
            then 2 ^ F.RADIX - 1 else 0)
    ∧ (fp2mul_mont_trace F a b).borrow
        = (if value F.RADIX a.1 * value F.RADIX b.1 < value F.RADIX a.2 * value F.RADIX b.2
            then 1 else 0)
    ∧ IsDigits F.RADIX (2 * F.NWORDS_FIELD) (fp2mul_mont_trace F a b).tt3
    ∧ value F.RADIX (fp2mul_mont_trace F a b).tt3 + value F.RADIX a.2 * value F.RADIX b.2
        = value F.RADIX a.1 * value F.RADIX b.1
          + (if value F.RADIX a.1 * value F.RADIX b.1 < value F.RADIX a.2 * value F.RADIX b.2
              then p503 * F.R else 0)
    ∧ value F.RADIX (fp2mul_mont_trace F a b).tt3 < p503 * F.R := by
  have h4 : 4 * p503 ≤ F.R := by rw [hS.R_eq]; exact four_p503_lt_R.le
  have hM := pow_double_words F
  have hT1 := hS.mp_mul_digits a.1 b.1 _ ha0.1 hb0.1
  have hv1 := hS.mp_mul_value a.1 b.1 _ ha0.1 hb0.1
  have hT2 := hS.mp_mul_digits a.2 b.2 _ ha1.1 hb1.1
  have hv2 := hS.mp_mul_value a.2 b.2 _ ha1.1 hb1.1
  have hA := mul_lt_of_lt_two_mul _ _ _ _ ha0.2 hb0.2 h4
  have hB := mul_lt_of_lt_two_mul _ _ _ _ ha1.2 hb1.2 h4
  obtain ⟨hmask, htt3⟩ := mp_subfast_mask F _ _ hT1 hT2
  obtain ⟨hbo, hsd, hsv, hsiff⟩ := mp_sub_spec F.RADIX (2 * F.NWORDS_FIELD) _ _ hT1 hT2
  rw [hv1, hv2] at hmask hsv hsiff
  have hrfl : (fp2mul_mont_trace F a b).mask
      = (mp_subfast F (F.mp_mul a.1 b.1 F.NWORDS_FIELD)
          (F.mp_mul a.2 b.2 F.NWORDS_FIELD)).1 := rfl
  rw [hrfl, fp2mul_trace_borrow, fp2mul_trace_tt3, hmask, htt3]
  generalize hx : (mp_sub F.RADIX (F.mp_mul a.1 b.1 F.NWORDS_FIELD)
    (F.mp_mul a.2 b.2 F.NWORDS_FIELD) (2 * F.NWORDS_FIELD)).2 = x at hsd hsv
  generalize (mp_sub F.RADIX (F.mp_mul a.1 b.1 F.NWORDS_FIELD)
    (F.mp_mul a.2 b.2 F.NWORDS_FIELD) (2 * F.NWORDS_FIELD)).1 = bo at hbo hsv hsiff
  have hxl : x.length = F.NWORDS_FIELD + F.NWORDS_FIELD := by rw [hsd.1]; ring
  rw [addc_inplace_eq F.RADIX F.NWORDS_FIELD F.NWORDS_FIELD _ x (by omega)]
  obtain ⟨hg, hgv⟩ := value_masked_PRIME hS
    (value F.RADIX a.1 * value F.RADIX b.1 < value F.RADIX a.2 * value F.RADIX b.2)
  obtain ⟨hc, hLd, hLv⟩ := addc_fold_spec F.RADIX (fun i => x.getD (F.NWORDS_FIELD + i) 0)
    (fun i => (PRIME F).getD i 0 &&&
      (if value F.RADIX a.1 * value F.RADIX b.1 < value F.RADIX a.2 * value F.RADIX b.2
        then 2 ^ F.RADIX - 1 else 0))
    F.NWORDS_FIELD (fun i _ => getD_lt_of_isDigits _ _ _ hsd _) (fun i _ => hg i)
  rw [map_range_getD_add x _ hxl, hgv] at hLv
  generalize (List.range F.NWORDS_FIELD).foldl
    (fun (st : Nat × List Nat) i =>
      ((ADDC F.RADIX st.1 (x.getD (F.NWORDS_FIELD + i) 0)
          ((PRIME F).getD i 0 &&&
            (if value F.RADIX a.1 * value F.RADIX b.1 < value F.RADIX a.2 * value F.RADIX b.2
              then 2 ^ F.RADIX - 1 else 0))).1,
        st.2 ++ [(ADDC F.RADIX st.1 (x.getD (F.NWORDS_FIELD + i) 0)
          ((PRIME F).getD i 0 &&&
            (if value F.RADIX a.1 * value F.RADIX b.1 < value F.RADIX a.2 * value F.RADIX b.2
              then 2 ^ F.RADIX - 1 else 0))).2]))
    (0, []) = L at hc hLd hLv ⊢
  simp only
  have hdrop : x.drop (F.NWORDS_FIELD + F.NWORDS_FIELD) = [] :=
    List.drop_eq_nil_of_le (by omega)
  rw [hdrop, List.append_nil]
  have htake := isDigits_take F.RADIX F.NWORDS_FIELD _ x hsd (by omega)
  have hnew : IsDigits F.RADIX (2 * F.NWORDS_FIELD) (x.take F.NWORDS_FIELD ++ L.2) := by
    have := isDigits_append _ _ _ _ _ htake hLd
    rwa [← Nat.two_mul] at this
  have hxv := value_take_add_drop F.RADIX F.NWORDS_FIELD x (by omega)
  have hnv : value F.RADIX (x.take F.NWORDS_FIELD ++ L.2)
      = value F.RADIX (x.take F.NWORDS_FIELD) + F.R * value F.RADIX L.2 := by
    rw [value_append, htake.1]; rfl
  have hRn : 2 ^ (F.RADIX * F.NWORDS_FIELD) = F.R := rfl
  rw [hRn] at hLv hxv
  rw [hM] at hsv
  have hxlt := value_lt _ _ _ hsd
  have hnlt := value_lt _ _ _ hnew
  rw [hM] at hxlt hnlt
  -- the sum of the new array and the carry
  have hsum : value F.RADIX (x.take F.NWORDS_FIELD ++ L.2) + L.1 * (F.R * F.R)
      = value F.RADIX x
        + (if value F.RADIX a.1 * value F.RADIX b.1 < value F.RADIX a.2 * value F.RADIX b.2
            then p503 * F.R else 0) := by
    have e : (if value F.RADIX a.1 * value F.RADIX b.1 < value F.RADIX a.2 * value F.RADIX b.2
          then p503 * F.R else 0)
        = F.R * (if value F.RADIX a.1 * value F.RADIX b.1
            < value F.RADIX a.2 * value F.RADIX b.2 then p503 else 0) := by
      split_ifs <;> ring
    rw [hnv, hxv, e]
    calc value F.RADIX (x.take F.NWORDS_FIELD) + F.R * value F.RADIX L.2 + L.1 * (F.R * F.R)
        = value F.RADIX (x.take F.NWORDS_FIELD)
          + F.R * (value F.RADIX L.2 + L.1 * F.R) := by ring
      _ = _ := by rw [hLv]; ring
  obtain ⟨r1, r2, r3⟩ := masked_correction_arith _ _ _ _ bo L.1 (F.R * F.R) (p503 * F.R)
    hbo hc hsv hsiff hsum hxlt hnlt hA hB
  exact ⟨trivial, r3, hnew, r1, r2⟩

/-- The field-length addition of two operands in `[0, 2p)` does not carry. -/
theorem mp_addfast_spec {F : FieldCtx} (hS : F.Sound) (x y : List Nat)
    (hx : F.IsFelm x) (hy : F.IsFelm y) :
    (mp_add F.RADIX x y F.NWORDS_FIELD).1 = 0
      ∧ IsDigits F.RADIX F.NWORDS_FIELD (mp_addfast F x y)
      ∧ value F.RADIX (mp_addfast F x y) = value F.RADIX x + value F.RADIX y := by
  have h4 : 4 * p503 < F.R := by rw [hS.R_eq]; exact four_p503_lt_R
  have hlt : value F.RADIX x + value F.RADIX y < 2 ^ (F.RADIX * F.NWORDS_FIELD) := by
    have h1 := hx.2
    have h2 := hy.2
    show _ < F.R
    omega
  exact mp_add_no_carry F.RADIX F.NWORDS_FIELD x y hx.1 hy.1 hlt

theorem cross_terms_le (x0 x1 y0 y1 : Nat) :
    x0 * y0 + x1 * y1 ≤ (x0 + x1) * (y0 + y1) := by
  have e : (x0 + x1) * (y0 + y1) = x0 * y0 + x1 * y1 + (x0 * y1 + x1 * y0) := by ring
  rw [e]
  exact Nat.le_add_right _ _

theorem cross_terms_eq (X x0 x1 y0 y1 : Nat)
    (e : X + (x0 * y0 + x1 * y1) = (x0 + x1) * (y0 + y1)) : X = x0 * y1 + x1 * y0 := by
  have e2 : (x0 + x1) * (y0 + y1) = x0 * y1 + x1 * y0 + (x0 * y0 + x1 * y1) := by ring
  rw [e2] at e
  exact Nat.add_right_cancel e

/-- The imaginary part: `tt2` holds exactly `a0*b1 + a1*b0`, and no carry or borrow is lost on
the way. -/
theorem fp2mul_tt2_spec {F : FieldCtx} (hS : F.Sound) (a b : List Nat × List Nat)
    (ha0 : F.IsFelm a.1) (ha1 : F.IsFelm a.2) (hb0 : F.IsFelm b.1) (hb1 : F.IsFelm b.2) :
    (fp2mul_mont_trace F a b).carry_tt1 = 0
    ∧ (fp2mul_mont_trace F a b).mask2 = 0
    ∧ IsDigits F.RADIX (2 * F.NWORDS_FIELD) (fp2mul_mont_trace F a b).tt2
    ∧ value F.RADIX (fp2mul_mont_trace F a b).tt2
        = value F.RADIX a.1 * value F.RADIX b.2 + value F.RADIX a.2 * value F.RADIX b.1
    ∧ value F.RADIX (fp2mul_mont_trace F a b).tt2 < p503 * F.R := by
  have h8 : 8 * p503 ≤ F.R := by rw [hS.R_eq]; exact eight_p503_lt_R.le
  have hpR : p503 ≤ F.R := by have := p503_pos; omega
  have hM := pow_double_words F
  have hT1 := hS.mp_mul_digits a.1 b.1 _ ha0.1 hb0.1
  have hv1 := hS.mp_mul_value a.1 b.1 _ ha0.1 hb0.1
  have hT2 := hS.mp_mul_digits a.2 b.2 _ ha1.1 hb1.1
  have hv2 := hS.mp_mul_value a.2 b.2 _ ha1.1 hb1.1
  obtain ⟨_, ht1d, ht1v⟩ := mp_addfast_spec hS a.1 a.2 ha0 ha1
  obtain ⟨_, ht2d, ht2v⟩ := mp_addfast_spec hS b.1 b.2 hb0 hb1
  have hT3 := hS.mp_mul_digits _ _ _ ht1d ht2d
  have hv3 := hS.mp_mul_value _ _ _ ht1d ht2d
  rw [ht1v, ht2v] at hv3
  -- tt1 = a0*b0 + a1*b1, without carry
  have hsumlt : value F.RADIX (F.mp_mul a.1 b.1 F.NWORDS_FIELD)
      + value F.RADIX (F.mp_mul a.2 b.2 F.NWORDS_FIELD)
      < 2 ^ (F.RADIX * (2 * F.NWORDS_FIELD)) := by
    rw [hv1, hv2, hM]
    exact lt_of_lt_of_le (add_mul_lt_of_lt_two_mul _ _ _ _ _ _ ha0.2 hb0.2 ha1.2 hb1.2 h8)
      (Nat.mul_le_mul_right _ hpR)
  obtain ⟨hc, hsd, hsv⟩ := mp_add_no_carry F.RADIX (2 * F.NWORDS_FIELD) _ _ hT1 hT2 hsumlt
  rw [hv1, hv2] at hsv
  -- tt2 = (a0+a1)*(b0+b1) - tt1, without borrow
  have hle : value F.RADIX (mp_addfastx2 F (F.mp_mul a.1 b.1 F.NWORDS_FIELD)
        (F.mp_mul a.2 b.2 F.NWORDS_FIELD))
      ≤ value F.RADIX (F.mp_mul (mp_addfast F a.1 a.2) (mp_addfast F b.1 b.2)
          F.NWORDS_FIELD) := by
    show value F.RADIX (mp_add F.RADIX _ _ _).2 ≤ _
    rw [hsv, hv3]
    exact cross_terms_le _ _ _ _
  obtain ⟨hb, hdd, hdv⟩ := mp_sub_no_borrow F.RADIX (2 * F.NWORDS_FIELD) _ _ hT3 hsd hle
  have hmask := (mp_subfast_mask F _ _ hT3 hsd).1
  rw [if_neg (by omega)] at hmask
  have hval : value F.RADIX (fp2mul_mont_trace F a b).tt2
      = value F.RADIX a.1 * value F.RADIX b.2 + value F.RADIX a.2 * value F.RADIX b.1 := by
    rw [fp2mul_trace_tt2]
    show value F.RADIX (mp_sub F.RADIX _ (mp_add F.RADIX _ _ _).2 _).2 = _
    have e : value F.RADIX (mp_sub F.RADIX
          (F.mp_mul (mp_addfast F a.1 a.2) (mp_addfast F b.1 b.2) F.NWORDS_FIELD)
          (mp_add F.RADIX (F.mp_mul a.1 b.1 F.NWORDS_FIELD) (F.mp_mul a.2 b.2 F.NWORDS_FIELD)
            (2 * F.NWORDS_FIELD)).2 (2 * F.NWORDS_FIELD)).2
        + (value F.RADIX a.1 * value F.RADIX b.1 + value F.RADIX a.2 * value F.RADIX b.2)
        = (value F.RADIX a.1 + value F.RADIX a.2) * (value F.RADIX b.1 + value F.RADIX b.2) := by
      rw [← hsv, ← hv3]; exact hdv
    exact cross_terms_eq _ _ _ _ _ e
  refine ⟨hc, by rw [fp2mul_trace_mask2]; exact hmask, hdd, hval, ?_⟩
  rw [hval]
  exact add_mul_lt_of_lt_two_mul _ _ _ _ _ _ ha0.2 hb1.2 ha1.2 hb0.2 h8

/-- Everything the claims need about `fp2mul_mont` on operands in `[0, 2p)`. -/
theorem fp2mul_mont_facts {F : FieldCtx} (hS : F.Sound) (a b : List Nat × List Nat)
    (ha0 : F.IsFelm a.1) (ha1 : F.IsFelm a.2) (hb0 : F.IsFelm b.1) (hb1 : F.IsFelm b.2) :
    Fp2MulFacts F a b := by
  obtain ⟨m1, m2, m3, m4, m5⟩ := fp2mul_tt3_spec hS a b ha0 ha1 hb0 hb1
  obtain ⟨n1, n2, n3, n4, n5⟩ := fp2mul_tt2_spec hS a b ha0 ha1 hb0 hb1
  exact
    { carry_t1 := (mp_addfast_spec hS a.1 a.2 ha0 ha1).1
      carry_t2 := (mp_addfast_spec hS b.1 b.2 hb0 hb1).1
      carry_tt1 := n1
      mask2 := n2
      mask := m1
      borrow := m2
      tt3_digits := m3
      tt3_value := m4
      tt3_lt := m5
      tt2_digits := n3
      tt2_value := n4
      tt2_lt := n5
      c0_felm := ⟨hS.rdc_mont_digits _ m3 m5, hS.rdc_mont_lt _ m3 m5⟩
      c0_congr := hS.rdc_mont_congr _ m3 m5
      c1_felm := ⟨hS.rdc_mont_digits _ n3 n5, hS.rdc_mont_lt _ n3 n5⟩
      c1_congr := hS.rdc_mont_congr _ n3 n5 }

/-! ## The variables of `fp2sqr_mont` -/

/-- Montgomery multiplication of digit arrays whose product is below `p * R`. -/
theorem fpmul_mont_spec_of_lt {F : FieldCtx} (hS : F.Sound) (x y : List Nat)
    (hx : IsDigits F.RADIX F.NWORDS_FIELD x) (hy : IsDigits F.RADIX F.NWORDS_FIELD y)
    (hlt : value F.RADIX x * value F.RADIX y < p503 * F.R) :
    value F.RADIX (F.mp_mul x y F.NWORDS_FIELD) < p503 * F.R
      ∧ F.IsFelm (fpmul_mont F x y)
      ∧ value F.RADIX (fpmul_mont F x y) * F.R ≡ value F.RADIX x * value F.RADIX y
          [MOD p503] := by
  have hT := hS.mp_mul_digits x y F.NWORDS_FIELD hx hy
  have hv := hS.mp_mul_value x y F.NWORDS_FIELD hx hy
  have hlt' : value F.RADIX (F.mp_mul x y F.NWORDS_FIELD) < p503 * F.R := by rw [hv]; exact hlt
  refine ⟨hlt', ⟨hS.rdc_mont_digits _ hT hlt', hS.rdc_mont_lt _ hT hlt'⟩, ?_⟩
  have hc := hS.rdc_mont_congr _ hT hlt'
  rw [hv] at hc
  exact hc

theorem mul_lt_of_lt_four_mul (x y p Rv : Nat) (hx : x < 4 * p) (hy : y < 2 * p)
    (h8 : 8 * p ≤ Rv) : x * y < p * Rv := by
  calc x * y < (4 * p) * (2 * p) := Nat.mul_lt_mul'' hx hy
    _ = p * (8 * p) := by ring
    _ ≤ p * Rv := Nat.mul_le_mul_left _ h8

/-- Everything the claims need about `fp2sqr_mont` on an operand in `[0, 2p)`. -/
theorem fp2sqr_mont_facts {X : FpxCtx} (hS : X.toFieldCtx.Sound) (hsub : X.FpsubSound)
    (a : List Nat × List Nat) (ha0 : X.IsFelm a.1) (ha1 : X.IsFelm a.2) :
    (fp2sqr_mont_trace X a).carry_t1 = 0
    ∧ (fp2sqr_mont_trace X a).carry_t3 = 0
    ∧ value X.RADIX (fp2sqr_mont_trace X a).t1 = value X.RADIX a.1 + value X.RADIX a.2
    ∧ value X.RADIX (fp2sqr_mont_trace X a).t3 = value X.RADIX a.1 + value X.RADIX a.1
    ∧ (X.IsFelm (fp2sqr_mont_trace X a).t2
        ∧ value X.RADIX (fp2sqr_mont_trace X a).t2 + value X.RADIX a.2
            ≡ value X.RADIX a.1 [MOD p503])
    ∧ value X.RADIX (X.mp_mul (fp2sqr_mont_trace X a).t1 (fp2sqr_mont_trace X a).t2
        X.NWORDS_FIELD) < p503 * X.R
    ∧ value X.RADIX (X.mp_mul (fp2sqr_mont_trace X a).t3 a.2 X.NWORDS_FIELD) < p503 * X.R
    ∧ (X.IsFelm (fp2sqr_mont_trace X a).c0
        ∧ value X.RADIX (fp2sqr_mont_trace X a).c0 * X.R
            ≡ (value X.RADIX a.1 + value X.RADIX a.2) * value X.RADIX (fp2sqr_mont_trace X a).t2
              [MOD p503])
    ∧ (X.IsFelm (fp2sqr_mont_trace X a).c1
        ∧ value X.RADIX (fp2sqr_mont_trace X a).c1 * X.R
            ≡ (value X.RADIX a.1 + value X.RADIX a.1) * value X.RADIX a.2 [MOD p503]) := by
  have h8 : 8 * p503 ≤ X.R := by rw [hS.R_eq]; exact eight_p503_lt_R.le
  obtain ⟨c1, d1, v1⟩ := mp_addfast_spec hS a.1 a.2 ha0 ha1
  obtain ⟨c3, d3, v3⟩ := mp_addfast_spec hS a.1 a.1 ha0 ha0
  obtain ⟨s1, s2⟩ := hsub a.1 a.2 ha0 ha1
  have hlt1 : value X.RADIX (mp_addfast X.toFieldCtx a.1 a.2) * value X.RADIX (X.fpsub a.1 a.2)
      < p503 * X.R := by
    apply mul_lt_of_lt_four_mul _ _ _ _ _ s1.2 h8
    rw [v1]
    have h1 := ha0.2
    have h2 := ha1.2
    omega
  have hlt3 : value X.RADIX (mp_addfast X.toFieldCtx a.1 a.1) * value X.RADIX a.2
      < p503 * X.R := by
    apply mul_lt_of_lt_four_mul _ _ _ _ _ ha1.2 h8
    rw [v3]
    have h1 := ha0.2
    omega
  obtain ⟨m1, m2, m3⟩ := fpmul_mont_spec_of_lt hS _ _ d1 s1.1 hlt1
  obtain ⟨n1, n2, n3⟩ := fpmul_mont_spec_of_lt hS _ _ d3 ha1.1 hlt3
  rw [v1] at m3
  rw [v3] at n3
  exact ⟨c1, c3, v1, v3, ⟨s1, s2⟩, m1, n1, ⟨m2, m3⟩, ⟨n2, n3⟩⟩

theorem fpcorrection_eq_of_modEq {F : FieldCtx} (x y : List Nat) (hx : F.IsFelm x)
    (hy : F.IsFelm y) (h : value F.RADIX x ≡ value F.RADIX y [MOD p503]) :
    fpcorrection F x = fpcorrection F y := by
  rw [fpcorrection_spec _ hx, fpcorrection_spec _ hy]
  congr 1

/-- From congruence of the `R`-multiples in the integers to equal corrections. -/
theorem fpcorrection_eq_of_int_modEq {F : FieldCtx} (hS : F.Sound) (x y : List Nat) (z : ℤ)
    (hx : F.IsFelm x) (hy : F.IsFelm y)
    (h1 : ((value F.RADIX x * F.R : ℕ) : ℤ) ≡ z [ZMOD (p503 : ℕ)])
    (h2 : ((value F.RADIX y * F.R : ℕ) : ℤ) ≡ z [ZMOD (p503 : ℕ)]) :
    fpcorrection F x = fpcorrection F y := by
  have hcop : Nat.Coprime p503 F.R := by rw [hS.R_eq]; exact coprime_R_p503.symm
  apply fpcorrection_eq_of_modEq x y hx hy
  apply Nat.ModEq.cancel_right_of_coprime hcop
  exact Int.natCast_modEq_iff.1 (h1.trans h2.symm)

/-- The double-width real part is congruent to `a0*b0 - a1*b1`. -/
theorem fp2mul_tt3_int {F : FieldCtx} (a b : List Nat × List Nat) (hf : Fp2MulFacts F a b) :
    (value F.RADIX (fp2mul_mont_trace F a b).tt3 : ℤ)
        = (value F.RADIX a.1 : ℤ) * value F.RADIX b.1 - value F.RADIX a.2 * value F.RADIX b.2
          + (if value F.RADIX a.1 * value F.RADIX b.1 < value F.RADIX a.2 * value F.RADIX b.2
              then (p503 : ℤ) * F.R else 0)
    ∧ (value F.RADIX (fp2mul_mont_trace F a b).tt3 : ℤ)
        ≡ (value F.RADIX a.1 : ℤ) * value F.RADIX b.1 - value F.RADIX a.2 * value F.RADIX b.2
          [ZMOD (p503 : ℕ)] := by
  have h := hf.tt3_value
  have hz : ((value F.RADIX (fp2mul_mont_trace F a b).tt3
        + value F.RADIX a.2 * value F.RADIX b.2 : ℕ) : ℤ)
      = ((value F.RADIX a.1 * value F.RADIX b.1
        + (if value F.RADIX a.1 * value F.RADIX b.1 < value F.RADIX a.2 * value F.RADIX b.2
            then p503 * F.R else 0) : ℕ) : ℤ) := congrArg _ h
  have heq : (value F.RADIX (fp2mul_mont_trace F a b).tt3 : ℤ)
        = (value F.RADIX a.1 : ℤ) * value F.RADIX b.1 - value F.RADIX a.2 * value F.RADIX b.2
          + (if value F.RADIX a.1 * value F.RADIX b.1 < value F.RADIX a.2 * value F.RADIX b.2
              then (p503 : ℤ) * F.R else 0) := by
    split_ifs at hz ⊢ <;> push_cast at hz <;> linarith
  refine ⟨heq, ?_⟩
  rw [heq, Int.modEq_iff_dvd]
  split_ifs
  · exact ⟨-(F.R : ℤ), by ring⟩
  · exact ⟨0, by ring⟩

theorem fp2mul_mont_fst (F : FieldCtx) (a b : List Nat × List Nat) :
    (fp2mul_mont F a b).1 = F.rdc_mont (fp2mul_mont_trace F a b).tt3 := rfl

theorem fp2mul_mont_snd (F : FieldCtx) (a b : List Nat × List Nat) :
    (fp2mul_mont F a b).2 = F.rdc_mont (fp2mul_mont_trace F a b).tt2 := rfl

theorem fp2mul_mont_swap_eq {F : FieldCtx} (hS : F.Sound) (a b : List Nat × List Nat)
    (ha0 : F.IsFelm a.1) (ha1 : F.IsFelm a.2) (hb0 : F.IsFelm b.1) (hb1 : F.IsFelm b.2) :
    fp2mul_mont F a b = fp2mul_mont F b a := by
  have hab := fp2mul_mont_facts hS a b ha0 ha1 hb0 hb1
  have hba := fp2mul_mont_facts hS b a hb0 hb1 ha0 ha1
  have h3 : (fp2mul_mont_trace F a b).tt3 = (fp2mul_mont_trace F b a).tt3 := by
    apply value_injective _ _ _ _ hab.tt3_digits hba.tt3_digits
    have e1 := hab.tt3_value
    have e2 := hba.tt3_value
    rw [Nat.mul_comm (value F.RADIX b.1), Nat.mul_comm (value F.RADIX b.2)] at e2
    omega
  have h2 : (fp2mul_mont_trace F a b).tt2 = (fp2mul_mont_trace F b a).tt2 := by
    apply value_injective _ _ _ _ hab.tt2_digits hba.tt2_digits
    rw [hab.tt2_value, hba.tt2_value]
    ring
  apply Prod.ext
  · rw [fp2mul_mont_fst, fp2mul_mont_fst, h3]
  · rw [fp2mul_mont_snd, fp2mul_mont_snd, h2]

theorem isFelm_demoF2 :
    stdField.IsFelm demoF2a.1 ∧ stdField.IsFelm demoF2a.2
      ∧ stdField.IsFelm demoF2b.1 ∧ stdField.IsFelm demoF2b.2
      ∧ stdField.IsFelm demoF2c.1 ∧ stdField.IsFelm demoF2c.2 := by
  decide!

theorem stdFpx_fpsubSound : stdFpx.FpsubSound := by
  intro a b ha hb
  have h1 : fpsub_2p (value 64 a) (value 64 b) < 2 * p503 := by
    have ha2 : value 64 a < 2 * p503 := ha.2
    have hb2 : value 64 b < 2 * p503 := hb.2
    unfold fpsub_2p
    split_ifs <;> omega
  have h64 : fpsub_2p (value 64 a) (value 64 b) < 2 ^ (64 * 8) := by
    rw [show (64 : ℕ) * 8 = 512 from rfl]
    exact lt_trans h1 two_p503_lt_R
  have hv : value 64 (toDigits 64 8 (fpsub_2p (value 64 a) (value 64 b)))
      = fpsub_2p (value 64 a) (value 64 b) := value_toDigits_of_lt _ _ _ h64
  refine ⟨⟨isDigits_toDigits _ _ _, ?_⟩, ?_⟩
  · show value 64 (toDigits 64 8 (fpsub_2p (value 64 a) (value 64 b))) < 2 * p503
    rw [hv]; exact h1
  · show value 64 (toDigits 64 8 (fpsub_2p (value 64 a) (value 64 b))) + value 64 b
      ≡ value 64 a [MOD p503]
    rw [hv]
    unfold fpsub_2p
    split_ifs with h
    · rw [Nat.sub_add_cancel h]
    · have hb2 : value 64 b < 2 * p503 := hb.2
      have e : value 64 a + 2 * p503 - value 64 b + value 64 b = value 64 a + 2 * p503 := by
        omega
      rw [e]
      have h0 : 2 * p503 ≡ 0 [MOD p503] := (Nat.modEq_zero_iff_dvd).2 (Dvd.intro_left _ rfl)
      exact Nat.ModEq.add_left _ h0

/-! ## Claims on GF(p^2) multiplication and squaring -/

/-- C11. GF(p^2) multiplication is commutative: for operands with components in `[0, 2p)`,
`fp2mul_mont(a, b)` and `fp2mul_mont(b, a)` are equal after `fp2correction` (and already
before it). -/
theorem fp2mul_mont_comm (F : FieldCtx) (hS : F.Sound) (a b : List Nat × List Nat)
    (ha0 : F.IsFelm a.1) (ha1 : F.IsFelm a.2) (hb0 : F.IsFelm b.1) (hb1 : F.IsFelm b.2) :
    fp2correction F (fp2mul_mont F a b) = fp2correction F (fp2mul_mont F b a)
    ∧ fp2mul_mont F a b = fp2mul_mont F b a := by
  have h := fp2mul_mont_swap_eq hS a b ha0 ha1 hb0 hb1
  exact ⟨by rw [h], h⟩

/-- Witness of C11 on 64-bit digits with the textbook reduction. -/
theorem fp2mul_mont_comm_witness :
    fp2correction stdField (fp2mul_mont stdField demoF2a demoF2b)
        = fp2correction stdField (fp2mul_mont stdField demoF2b demoF2a)
    ∧ fp2mul_mont stdField demoF2a demoF2b = fp2mul_mont stdField demoF2b demoF2a :=
  fp2mul_mont_comm stdField stdField_sound demoF2a demoF2b isFelm_demoF2.1 isFelm_demoF2.2.1
    isFelm_demoF2.2.2.1 isFelm_demoF2.2.2.2.1

/-- C15. `fp2mul_mont` computes the GF(p^2) product with `i^2 = -1` in Montgomery form: for
operands with components in `[0, 2p)` the outputs satisfy `c0 * R ≡ a0*b0 - a1*b1` and
`c1 * R ≡ a0*b1 + a1*b0` modulo `p`, with `R = 2^512`. -/
theorem fp2mul_mont_congr (F : FieldCtx) (hS : F.Sound) (a b : List Nat × List Nat)
    (ha0 : F.IsFelm a.1) (ha1 : F.IsFelm a.2) (hb0 : F.IsFelm b.1) (hb1 : F.IsFelm b.2) :
    (value F.RADIX (fp2mul_mont F a b).1 : ℤ) * F.R
        ≡ (value F.RADIX a.1 : ℤ) * value F.RADIX b.1 - value F.RADIX a.2 * value F.RADIX b.2
          [ZMOD (p503 : ℕ)]
    ∧ (value F.RADIX (fp2mul_mont F a b).2 : ℤ) * F.R
        ≡ (value F.RADIX a.1 : ℤ) * value F.RADIX b.2 + value F.RADIX a.2 * value F.RADIX b.1
          [ZMOD (p503 : ℕ)]
    ∧ F.R = 2 ^ 512 := by
  have hf := fp2mul_mont_facts hS a b ha0 ha1 hb0 hb1
  have h0 := Int.natCast_modEq_iff.2 hf.c0_congr
  have h1 := Int.natCast_modEq_iff.2 hf.c1_congr
  rw [hf.tt2_value] at h1
  push_cast at h0 h1
  exact ⟨h0.trans (fp2mul_tt3_int a b hf).2, h1, hS.R_eq⟩

/-- Witness of C15 on 64-bit digits with the textbook reduction. -/
theorem fp2mul_mont_congr_witness :
    (value stdField.RADIX (fp2mul_mont stdField demoF2a demoF2c).1 : ℤ) * stdField.R
        ≡ (value stdField.RADIX demoF2a.1 : ℤ) * value stdField.RADIX demoF2c.1
            - value stdField.RADIX demoF2a.2 * value stdField.RADIX demoF2c.2
          [ZMOD (p503 : ℕ)]
    ∧ (value stdField.RADIX (fp2mul_mont stdField demoF2a demoF2c).2 : ℤ) * stdField.R
        ≡ (value stdField.RADIX demoF2a.1 : ℤ) * value stdField.RADIX demoF2c.2
            + value stdField.RADIX demoF2a.2 * value stdField.RADIX demoF2c.1
          [ZMOD (p503 : ℕ)]
    ∧ stdField.R = 2 ^ 512 :=
  fp2mul_mont_congr stdField stdField_sound demoF2a demoF2c isFelm_demoF2.1 isFelm_demoF2.2.1
    isFelm_demoF2.2.2.2.2.1 isFelm_demoF2.2.2.2.2.2

/-- C16. Borrow-masked correction in `fp2mul_mont`: for operands with components in `[0, 2p)`
the double-width `tt3` handed to `rdc_mont` is exactly `a0*b0 - a1*b1` when that is
non-negative and `a0*b0 - a1*b1 + p * 2^(RADIX*NWORDS_FIELD)` otherwise; the mask is all ones
and the final carry of the masked addition is 1 exactly when the subtraction borrowed; the
value is below `p * R` and congruent to `a0*b0 - a1*b1` modulo `p`. -/
theorem fp2mul_mont_tt3_exact (F : FieldCtx) (hS : F.Sound) (a b : List Nat × List Nat)
    (ha0 : F.IsFelm a.1) (ha1 : F.IsFelm a.2) (hb0 : F.IsFelm b.1) (hb1 : F.IsFelm b.2) :
    (value F.RADIX (fp2mul_mont_trace F a b).tt3 : ℤ)
        = (value F.RADIX a.1 : ℤ) * value F.RADIX b.1 - value F.RADIX a.2 * value F.RADIX b.2
          + (if value F.RADIX a.1 * value F.RADIX b.1 < value F.RADIX a.2 * value F.RADIX b.2
              then (p503 : ℤ) * (2 ^ (F.RADIX * F.NWORDS_FIELD) : ℕ) else 0)
    ∧ (fp2mul_mont_trace F a b).mask
        = (if value F.RADIX a.1 * value F.RADIX b.1 < value F.RADIX a.2 * value F.RADIX b.2
            then 2 ^ F.RADIX - 1 else 0)
    ∧ (fp2mul_mont_trace F a b).borrow
        = (if value F.RADIX a.1 * value F.RADIX b.1 < value F.RADIX a.2 * value F.RADIX b.2
            then 1 else 0)
    ∧ IsDigits F.RADIX (2 * F.NWORDS_FIELD) (fp2mul_mont_trace F a b).tt3
    ∧ value F.RADIX (fp2mul_mont_trace F a b).tt3 < p503 * 2 ^ (F.RADIX * F.NWORDS_FIELD)
    ∧ (value F.RADIX (fp2mul_mont_trace F a b).tt3 : ℤ)
        ≡ (value F.RADIX a.1 : ℤ) * value F.RADIX b.1 - value F.RADIX a.2 * value F.RADIX b.2
          [ZMOD (p503 : ℕ)] := by
  have hf := fp2mul_mont_facts hS a b ha0 ha1 hb0 hb1
  obtain ⟨h1, h2⟩ := fp2mul_tt3_int a b hf
  exact ⟨h1, hf.mask, hf.borrow, hf.tt3_digits, hf.tt3_lt, h2⟩

/-- Witness of C16 on 64-bit digits, at operands for which the subtraction borrows. -/
theorem fp2mul_mont_tt3_exact_witness :
    (value stdField.RADIX (fp2mul_mont_trace stdField demoF2a demoF2c).tt3 : ℤ)
        = (value stdField.RADIX demoF2a.1 : ℤ) * value stdField.RADIX demoF2c.1
            - value stdField.RADIX demoF2a.2 * value stdField.RADIX demoF2c.2
          + (if value stdField.RADIX demoF2a.1 * value stdField.RADIX demoF2c.1
                < value stdField.RADIX demoF2a.2 * value stdField.RADIX demoF2c.2
              then (p503 : ℤ) * (2 ^ (stdField.RADIX * stdField.NWORDS_FIELD) : ℕ) else 0)
    ∧ (fp2mul_mont_trace stdField demoF2a demoF2c).mask
        = (if value stdField.RADIX demoF2a.1 * value stdField.RADIX demoF2c.1
              < value stdField.RADIX demoF2a.2 * value stdField.RADIX demoF2c.2
            then 2 ^ stdField.RADIX - 1 else 0)
    ∧ (fp2mul_mont_trace stdField demoF2a demoF2c).borrow
        = (if value stdField.RADIX demoF2a.1 * value stdField.RADIX demoF2c.1
              < value stdField.RADIX demoF2a.2 * value stdField.RADIX demoF2c.2
            then 1 else 0)
    ∧ IsDigits stdField.RADIX (2 * stdField.NWORDS_FIELD)
        (fp2mul_mont_trace stdField demoF2a demoF2c).tt3
    ∧ value stdField.RADIX (fp2mul_mont_trace stdField demoF2a demoF2c).tt3
        < p503 * 2 ^ (stdField.RADIX * stdField.NWORDS_FIELD)
    ∧ (value stdField.RADIX (fp2mul_mont_trace stdField demoF2a demoF2c).tt3 : ℤ)
        ≡ (value stdField.RADIX demoF2a.1 : ℤ) * value stdField.RADIX demoF2c.1
            - value stdField.RADIX demoF2a.2 * value stdField.RADIX demoF2c.2
          [ZMOD (p503 : ℕ)] :=
  fp2mul_mont_tt3_exact stdField stdField_sound demoF2a demoF2c isFelm_demoF2.1
    isFelm_demoF2.2.1 isFelm_demoF2.2.2.2.2.1 isFelm_demoF2.2.2.2.2.2

theorem fp2sqr_mont_fst (X : FpxCtx) (a : List Nat × List Nat) :
    (fp2sqr_mont X a).1 = (fp2sqr_mont_trace X a).c0 := rfl

theorem fp2sqr_mont_snd (X : FpxCtx) (a : List Nat × List Nat) :
    (fp2sqr_mont X a).2 = (fp2sqr_mont_trace X a).c1 := rfl

/-- The outputs of `fp2sqr_mont` as congruences in the integers. -/
theorem fp2sqr_mont_int {X : FpxCtx} (hS : X.toFieldCtx.Sound) (hsub : X.FpsubSound)
    (a : List Nat × List Nat) (ha0 : X.IsFelm a.1) (ha1 : X.IsFelm a.2) :
    ((value X.RADIX (fp2sqr_mont X a).1 * X.R : ℕ) : ℤ)
        ≡ ((value X.RADIX a.1 : ℤ) + value X.RADIX a.2)
            * ((value X.RADIX a.1 : ℤ) - value X.RADIX a.2) [ZMOD (p503 : ℕ)]
    ∧ ((value X.RADIX (fp2sqr_mont X a).2 * X.R : ℕ) : ℤ)
        ≡ 2 * (value X.RADIX a.1 : ℤ) * value X.RADIX a.2 [ZMOD (p503 : ℕ)] := by
  obtain ⟨_, _, _, _, ⟨_, s2⟩, _, _, ⟨_, m3⟩, ⟨_, n3⟩⟩ := fp2sqr_mont_facts hS hsub a ha0 ha1
  have hs := Int.natCast_modEq_iff.2 s2
  have hm := Int.natCast_modEq_iff.2 m3
  have hn := Int.natCast_modEq_iff.2 n3
  push_cast at hs hm hn
  have ht : (value X.RADIX (fp2sqr_mont_trace X a).t2 : ℤ)
      ≡ (value X.RADIX a.1 : ℤ) - value X.RADIX a.2 [ZMOD (p503 : ℕ)] := by
    have := hs.sub_right (value X.RADIX a.2 : ℤ)
    simpa using this
  refine ⟨?_, ?_⟩
  · rw [fp2sqr_mont_fst]
    push_cast
    exact hm.trans (Int.ModEq.mul_left _ ht)
  · rw [fp2sqr_mont_snd]
    push_cast
    have e : ((value X.RADIX a.1 : ℤ) + value X.RADIX a.1) * value X.RADIX a.2
        = 2 * (value X.RADIX a.1 : ℤ) * value X.RADIX a.2 := by ring
    rw [← e]
    exact hn

/-- C17. `fp2sqr_mont` agrees with `fp2mul_mont` on the diagonal: for `a0, a1` in `[0, 2p)` and
an `fpsub` with `fpsub(x, y) ≡ x - y` in `[0, 2p)`, the outputs satisfy
`c0 * R ≡ (a0+a1)*(a0-a1) = a0^2 - a1^2` and `c1 * R ≡ 2*a0*a1` modulo `p`, and after
`fp2correction` the result equals `fp2mul_mont(a, a)` after `fp2correction`. -/
theorem fp2sqr_mont_agrees (X : FpxCtx) (hS : X.toFieldCtx.Sound) (hsub : X.FpsubSound)
    (a : List Nat × List Nat) (ha0 : X.IsFelm a.1) (ha1 : X.IsFelm a.2) :
    (value X.RADIX (fp2sqr_mont X a).1 : ℤ) * X.R
        ≡ ((value X.RADIX a.1 : ℤ) + value X.RADIX a.2)
            * ((value X.RADIX a.1 : ℤ) - value X.RADIX a.2) [ZMOD (p503 : ℕ)]
    ∧ ((value X.RADIX a.1 : ℤ) + value X.RADIX a.2)
          * ((value X.RADIX a.1 : ℤ) - value X.RADIX a.2)
        = (value X.RADIX a.1 : ℤ) ^ 2 - (value X.RADIX a.2 : ℤ) ^ 2
    ∧ (value X.RADIX (fp2sqr_mont X a).2 : ℤ) * X.R
        ≡ 2 * (value X.RADIX a.1 : ℤ) * value X.RADIX a.2 [ZMOD (p503 : ℕ)]
    ∧ fp2correction X.toFieldCtx (fp2sqr_mont X a)
        = fp2correction X.toFieldCtx (fp2mul_mont X.toFieldCtx a a) := by
  obtain ⟨h0, h1⟩ := fp2sqr_mont_int hS hsub a ha0 ha1
  obtain ⟨_, _, _, _, _, _, _, ⟨q0, _⟩, ⟨q1, _⟩⟩ := fp2sqr_mont_facts hS hsub a ha0 ha1
  have hf := fp2mul_mont_facts hS a a ha0 ha1 ha0 ha1
  have g0 := (Int.natCast_modEq_iff.2 hf.c0_congr).trans (fp2mul_tt3_int a a hf).2
  have g1 := Int.natCast_modEq_iff.2 hf.c1_congr
  rw [hf.tt2_value] at g1
  have e0 : (value X.RADIX a.1 : ℤ) * value X.RADIX a.1
        - (value X.RADIX a.2 : ℤ) * value X.RADIX a.2
      = ((value X.RADIX a.1 : ℤ) + value X.RADIX a.2)
          * ((value X.RADIX a.1 : ℤ) - value X.RADIX a.2) := by ring
  have e1 : ((value X.RADIX a.1 * value X.RADIX a.2
        + value X.RADIX a.2 * value X.RADIX a.1 : ℕ) : ℤ)
      = 2 * (value X.RADIX a.1 : ℤ) * value X.RADIX a.2 := by push_cast; ring
  rw [e0] at g0
  rw [e1] at g1
  refine ⟨by have := h0; push_cast at this; exact this, by ring,
    by have := h1; push_cast at this; exact this, ?_⟩
  apply Prod.ext
  · exact fpcorrection_eq_of_int_modEq hS _ _ _ q0 hf.c0_felm h0 g0
  · exact fpcorrection_eq_of_int_modEq hS _ _ _ q1 hf.c1_felm h1 g1

/-- Witness of C17 on 64-bit digits, at the operand `(2p - 1) + 11·i`. -/
theorem fp2sqr_mont_agrees_witness :
    fp2correction stdFpx.toFieldCtx (fp2sqr_mont stdFpx demoF2b)
      = fp2correction stdFpx.toFieldCtx (fp2mul_mont stdFpx.toFieldCtx demoF2b demoF2b) :=
  (fp2sqr_mont_agrees stdFpx stdField_sound stdFpx_fpsubSound demoF2b isFelm_demoF2.2.2.1
    isFelm_demoF2.2.2.2.1).2.2.2

/-- C18. The addition chain has the right exponent. Tracking only exponents of `a` (squaring
doubles, multiplying adds), the table holds `a^(2i+3)` for `i = 0..14`, the chain replaces `a`
by `a^e` with `e = (p-3)/4 = 2^248 * 3^159 - 1`, and `fpinv_mont` reaches the exponent `p - 2`;
accordingly, in the field, the elements the residues stand for are raised to these powers. -/
theorem fpinv_chain_exponent (F : FieldCtx) (hS : F.Sound) (a : List Nat) (ha : F.IsFelm a) :
    (∀ i, i < 15 → fpinv_chain_t expField [1] i = [2 * i + 3])
    ∧ fpinv_chain_mont expField [1] = [2 ^ 248 * 3 ^ 159 - 1]
    ∧ (p503 - 3) / 4 = 2 ^ 248 * 3 ^ 159 - 1
    ∧ fpinv_mont expField [1] = [p503 - 2]
    ∧ montVal F (fpinv_chain_mont F a) = montVal F a ^ ((p503 - 3) / 4)
    ∧ montVal F (fpinv_mont F a) = montVal F a ^ (p503 - 2) := by
  haveI : Fact (Nat.Prime p503) := ⟨p503_prime⟩
  exact ⟨by decide!, by decide!, by decide!, by decide!, (fpinv_chain_mont_spec hS a ha).2,
    (fpinv_mont_spec hS a ha).2⟩

/-- Witness of C18 on 64-bit digits with the textbook reduction, at `a = 3 + 2^64 * 7`. -/
theorem fpinv_chain_exponent_witness :
    montVal stdField (fpinv_chain_mont stdField [3, 7, 0, 0, 0, 0, 0, 0])
        = montVal stdField [3, 7, 0, 0, 0, 0, 0, 0] ^ ((p503 - 3) / 4)
    ∧ montVal stdField (fpinv_mont stdField [3, 7, 0, 0, 0, 0, 0, 0])
        = montVal stdField [3, 7, 0, 0, 0, 0, 0, 0] ^ (p503 - 2) :=
  (fpinv_chain_exponent stdField stdField_sound [3, 7, 0, 0, 0, 0, 0, 0] (by decide!)).2.2.2.2

/-- C19. The lazy-reduction range is closed under the GF(p^2) multiply and square: for operands
with components in `[0, 2p)`, every output component of `fp2mul_mont` and `fp2sqr_mont` is in
`[0, 2p)`, and every double-width value these functions hand to `rdc_mont` is below
`p * 2^(RADIX*NWORDS_FIELD)`. -/
theorem lazy_range_closed (X : FpxCtx) (hS : X.toFieldCtx.Sound) (hsub : X.FpsubSound)
    (a b : List Nat × List Nat)
    (ha0 : X.IsFelm a.1) (ha1 : X.IsFelm a.2) (hb0 : X.IsFelm b.1) (hb1 : X.IsFelm b.2) :
    (X.IsFelm (fp2mul_mont X.toFieldCtx a b).1 ∧ X.IsFelm (fp2mul_mont X.toFieldCtx a b).2)
    ∧ (X.IsFelm (fp2sqr_mont X a).1 ∧ X.IsFelm (fp2sqr_mont X a).2)
    ∧ value X.RADIX (fp2mul_mont_trace X.toFieldCtx a b).tt3
        < p503 * 2 ^ (X.RADIX * X.NWORDS_FIELD)
    ∧ value X.RADIX (fp2mul_mont_trace X.toFieldCtx a b).tt2
        < p503 * 2 ^ (X.RADIX * X.NWORDS_FIELD)
    ∧ value X.RADIX (X.mp_mul (fp2sqr_mont_trace X a).t1 (fp2sqr_mont_trace X a).t2
        X.NWORDS_FIELD) < p503 * 2 ^ (X.RADIX * X.NWORDS_FIELD)
    ∧ value X.RADIX (X.mp_mul (fp2sqr_mont_trace X a).t3 a.2 X.NWORDS_FIELD)
        < p503 * 2 ^ (X.RADIX * X.NWORDS_FIELD) := by
  have hf := fp2mul_mont_facts hS a b ha0 ha1 hb0 hb1
  obtain ⟨_, _, _, _, _, r1, r2, ⟨q0, _⟩, ⟨q1, _⟩⟩ := fp2sqr_mont_facts hS hsub a ha0 ha1
  exact ⟨⟨hf.c0_felm, hf.c1_felm⟩, ⟨q0, q1⟩, hf.tt3_lt, hf.tt2_lt, r1, r2⟩

/-- Witness of C19 on 64-bit digits with the textbook reduction. -/
theorem lazy_range_closed_witness :
    (stdFpx.IsFelm (fp2mul_mont stdFpx.toFieldCtx demoF2b demoF2c).1
      ∧ stdFpx.IsFelm (fp2mul_mont stdFpx.toFieldCtx demoF2b demoF2c).2)
    ∧ (stdFpx.IsFelm (fp2sqr_mont stdFpx demoF2b).1
      ∧ stdFpx.IsFelm (fp2sqr_mont stdFpx demoF2b).2) :=
  ⟨(lazy_range_closed stdFpx stdField_sound stdFpx_fpsubSound demoF2b demoF2c
      isFelm_demoF2.2.2.1 isFelm_demoF2.2.2.2.1 isFelm_demoF2.2.2.2.2.1
      isFelm_demoF2.2.2.2.2.2).1,
    (lazy_range_closed stdFpx stdField_sound stdFpx_fpsubSound demoF2b demoF2c
      isFelm_demoF2.2.2.1 isFelm_demoF2.2.2.2.1 isFelm_demoF2.2.2.2.2.1
      isFelm_demoF2.2.2.2.2.2).2.1⟩

/-- C20. The discarded carries and borrows in `fp2mul_mont` and `fp2sqr_mont` are zero: for
operands with components in `[0, 2p)`, (i) the field-length additions `a0 + a1`, `b0 + b1` and
`a0 + a0` return carry 0 and hold the exact sums, (ii) the double-width addition of `a0*b0` and
`a1*b1` returns carry 0, and (iii) the second subtraction returns mask 0 and leaves exactly
`a0*b1 + a1*b0` in `tt2`. -/
theorem discarded_carries_zero (X : FpxCtx) (hS : X.toFieldCtx.Sound)
    (a b : List Nat × List Nat)
    (ha0 : X.IsFelm a.1) (ha1 : X.IsFelm a.2) (hb0 : X.IsFelm b.1) (hb1 : X.IsFelm b.2) :
    ((fp2mul_mont_trace X.toFieldCtx a b).carry_t1 = 0
      ∧ value X.RADIX (mp_addfast X.toFieldCtx a.1 a.2)
          = value X.RADIX a.1 + value X.RADIX a.2)
    ∧ ((fp2mul_mont_trace X.toFieldCtx a b).carry_t2 = 0
      ∧ value X.RADIX (mp_addfast X.toFieldCtx b.1 b.2)
          = value X.RADIX b.1 + value X.RADIX b.2)
    ∧ ((fp2sqr_mont_trace X a).carry_t1 = 0
      ∧ value X.RADIX (fp2sqr_mont_trace X a).t1 = value X.RADIX a.1 + value X.RADIX a.2)
    ∧ ((fp2sqr_mont_trace X a).carry_t3 = 0
      ∧ value X.RADIX (fp2sqr_mont_trace X a).t3 = 2 * value X.RADIX a.1)
    ∧ (fp2mul_mont_trace X.toFieldCtx a b).carry_tt1 = 0
    ∧ ((fp2mul_mont_trace X.toFieldCtx a b).mask2 = 0
      ∧ value X.RADIX (fp2mul_mont_trace X.toFieldCtx a b).tt2
          = value X.RADIX a.1 * value X.RADIX b.2 + value X.RADIX a.2 * value X.RADIX b.1) := by
  have hf := fp2mul_mont_facts hS a b ha0 ha1 hb0 hb1
  obtain ⟨c1, _, v1⟩ := mp_addfast_spec hS a.1 a.2 ha0 ha1
  obtain ⟨c2, _, v2⟩ := mp_addfast_spec hS b.1 b.2 hb0 hb1
  obtain ⟨c3, _, v3⟩ := mp_addfast_spec hS a.1 a.1 ha0 ha0
  exact ⟨⟨hf.carry_t1, v1⟩, ⟨hf.carry_t2, v2⟩, ⟨c1, v1⟩, ⟨c3, by rw [Nat.two_mul]; exact v3⟩,
    hf.carry_tt1, ⟨hf.mask2, hf.tt2_value⟩⟩

/-- Witness of C20 on 64-bit digits with the textbook reduction. -/
theorem discarded_carries_zero_witness :
    (fp2mul_mont_trace stdFpx.toFieldCtx demoF2b demoF2c).carry_tt1 = 0
    ∧ ((fp2mul_mont_trace stdFpx.toFieldCtx demoF2b demoF2c).mask2 = 0
      ∧ value stdFpx.RADIX (fp2mul_mont_trace stdFpx.toFieldCtx demoF2b demoF2c).tt2
          = value stdFpx.RADIX demoF2b.1 * value stdFpx.RADIX demoF2c.2
            + value stdFpx.RADIX demoF2b.2 * value stdFpx.RADIX demoF2c.1) :=
  (discarded_carries_zero stdFpx stdField_sound demoF2b demoF2c isFelm_demoF2.2.2.1
    isFelm_demoF2.2.2.2.1 isFelm_demoF2.2.2.2.2.1 isFelm_demoF2.2.2.2.2.2).2.2.2.2

end SikeR1
